import Mathlib

/-!
# Verification of the Blender motion-tracking core (blenkernel/intern/tracking.c)

Shallow embedding of the marker store, track join, path clearing, clamping,
channel disabling, dopesheet coverage, reconstruction retrieval and 2D
stabilization of `source/blender/blenkernel/intern/tracking.c`, together with
proofs and refutations of the specification claims about them.

C `float` arithmetic is embedded as exact rational arithmetic; C array indices
are embedded as integers, with out-of-range accesses (undefined behaviour in
the C source) surfacing as `none`.
-/

namespace Tracking

/-- 2D vector of rational coordinates, embedding a C `float[2]`. -/
abbrev Vec2 : Type := ℚ × ℚ

/-- A marker (DNA `MovieTrackingMarker`): per-frame observation of a feature.
The C `flag` bitfield is embedded by its two relevant bits, `MARKER_DISABLED`
and `MARKER_TRACKED`. -/
structure MovieTrackingMarker where
  framenr : Int
  pos : Vec2
  pattern_corners : Vec2 × Vec2 × Vec2 × Vec2
  search_min : Vec2
  search_max : Vec2
  disabled : Bool
  tracked : Bool
  deriving DecidableEq, Repr

/-- A track (DNA `MovieTrackingTrack`): its sorted marker array (`markers`,
`markersnr` is the list length), the `last_marker` cursor hint, and the flag
bits relevant to the claims (`TRACK_USE_2D_STAB`). -/
structure MovieTrackingTrack where
  markers : List MovieTrackingMarker
  last_marker : Nat
  use_2d_stab : Bool := false
  deriving DecidableEq, Repr

/-- The marker array invariant: strictly ascending by frame. -/
def MarkersSorted (ms : List MovieTrackingMarker) : Prop :=
  ms.Pairwise (fun m₁ m₂ => m₁.framenr < m₂.framenr)

instance (ms : List MovieTrackingMarker) : Decidable (MarkersSorted ms) := by
  unfold MarkersSorted; infer_instance

/-- C array access through an `int` index: a negative or out-of-range index is
undefined behaviour in the source and yields `none` here. -/
def cIdx {α : Type} (xs : List α) (i : Int) : Option α :=
  if i < 0 then none else xs.get? i.toNat

/-- The forward scan of `BKE_tracking_marker_get` (tracking.c:1170-1177):
starting at index `a`, walk right while the frame at the index is at most
`framenr`; the result is the final loop index together with whether the scan
stopped on an exact frame match. -/
def markerScanRight (ms : List MovieTrackingMarker) (framenr : Int) (a : Nat) : Nat × Bool :=
  if h : a < ms.length then
    if (ms.get ⟨a, h⟩).framenr ≤ framenr then
      if (ms.get ⟨a, h⟩).framenr = framenr then (a, true)
      else markerScanRight ms framenr (a + 1)
    else (a, false)
  else (a, false)
termination_by ms.length - a

/-- The backward scan of `BKE_tracking_marker_get` (tracking.c:1183-1191):
starting at (C `int`) index `a`, walk left while the frame at the index is at
least `framenr`. The index may leave the array on the left, which is why it is
an integer here, as in the source. -/
def markerScanLeft (ms : List MovieTrackingMarker) (framenr : Int) (a : Int) : Int × Bool :=
  if h : 0 ≤ a ∧ a.toNat < ms.length then
    if (ms.get ⟨a.toNat, h.2⟩).framenr ≥ framenr then
      if (ms.get ⟨a.toNat, h.2⟩).framenr = framenr then (a, true)
      else markerScanLeft ms framenr (a - 1)
    else (a, false)
  else (a, false)
termination_by (a + 1).toNat
decreasing_by
  obtain ⟨h1, h2⟩ := h
  omega

/-- `BKE_tracking_marker_get` (tracking.c:1155-1198) on the marker array `ms`
with cursor `last`. Returns the found marker together with the updated
`last_marker` cursor; `none` embeds both the NULL return for a track without
markers and any out-of-range array access. -/
def marker_get_impl (ms : List MovieTrackingMarker) (last : Nat) (framenr : Int) :
    Option (MovieTrackingMarker × Nat) :=
  match ms.head? with
  | none => none
  | some m0 =>
    if framenr < m0.framenr then some (m0, last)
    else
      let a0 : Nat := if last < ms.length then last else ms.length - 1
      match ms.get? a0 with
      | none => none
      | some ma =>
        if ma.framenr ≤ framenr then
          let r := markerScanRight ms framenr a0
          if r.2 then (ms.get? r.1).map (fun m => (m, r.1))
          else (cIdx ms ((r.1 : Int) - 1)).map (fun m => (m, last))
        else
          let r := markerScanLeft ms framenr (a0 : Int)
          if r.2 then (cIdx ms r.1).map (fun m => (m, r.1.toNat))
          else (cIdx ms r.1).map (fun m => (m, last))

/-- `BKE_tracking_marker_get` acting on a track. -/
def BKE_tracking_marker_get (track : MovieTrackingTrack) (framenr : Int) :
    Option (MovieTrackingMarker × Nat) :=
  marker_get_impl track.markers track.last_marker framenr

/-- Specification-side description of marker lookup, written from the claim:
the marker whose frame equals the query when one exists, otherwise the nearest
marker with frame at most the query, and the first marker when the query
precedes all marker frames. -/
def specNearestMarker (ms : List MovieTrackingMarker) (framenr : Int) :
    Option MovieTrackingMarker :=
  match (ms.filter (fun m => decide (m.framenr ≤ framenr))).getLast? with
  | some m => some m
  | none => ms.head?

/-! ## Sorted-array index facts used by the lookup proofs -/

/-- Number of leading markers with frame at most `framenr`; for a sorted array
this counts all such markers. -/
def kBound (ms : List MovieTrackingMarker) (framenr : Int) : Nat :=
  (ms.takeWhile (fun m => decide (m.framenr ≤ framenr))).length

/-- There is a marker at exactly the queried frame. -/
def HasExact (ms : List MovieTrackingMarker) (framenr : Int) : Prop :=
  ∃ m ∈ ms, m.framenr = framenr

instance (ms : List MovieTrackingMarker) (framenr : Int) :
    Decidable (HasExact ms framenr) := by
  unfold HasExact; infer_instance

theorem kBound_le (ms : List MovieTrackingMarker) (f : Int) : kBound ms f ≤ ms.length :=
  (List.takeWhile_prefix _).length_le

theorem frame_le_of_lt_kBound {ms : List MovieTrackingMarker} {f : Int} {i : Nat}
    (hi : i < kBound ms f) (h : i < ms.length) : ms[i].framenr ≤ f := by
  have hpre := List.takeWhile_prefix (l := ms) (fun m => decide (m.framenr ≤ f))
  have hi' : i < (ms.takeWhile (fun m => decide (m.framenr ≤ f))).length := hi
  have hget := hpre.getElem (n := i) hi'
  have hmem := List.getElem_mem hi'
  have := List.mem_takeWhile_imp hmem
  rw [hget] at this
  simpa using this

theorem frame_gt_at_kBound {ms : List MovieTrackingMarker} {f : Int}
    (hk : kBound ms f < ms.length) : f < ms[kBound ms f].framenr := by
  set p : MovieTrackingMarker → Bool := fun m => decide (m.framenr ≤ f) with hp
  have hsplit := List.takeWhile_append_dropWhile p ms
  have hlen : (List.takeWhile p ms).length = kBound ms f := rfl
  have h1 : ms[kBound ms f]? = (ms.dropWhile p)[0]? := by
    have hgen : ∀ n, n = kBound ms f → ms[n]? = (ms.dropWhile p)[0]? := by
      intro n hn
      conv_lhs => rw [← hsplit]
      rw [List.getElem?_append_right (by omega)]
      have : n - (List.takeWhile p ms).length = 0 := by omega
      rw [this]
    exact hgen _ rfl
  rw [← List.head?_eq_getElem?] at h1
  have h2 : ms[kBound ms f]? = some ms[kBound ms f] := List.getElem?_eq_getElem hk
  have hhead := List.head?_dropWhile_not p ms
  rw [← h1, h2] at hhead
  simp only [hp] at hhead
  simpa using hhead

/-- In a sorted array, position strictly below `kBound` is equivalent to the
frame being at most the query. -/
theorem lt_kBound_iff {ms : List MovieTrackingMarker} {f : Int}
    (hs : MarkersSorted ms) {i : Nat} (h : i < ms.length) :
    i < kBound ms f ↔ ms[i].framenr ≤ f := by
  constructor
  · intro hi; exact frame_le_of_lt_kBound hi h
  · intro hle
    by_contra hnot
    push_neg at hnot
    have hk : kBound ms f < ms.length := lt_of_le_of_lt hnot h
    have hgt := frame_gt_at_kBound hk
    rcases Nat.lt_or_ge (kBound ms f) i with hlt | hge
    · have := (List.pairwise_iff_getElem.1 hs) (kBound ms f) i hk h hlt
      omega
    · have heq : kBound ms f = i := le_antisymm hnot hge
      simp only [heq] at hgt
      omega

/-- In a sorted array an exact match sits exactly at index `kBound - 1`. -/
theorem hasExact_iff {ms : List MovieTrackingMarker} {f : Int}
    (hs : MarkersSorted ms) :
    HasExact ms f ↔ ∃ h : kBound ms f - 1 < ms.length,
      0 < kBound ms f ∧ ms[kBound ms f - 1].framenr = f := by
  constructor
  · rintro ⟨m, hm, hf⟩
    obtain ⟨i, hi, rfl⟩ := List.getElem_of_mem hm
    have hik : i < kBound ms f := (lt_kBound_iff hs hi).2 (le_of_eq hf)
    have hkl := kBound_le ms f
    have hlast : kBound ms f - 1 < ms.length := by omega
    refine ⟨hlast, by omega, ?_⟩
    rcases Nat.lt_or_ge i (kBound ms f - 1) with hlt | hge
    · have hle := frame_le_of_lt_kBound (f := f) (by omega) hlast
      have := (List.pairwise_iff_getElem.1 hs) i (kBound ms f - 1) hi hlast hlt
      omega
    · have : i = kBound ms f - 1 := by omega
      subst this; exact hf
  · rintro ⟨h, hpos, hf⟩
    exact ⟨ms[kBound ms f - 1], List.getElem_mem h, hf⟩

theorem frame_gt_of_kBound_le {ms : List MovieTrackingMarker} {f : Int}
    (hs : MarkersSorted ms) {i : Nat} (h : i < ms.length) (hk : kBound ms f ≤ i) :
    f < ms[i].framenr := by
  have := (lt_kBound_iff (f := f) hs h).2
  by_contra hc
  push_neg at hc
  exact absurd (this hc) (by omega)

/-- The exact-match index is `kBound - 1`: any index holding the queried frame
equals it. -/
theorem exact_index_eq {ms : List MovieTrackingMarker} {f : Int}
    (hs : MarkersSorted ms) {i : Nat} (h : i < ms.length)
    (hf : ms[i].framenr = f) : i = kBound ms f - 1 := by
  have hik : i < kBound ms f := (lt_kBound_iff hs h).2 (le_of_eq hf)
  rcases Nat.lt_or_ge i (kBound ms f - 1) with hlt | hge
  · have hkl := kBound_le ms f
    have hlast : kBound ms f - 1 < ms.length := by omega
    have hle := frame_le_of_lt_kBound (f := f) (i := kBound ms f - 1) (by omega) hlast
    have := (List.pairwise_iff_getElem.1 hs) i (kBound ms f - 1) h hlast hlt
    omega
  · omega

theorem markerScanRight_eq {ms : List MovieTrackingMarker} {f : Int}
    (hs : MarkersSorted ms) :
    ∀ a, a ≤ kBound ms f →
    markerScanRight ms f a =
      if a < kBound ms f ∧ HasExact ms f then (kBound ms f - 1, true)
      else (kBound ms f, false) := by
  intro a
  generalize hd : kBound ms f - a = d
  induction d generalizing a with
  | zero =>
    intro ha
    have hak : a = kBound ms f := by omega
    rw [markerScanRight]
    rcases Nat.lt_or_ge a ms.length with hlt | hge
    · have hgt : f < ms[a].framenr := frame_gt_of_kBound_le hs hlt (by omega)
      simp only [dif_pos hlt]
      rw [if_neg (by simp [List.get_eq_getElem]; omega)]
      simp [hak]
    · rw [dif_neg (show ¬ a < ms.length by omega)]
      simp [hak]
  | succ n ih =>
    intro ha
    have hak : a < kBound ms f := by omega
    have hal : a < ms.length := lt_of_lt_of_le hak (kBound_le ms f)
    have hle : ms[a].framenr ≤ f := frame_le_of_lt_kBound hak hal
    rw [markerScanRight]
    simp only [dif_pos hal, List.get_eq_getElem]
    rw [if_pos hle]
    by_cases hex : ms[a].framenr = f
    · rw [if_pos hex]
      have hidx : a = kBound ms f - 1 := exact_index_eq hs hal hex
      have hhe : HasExact ms f := ⟨ms[a], List.getElem_mem hal, hex⟩
      rw [if_pos ⟨hak, hhe⟩, hidx]
    · rw [if_neg hex]
      rw [ih (a + 1) (by omega) (by omega)]
      by_cases hhe : HasExact ms f
      · have hki : kBound ms f - 1 < ms.length := by
          have := kBound_le ms f; omega
        obtain ⟨hlast, hpos, hfr⟩ := (hasExact_iff hs).1 hhe
        have hane : a ≠ kBound ms f - 1 := by
          intro hcontra
          apply hex
          calc ms[a].framenr = ms[kBound ms f - 1].framenr := by simp only [hcontra]
            _ = f := hfr
        have : a + 1 < kBound ms f := by omega
        rw [if_pos ⟨this, hhe⟩, if_pos ⟨hak, hhe⟩]
      · rw [if_neg (by tauto), if_neg (by tauto)]

theorem markerScanLeft_eq {ms : List MovieTrackingMarker} {f : Int}
    (hs : MarkersSorted ms) :
    ∀ a : Int, (kBound ms f : Int) - 1 ≤ a → a < ms.length → 0 < kBound ms f →
    markerScanLeft ms f a = (((kBound ms f - 1 : Nat) : Int), decide (HasExact ms f)) := by
  intro a
  generalize hd : (a - ((kBound ms f : Int) - 1)).toNat = d
  induction d generalizing a with
  | zero =>
    intro ha hal hk
    have hak : a = (kBound ms f : Int) - 1 := by omega
    have haN : a.toNat = kBound ms f - 1 := by omega
    have halN : a.toNat < ms.length := by omega
    have hle : ms[a.toNat].framenr ≤ f := by
      apply frame_le_of_lt_kBound _ halN
      omega
    rw [markerScanLeft]
    simp only [dif_pos (⟨by omega, halN⟩ : 0 ≤ a ∧ a.toNat < ms.length),
      List.get_eq_getElem]
    by_cases hex : ms[a.toNat].framenr = f
    · rw [if_pos (by omega), if_pos hex]
      have hhe : HasExact ms f := ⟨ms[a.toNat], List.getElem_mem halN, hex⟩
      simp only [hhe, decide_eq_true_eq, Prod.mk.injEq, decide_eq_true hhe]
      constructor
      · omega
      · rfl
    · rw [if_neg (by omega)]
      have hhe : ¬ HasExact ms f := by
        intro hcontra
        obtain ⟨hlast, hpos, hfr⟩ := (hasExact_iff hs).1 hcontra
        apply hex
        calc ms[a.toNat].framenr = ms[kBound ms f - 1].framenr := by simp only [haN]
          _ = f := hfr
      simp only [Prod.mk.injEq]
      constructor
      · omega
      · simp [hhe]
  | succ n ih =>
    intro ha hal hk
    have hak : (kBound ms f : Int) ≤ a := by omega
    have halN : a.toNat < ms.length := by omega
    have hgt : f < ms[a.toNat].framenr := frame_gt_of_kBound_le hs halN (by omega)
    rw [markerScanLeft]
    simp only [dif_pos (⟨by omega, halN⟩ : 0 ≤ a ∧ a.toNat < ms.length),
      List.get_eq_getElem]
    rw [if_pos (by omega), if_neg (by omega)]
    exact ih (a - 1) (by omega) (by omega) (by omega) (by omega)

theorem filter_eq_takeWhile_sorted {ms : List MovieTrackingMarker} {f : Int}
    (hs : MarkersSorted ms) :
    ms.filter (fun m => decide (m.framenr ≤ f)) =
      ms.takeWhile (fun m => decide (m.framenr ≤ f)) := by
  induction ms with
  | nil => rfl
  | cons m t ih =>
    have ht : MarkersSorted t := (List.pairwise_cons.1 hs).2
    by_cases hm : m.framenr ≤ f
    · simp [List.filter_cons, List.takeWhile_cons, hm, ih ht]
    · have hall : ∀ x ∈ t, ¬ (x.framenr ≤ f) := by
        intro x hx
        have := (List.pairwise_cons.1 hs).1 x hx
        omega
      rw [List.filter_cons_of_neg (by simpa using hm),
        List.takeWhile_cons_of_neg (by simpa using hm)]
      exact List.filter_eq_nil_iff.2 (by intro a ha; simpa using hall a ha)

theorem specNearestMarker_eq {ms : List MovieTrackingMarker} {f : Int}
    (hs : MarkersSorted ms) :
    specNearestMarker ms f =
      if 0 < kBound ms f then ms[kBound ms f - 1]? else ms.head? := by
  unfold specNearestMarker
  rw [filter_eq_takeWhile_sorted hs]
  set p : MovieTrackingMarker → Bool := fun m => decide (m.framenr ≤ f) with hp
  have hlen : (List.takeWhile p ms).length = kBound ms f := rfl
  by_cases hk : 0 < kBound ms f
  · rw [if_pos hk]
    have hkl : kBound ms f - 1 < (List.takeWhile p ms).length := by omega
    have hpre := List.takeWhile_prefix (l := ms) p
    have hgl : (List.takeWhile p ms).getLast? = some (List.takeWhile p ms)[kBound ms f - 1] := by
      rw [List.getLast?_eq_getElem?, hlen]
      exact List.getElem?_eq_getElem hkl
    rw [hgl, hpre.getElem hkl]
    have hkm : kBound ms f - 1 < ms.length := lt_of_lt_of_le hkl hpre.length_le
    rw [List.getElem?_eq_getElem hkm]
  · rw [if_neg hk]
    have : List.takeWhile p ms = [] := by
      have : (List.takeWhile p ms).length = 0 := by omega
      exact List.length_eq_zero.1 this
    rw [this]
    rfl

theorem kBound_pos_iff {ms : List MovieTrackingMarker} {f : Int}
    (hs : MarkersSorted ms) (hne : ms ≠ []) :
    0 < kBound ms f ↔ (ms.head hne).framenr ≤ f := by
  have h0 : 0 < ms.length := List.length_pos.2 hne
  rw [List.head_eq_getElem]
  exact lt_kBound_iff hs h0

/-- Central description of `BKE_tracking_marker_get`: on a sorted non-empty
marker array it returns exactly the claim's marker, never NULL; the cursor is
moved to the marker's index on an exact frame match and kept otherwise. -/
theorem marker_get_impl_eq {ms : List MovieTrackingMarker} {f : Int}
    (hs : MarkersSorted ms) (hne : ms ≠ []) (last : Nat) :
    marker_get_impl ms last f =
      (specNearestMarker ms f).map
        (fun m => (m, if HasExact ms f then kBound ms f - 1 else last)) := by
  have h0 : 0 < ms.length := List.length_pos.2 hne
  have hhead : ms.head? = some ms[0] := by
    rw [List.head?_eq_getElem?]; exact List.getElem?_eq_getElem h0
  rw [marker_get_impl, hhead]
  simp only
  by_cases hlt : f < ms[0].framenr
  · rw [if_pos hlt]
    have hk0 : kBound ms f = 0 := by
      by_contra hc
      have hkpos : 0 < kBound ms f := Nat.pos_of_ne_zero hc
      have := frame_le_of_lt_kBound (f := f) (i := 0) hkpos h0
      omega
    have hhe : ¬ HasExact ms f := by
      intro hcontra
      obtain ⟨hl, hpos, _⟩ := (hasExact_iff hs).1 hcontra
      omega
    rw [specNearestMarker_eq hs, if_neg (show ¬ 0 < kBound ms f by omega), hhead]
    simp [hhe]
  · rw [if_neg hlt]
    push_neg at hlt
    have hk : 0 < kBound ms f := (lt_kBound_iff hs h0).2 hlt
    have hkl := kBound_le ms f
    set a0 : Nat := if last < ms.length then last else ms.length - 1 with ha0
    have ha0l : a0 < ms.length := by
      rw [ha0]; split <;> omega
    have hget : ms.get? a0 = some ms[a0] := by
      rw [List.get?_eq_getElem?]; exact List.getElem?_eq_getElem ha0l
    rw [hget]
    simp only
    rw [specNearestMarker_eq hs, if_pos hk]
    have hklm : kBound ms f - 1 < ms.length := by omega
    rw [List.getElem?_eq_getElem hklm]
    by_cases hble : ms[a0].framenr ≤ f
    · rw [if_pos hble]
      have ha0k : a0 < kBound ms f := (lt_kBound_iff hs ha0l).2 hble
      by_cases hhe : HasExact ms f
      · have hscan : markerScanRight ms f a0 = (kBound ms f - 1, true) := by
          rw [markerScanRight_eq hs a0 (by omega)]
          exact if_pos ⟨ha0k, hhe⟩
        rw [hscan]
        have hg : ms.get? (kBound ms f - 1) = some ms[kBound ms f - 1] := by
          rw [List.get?_eq_getElem?]; exact List.getElem?_eq_getElem hklm
        simp only [if_pos hhe]
        simp only [hg]
        rfl
      · have hscan : markerScanRight ms f a0 = (kBound ms f, false) := by
          rw [markerScanRight_eq hs a0 (by omega)]
          exact if_neg (by tauto)
        rw [hscan]
        have hc : cIdx ms ((kBound ms f : Int) - 1) = some ms[kBound ms f - 1] := by
          unfold cIdx
          rw [if_neg (by omega)]
          have h9 : ((kBound ms f : Int) - 1).toNat = kBound ms f - 1 := by omega
          rw [h9, List.get?_eq_getElem?]
          exact List.getElem?_eq_getElem hklm
        simp only [if_neg hhe]
        simp only [hc]
        rfl
    · rw [if_neg hble]
      push_neg at hble
      have ha0k : kBound ms f ≤ a0 := by
        by_contra hc
        push_neg at hc
        have := frame_le_of_lt_kBound hc ha0l
        omega
      have hscan : markerScanLeft ms f (a0 : Int) =
          (((kBound ms f - 1 : Nat) : Int), decide (HasExact ms f)) :=
        markerScanLeft_eq hs (a0 : Int) (by omega) (by omega) hk
      rw [hscan]
      have hc : cIdx ms ((kBound ms f - 1 : Nat) : Int) = some ms[kBound ms f - 1] := by
        unfold cIdx
        rw [if_neg (by omega)]
        have h9 : ((kBound ms f - 1 : Nat) : Int).toNat = kBound ms f - 1 := by omega
        rw [h9, List.get?_eq_getElem?]
        exact List.getElem?_eq_getElem hklm
      by_cases hhe : HasExact ms f
      · simp only [decide_eq_true hhe, if_pos hhe]
        simp only [hc]
        simp
      · simp only [decide_eq_false hhe, if_neg hhe]
        simp only [hc]
        simp

/-- An enabled marker at frame `f` at position `(px, py)` with zero-sized
pattern and search regions, used by the concrete test tracks. -/
def testMarker (f : Int) (px py : ℚ) : MovieTrackingMarker :=
  { framenr := f, pos := (px, py), pattern_corners := ((0, 0), (0, 0), (0, 0), (0, 0)),
    search_min := (0, 0), search_max := (0, 0), disabled := false, tracked := false }

/-- The scenario S1 track with markers at frames 5, 10 and 20. -/
def track520 : MovieTrackingTrack :=
  { markers := [testMarker 5 0 0, testMarker 10 0 0, testMarker 20 0 0], last_marker := 0 }

/-- C1: for every track with at least one marker (sorted marker array) and
every queried frame, `BKE_tracking_marker_get` returns exactly the marker
described by `specNearestMarker` (the exact match when present, otherwise the
nearest marker with frame at most the query, otherwise the first marker); it
never returns NULL under this precondition; the returned marker does not
depend on the `last_marker` cursor hint; and the hint is updated (to the index
of the found marker) only on an exact frame match, being left untouched
otherwise. -/
theorem C1_marker_get_spec (track : MovieTrackingTrack) (f : Int)
    (hs : MarkersSorted track.markers) (hne : track.markers ≠ []) :
    ∃ m cur,
      BKE_tracking_marker_get track f = some (m, cur) ∧
      specNearestMarker track.markers f = some m ∧
      (∀ last', (marker_get_impl track.markers last' f).map Prod.fst = some m) ∧
      (HasExact track.markers f →
        m.framenr = f ∧ cur = kBound track.markers f - 1) ∧
      (¬ HasExact track.markers f → cur = track.last_marker) := by
  set ms := track.markers with hms
  have hspec : ∃ m, specNearestMarker ms f = some m := by
    rw [specNearestMarker_eq hs]
    by_cases hk : 0 < kBound ms f
    · rw [if_pos hk]
      have hklm : kBound ms f - 1 < ms.length := by
        have := kBound_le ms f; omega
      exact ⟨ms[kBound ms f - 1], List.getElem?_eq_getElem hklm⟩
    · rw [if_neg hk]
      have h0 : 0 < ms.length := List.length_pos.2 hne
      exact ⟨ms[0], by rw [List.head?_eq_getElem?]; exact List.getElem?_eq_getElem h0⟩
  obtain ⟨m, hm⟩ := hspec
  refine ⟨m, if HasExact ms f then kBound ms f - 1 else track.last_marker, ?_, hm, ?_, ?_, ?_⟩
  · rw [BKE_tracking_marker_get, marker_get_impl_eq hs hne, hm]
    rfl
  · intro last'
    rw [marker_get_impl_eq hs hne, hm]
    rfl
  · intro hhe
    obtain ⟨hl, hpos, hfr⟩ := (hasExact_iff hs).1 hhe
    constructor
    · have : specNearestMarker ms f = some ms[kBound ms f - 1] := by
        rw [specNearestMarker_eq hs, if_pos hpos]
        exact List.getElem?_eq_getElem hl
      rw [hm] at this
      injection this with h9
      rw [← h9] at hfr
      exact hfr
    · rw [if_pos hhe]
  · intro hhe
    rw [if_neg hhe]

/-- Witness for C1 on scenario S1: the track with markers at frames 5, 10, 20;
lookups at 7, 10, 25 and 3 return the markers at 5, 10, 20 and 5; the found
marker is the same for a different cursor hint; the hint is untouched by the
inexact lookup at 7 and moved to index 1 by the exact lookup at 10. -/
theorem C1_marker_get_spec_witness :
    (MarkersSorted track520.markers ∧ track520.markers ≠ []) ∧
    (∃ m cur,
      BKE_tracking_marker_get track520 7 = some (m, cur) ∧
      specNearestMarker track520.markers 7 = some m ∧
      (∀ last', (marker_get_impl track520.markers last' 7).map Prod.fst = some m) ∧
      (HasExact track520.markers 7 →
        m.framenr = 7 ∧ cur = kBound track520.markers 7 - 1) ∧
      (¬ HasExact track520.markers 7 → cur = track520.last_marker)) ∧
    ((BKE_tracking_marker_get track520 7).map (fun p => p.1.framenr) = some 5) ∧
    ((BKE_tracking_marker_get track520 10).map (fun p => p.1.framenr) = some 10) ∧
    ((BKE_tracking_marker_get track520 25).map (fun p => p.1.framenr) = some 20) ∧
    ((BKE_tracking_marker_get track520 3).map (fun p => p.1.framenr) = some 5) ∧
    ((marker_get_impl track520.markers 2 7).map Prod.fst =
      (marker_get_impl track520.markers 0 7).map Prod.fst) ∧
    ((BKE_tracking_marker_get track520 7).map Prod.snd = some 0) ∧
    ((BKE_tracking_marker_get track520 10).map Prod.snd = some 1) := by
  refine ⟨⟨by decide, by decide⟩,
    C1_marker_get_spec track520 7 (by decide) (by decide), ?_, ?_, ?_, ?_, ?_, ?_, ?_⟩
  all_goals
    simp [BKE_tracking_marker_get, marker_get_impl, markerScanRight, markerScanLeft,
      cIdx, track520, testMarker]

/-! ## Marker clamping (C5) -/

/-- `INIT_MINMAX2` sentinel from BLI_math: 1.0e30. -/
def initMinmaxSentinel : ℚ := 10 ^ 30

/-- `minmax_v2v2_v2` from BLI_math: grow a componentwise bounding box. -/
def minmax_v2v2_v2 (mn mx v : Vec2) : Vec2 × Vec2 :=
  ((min mn.1 v.1, min mn.2 v.2), (max mx.1 v.1, max mx.2 v.2))

/-- `BKE_tracking_marker_pattern_minmax` (tracking.c:1227-1235): componentwise
min/max over the four pattern corners, starting from the `INIT_MINMAX2`
sentinels. -/
def BKE_tracking_marker_pattern_minmax (marker : MovieTrackingMarker) : Vec2 × Vec2 :=
  let c := marker.pattern_corners
  let s0 := minmax_v2v2_v2 (initMinmaxSentinel, initMinmaxSentinel)
    (-initMinmaxSentinel, -initMinmaxSentinel) c.1
  let s1 := minmax_v2v2_v2 s0.1 s0.2 c.2.1
  let s2 := minmax_v2v2_v2 s1.1 s1.2 c.2.2.1
  minmax_v2v2_v2 s2.1 s2.2 c.2.2.2

/-- The four clamp events of `BKE_tracking_marker_clamp`. -/
inductive ClampEvent
  | PAT_DIM
  | PAT_POS
  | SEARCH_DIM
  | SEARCH_POS
  deriving DecidableEq, Repr

/-- Translate all four pattern corners by `d` on the first axis. -/
def cornersShiftX (c : Vec2 × Vec2 × Vec2 × Vec2) (d : ℚ) :
    Vec2 × Vec2 × Vec2 × Vec2 :=
  ((c.1.1 + d, c.1.2), (c.2.1.1 + d, c.2.1.2), (c.2.2.1.1 + d, c.2.2.1.2),
    (c.2.2.2.1 + d, c.2.2.2.2))

/-- Translate all four pattern corners by `d` on the second axis. -/
def cornersShiftY (c : Vec2 × Vec2 × Vec2 × Vec2) (d : ℚ) :
    Vec2 × Vec2 × Vec2 × Vec2 :=
  ((c.1.1, c.1.2 + d), (c.2.1.1, c.2.1.2 + d), (c.2.2.1.1, c.2.2.1.2 + d),
    (c.2.2.2.1, c.2.2.2.2 + d))

/-- `BKE_tracking_marker_clamp` (tracking.c:1097-1153). `CLAMP_PAT_DIM` and
`CLAMP_SEARCH_DIM` expand the search region to contain the pattern bounding
box; `CLAMP_PAT_POS` translates the corners back inside the search region;
`CLAMP_SEARCH_POS` translates the search region (keeping its dimensions) to
contain the pattern bounding box. -/
def BKE_tracking_marker_clamp (marker : MovieTrackingMarker) (event : ClampEvent) :
    MovieTrackingMarker :=
  let pm := BKE_tracking_marker_pattern_minmax marker
  let pat_min := pm.1
  let pat_max := pm.2
  match event with
  | ClampEvent.PAT_DIM =>
    { marker with
      search_min := (min pat_min.1 marker.search_min.1, min pat_min.2 marker.search_min.2),
      search_max := (max pat_max.1 marker.search_max.1, max pat_max.2 marker.search_max.2) }
  | ClampEvent.SEARCH_DIM =>
    { marker with
      search_min := (min pat_min.1 marker.search_min.1, min pat_min.2 marker.search_min.2),
      search_max := (max pat_max.1 marker.search_max.1, max pat_max.2 marker.search_max.2) }
  | ClampEvent.PAT_POS =>
    let c0 := marker.pattern_corners
    let c1 := if pat_min.1 < marker.search_min.1 then
        cornersShiftX c0 (marker.search_min.1 - pat_min.1) else c0
    let c2 := if pat_max.1 > marker.search_max.1 then
        cornersShiftX c1 (-(pat_max.1 - marker.search_max.1)) else c1
    let c3 := if pat_min.2 < marker.search_min.2 then
        cornersShiftY c2 (marker.search_min.2 - pat_min.2) else c2
    let c4 := if pat_max.2 > marker.search_max.2 then
        cornersShiftY c3 (-(pat_max.2 - marker.search_max.2)) else c3
    { marker with pattern_corners := c4 }
  | ClampEvent.SEARCH_POS =>
    let dim : Vec2 := (marker.search_max.1 - marker.search_min.1,
      marker.search_max.2 - marker.search_min.2)
    let sx : Vec2 × Vec2 :=
      let s := (marker.search_min, marker.search_max)
      let s := if s.1.1 > pat_min.1 then
          ((pat_min.1, s.1.2), (pat_min.1 + dim.1, s.2.2)) else s
      if s.2.1 < pat_max.1 then
          ((pat_max.1 - dim.1, s.1.2), (pat_max.1, s.2.2)) else s
    let sy : Vec2 × Vec2 :=
      let s := sx
      let s := if s.1.2 > pat_min.2 then
          ((s.1.1, pat_min.2), (s.2.1, pat_min.2 + dim.2)) else s
      if s.2.2 < pat_max.2 then
          ((s.1.1, pat_max.2 - dim.2), (s.2.1, pat_max.2)) else s
    { marker with search_min := sy.1, search_max := sy.2 }

/-- The S3 marker: pattern bounding box from -0.1 to 0.1 on both axes, search
region from -0.05 to 0.05. -/
def markerS3 : MovieTrackingMarker :=
  { framenr := 1, pos := (0, 0),
    pattern_corners := ((-1/10, -1/10), (1/10, -1/10), (1/10, 1/10), (-1/10, 1/10)),
    search_min := (-1/20, -1/20), search_max := (1/20, 1/20),
    disabled := false, tracked := false }

/-- The marker invariant: the search region contains the pattern bounding box
componentwise. -/
def SearchContainsPattern (m : MovieTrackingMarker) : Prop :=
  m.search_min.1 ≤ (BKE_tracking_marker_pattern_minmax m).1.1 ∧
  m.search_min.2 ≤ (BKE_tracking_marker_pattern_minmax m).1.2 ∧
  (BKE_tracking_marker_pattern_minmax m).2.1 ≤ m.search_max.1 ∧
  (BKE_tracking_marker_pattern_minmax m).2.2 ≤ m.search_max.2

/-- C5: clamping with `CLAMP_PAT_DIM` is idempotent; afterwards the search
region contains the pattern bounding box componentwise; and on the S3 marker
(pattern bounding box -0.1..0.1, search -0.05..0.05) the search region becomes
exactly -0.1..0.1. -/
theorem C5_clamp_pat_dim :
    (∀ marker : MovieTrackingMarker,
      BKE_tracking_marker_clamp (BKE_tracking_marker_clamp marker ClampEvent.PAT_DIM)
          ClampEvent.PAT_DIM =
        BKE_tracking_marker_clamp marker ClampEvent.PAT_DIM ∧
      SearchContainsPattern (BKE_tracking_marker_clamp marker ClampEvent.PAT_DIM)) ∧
    (BKE_tracking_marker_clamp markerS3 ClampEvent.PAT_DIM).search_min = (-1/10, -1/10) ∧
    (BKE_tracking_marker_clamp markerS3 ClampEvent.PAT_DIM).search_max = (1/10, 1/10) := by
  have hmin : ∀ p q : ℚ, min p (min p q) = min p q := fun p q => by
    rw [← min_assoc, min_self]
  have hmax : ∀ p q : ℚ, max p (max p q) = max p q := fun p q => by
    rw [← max_assoc, max_self]
  refine ⟨fun marker => ⟨?_, ?_, ?_, ?_, ?_⟩, ?_, ?_⟩
  · simp only [BKE_tracking_marker_clamp, BKE_tracking_marker_pattern_minmax,
      minmax_v2v2_v2]
    simp [hmin, hmax]
  · simp only [SearchContainsPattern, BKE_tracking_marker_clamp,
      BKE_tracking_marker_pattern_minmax, minmax_v2v2_v2]
    exact min_le_left _ _
  · simp only [SearchContainsPattern, BKE_tracking_marker_clamp,
      BKE_tracking_marker_pattern_minmax, minmax_v2v2_v2]
    exact min_le_left _ _
  · simp only [SearchContainsPattern, BKE_tracking_marker_clamp,
      BKE_tracking_marker_pattern_minmax, minmax_v2v2_v2]
    exact le_max_left _ _
  · simp only [SearchContainsPattern, BKE_tracking_marker_clamp,
      BKE_tracking_marker_pattern_minmax, minmax_v2v2_v2]
    exact le_max_left _ _
  · norm_num [BKE_tracking_marker_clamp, BKE_tracking_marker_pattern_minmax,
      minmax_v2v2_v2, markerS3, initMinmaxSentinel]
  · norm_num [BKE_tracking_marker_clamp, BKE_tracking_marker_pattern_minmax,
      minmax_v2v2_v2, markerS3, initMinmaxSentinel]

/-! ## Marker store operations (C4, C6, C10) -/

/-- `BKE_tracking_marker_get_exact` (tracking.c:1200-1208): the result of
`BKE_tracking_marker_get` is dereferenced unconditionally, so a NULL result
(empty track) is undefined behaviour, embedded as the outer `none`. The inner
option is the function's own NULL-or-marker return value; the `Nat` is the
updated cursor. -/
def BKE_tracking_marker_get_exact (track : MovieTrackingTrack) (framenr : Int) :
    Option (Option MovieTrackingMarker × Nat) :=
  match BKE_tracking_marker_get track framenr with
  | none => none
  | some (m, cur) => some (if m.framenr ≠ framenr then none else some m, cur)

/-- The downward position scan of `BKE_tracking_marker_insert`
(tracking.c:1047-1050), `while (a--) if (markers[a].framenr < marker->framenr)
break;`: starting from fuel `n` (called with the array length), return the
largest index below `n` satisfying `p`, or -1. -/
def scanDownFirst (ms : List MovieTrackingMarker) (p : MovieTrackingMarker → Bool) :
    Nat → Int
  | 0 => -1
  | Nat.succ a =>
    match ms.get? a with
    | none => -1
    | some m => if p m then (a : Int) else scanDownFirst ms p a

/-- The no-existing-marker branch of `BKE_tracking_marker_insert`
(tracking.c:1043-1069): find the insert position by the downward scan, shift
the tail up and place the new marker, setting `last_marker` to its index. -/
def insertNewMarker (track : MovieTrackingTrack) (marker : MovieTrackingMarker) :
    MovieTrackingTrack :=
  let a := scanDownFirst track.markers (fun m => decide (m.framenr < marker.framenr))
    track.markers.length
  let idx := (a + 1).toNat
  { track with markers := track.markers.insertIdx idx marker, last_marker := idx }

/-- `BKE_tracking_marker_insert` (tracking.c:1030-1070): replace the marker at
the same frame if one exists (found through `BKE_tracking_marker_get_exact`,
which moves the cursor to it), otherwise insert keeping the sort order. -/
def BKE_tracking_marker_insert (track : MovieTrackingTrack)
    (marker : MovieTrackingMarker) : Option MovieTrackingTrack :=
  if track.markers.length ≠ 0 then
    match BKE_tracking_marker_get_exact track marker.framenr with
    | none => none
    | some (some _, cur) =>
      some { track with markers := track.markers.set cur marker, last_marker := cur }
    | some (none, cur) =>
      some (insertNewMarker { track with last_marker := cur } marker)
  else some (insertNewMarker track marker)

/-- `BKE_tracking_marker_delete` (tracking.c:1072-1095): remove the first
marker with the given frame, shifting the rest down; the cursor is not
touched. -/
def BKE_tracking_marker_delete (track : MovieTrackingTrack) (framenr : Int) :
    MovieTrackingTrack :=
  match track.markers.findIdx? (fun m => decide (m.framenr = framenr)) with
  | some a => { track with markers := track.markers.eraseIdx a }
  | none => track

/-- `tracking_marker_insert_disabled` (tracking.c:514-530): insert a disabled
copy of `ref_marker` one frame before or after it; without `overwrite` the
insert is skipped when a marker already exists at that frame (the existence
check goes through `BKE_tracking_marker_get_exact` and may move the cursor). -/
def tracking_marker_insert_disabled (track : MovieTrackingTrack)
    (ref_marker : MovieTrackingMarker) (before overwrite : Bool) :
    Option MovieTrackingTrack :=
  let marker_new := { ref_marker with
    tracked := false, disabled := true,
    framenr := if before then ref_marker.framenr - 1 else ref_marker.framenr + 1 }
  if overwrite then BKE_tracking_marker_insert track marker_new
  else
    match BKE_tracking_marker_get_exact track marker_new.framenr with
    | none => none
    | some (some _, cur) => some { track with last_marker := cur }
    | some (none, cur) =>
      BKE_tracking_marker_insert { track with last_marker := cur } marker_new

/-- `BKE_tracking_marker_ensure` (tracking.c:1210-1225): return the marker at
exactly `framenr`, inserting a copy of the nearest marker with the frame
replaced when no exact one exists. The unconditional dereference of the
`BKE_tracking_marker_get` result makes the empty track undefined behaviour. -/
def BKE_tracking_marker_ensure (track : MovieTrackingTrack) (framenr : Int) :
    Option (MovieTrackingTrack × MovieTrackingMarker) :=
  match BKE_tracking_marker_get track framenr with
  | none => none
  | some (m, cur) =>
    let track := { track with last_marker := cur }
    if m.framenr ≠ framenr then
      let marker_new := { m with framenr := framenr }
      match BKE_tracking_marker_insert track marker_new with
      | none => none
      | some track2 =>
        match BKE_tracking_marker_get track2 framenr with
        | none => none
        | some (m2, cur2) => some ({ track2 with last_marker := cur2 }, m2)
    else some (track, m)

/-- The three actions of `BKE_tracking_track_path_clear`. -/
inductive ClearAction
  | REMAINED
  | UPTO
  | ALL
  deriving DecidableEq, Repr

/-- `BKE_tracking_track_path_clear` (tracking.c:683-738). `REMAINED` truncates
at the first marker beyond index 0 whose frame exceeds `ref_frame` and brackets
the new last marker; `UPTO` keeps the suffix from the last marker with frame at
most `ref_frame` and brackets the new first marker; `ALL` collapses the track
to a copy of the `BKE_tracking_marker_get` result and brackets it on both
sides.  All brackets are disabled markers inserted with overwrite. -/
def BKE_tracking_track_path_clear (track : MovieTrackingTrack) (ref_frame : Int)
    (action : ClearAction) : Option MovieTrackingTrack :=
  match action with
  | ClearAction.REMAINED =>
    let t1 := match (track.markers.drop 1).findIdx?
        (fun m => decide (m.framenr > ref_frame)) with
      | some i => { track with markers := track.markers.take (i + 1) }
      | none => track
    match t1.markers.getLast? with
    | none => some t1
    | some lastm => tracking_marker_insert_disabled t1 lastm false true
  | ClearAction.UPTO =>
    let a := scanDownFirst track.markers (fun m => decide (m.framenr ≤ ref_frame))
      track.markers.length
    let t1 := if 0 ≤ a then { track with markers := track.markers.drop a.toNat }
      else track
    match t1.markers.head? with
    | none => some t1
    | some firstm => tracking_marker_insert_disabled t1 firstm true true
  | ClearAction.ALL =>
    match BKE_tracking_marker_get track ref_frame with
    | none => none
    | some (mref, cur) =>
      let marker_new := mref
      (BKE_tracking_marker_insert
          { track with markers := [], last_marker := cur } marker_new).bind fun t2 =>
        (tracking_marker_insert_disabled t2 marker_new true true).bind fun t3 =>
          tracking_marker_insert_disabled t3 marker_new false true

/-! ## Correctness of marker insertion -/

theorem scanDownFirst_le_eq {ms : List MovieTrackingMarker} {q : Int}
    (hs : MarkersSorted ms) :
    ∀ n, kBound ms q ≤ n → n ≤ ms.length →
    scanDownFirst ms (fun m => decide (m.framenr ≤ q)) n = (kBound ms q : Int) - 1 := by
  intro n
  induction n with
  | zero =>
    intro h1 _
    have hk0 : kBound ms q = 0 := by omega
    simp [scanDownFirst, hk0]
  | succ a ih =>
    intro h1 h2
    have hal : a < ms.length := by omega
    have hga : ms.get? a = some ms[a] := by
      rw [List.get?_eq_getElem?]; exact List.getElem?_eq_getElem hal
    rw [scanDownFirst, hga]
    dsimp only
    by_cases hk : kBound ms q = a + 1
    · have hle : ms[a].framenr ≤ q := frame_le_of_lt_kBound (by omega) hal
      rw [if_pos (by simpa using hle)]
      omega
    · have hgt : q < ms[a].framenr := frame_gt_of_kBound_le hs hal (by omega)
      rw [if_neg (by simpa using (by omega : ¬ ms[a].framenr ≤ q))]
      exact ih (by omega) (by omega)

theorem scanDownFirst_congr {ms : List MovieTrackingMarker}
    {p p' : MovieTrackingMarker → Bool} (h : ∀ m, p m = p' m) (n : Nat) :
    scanDownFirst ms p n = scanDownFirst ms p' n := by
  have : p = p' := funext h
  rw [this]

theorem insertIdx_eq_take_cons_drop {α : Type} (m : α) :
    ∀ (k : Nat) (ms : List α), k ≤ ms.length →
    ms.insertIdx k m = ms.take k ++ m :: ms.drop k := by
  intro k
  induction k with
  | zero => intro ms _; simp [List.insertIdx_zero]
  | succ j ih =>
    intro ms hk
    match ms with
    | [] => simp at hk
    | x :: t =>
      rw [List.insertIdx_succ_cons, ih t (by simpa using hk)]
      simp

/-- If there is no marker at frame `f`, the count of markers below `f` equals
the count of markers at most `f`. -/
theorem kBound_pred_eq {ms : List MovieTrackingMarker} {f : Int}
    (hne : ¬ HasExact ms f) :
    kBound ms (f - 1) = kBound ms f := by
  have hle1 := kBound_le ms (f - 1)
  have hle2 := kBound_le ms f
  have hmono : kBound ms (f - 1) ≤ kBound ms f := by
    by_contra hc
    push_neg at hc
    have hkl : kBound ms f < ms.length := by omega
    have h1 : ms[kBound ms f].framenr ≤ f - 1 :=
      frame_le_of_lt_kBound (f := f - 1) hc hkl
    have h2 := frame_gt_at_kBound (f := f) hkl
    omega
  rcases Nat.lt_or_ge (kBound ms (f - 1)) (kBound ms f) with hlt | hge
  · exfalso
    have hkl : kBound ms (f - 1) < ms.length := by omega
    have h1 : ms[kBound ms (f - 1)].framenr ≤ f :=
      frame_le_of_lt_kBound hlt hkl
    have h2 := frame_gt_at_kBound (f := f - 1) hkl
    exact hne ⟨ms[kBound ms (f - 1)], List.getElem_mem hkl, by omega⟩
  · omega

/-- Replacing a marker by one with the same frame keeps the array sorted. -/
theorem sorted_set_same_frame {ms : List MovieTrackingMarker}
    (hs : MarkersSorted ms) {i : Nat} (hi : i < ms.length)
    {m : MovieTrackingMarker} (hf : m.framenr = ms[i].framenr) :
    MarkersSorted (ms.set i m) := by
  rw [MarkersSorted, List.pairwise_iff_getElem]
  rw [MarkersSorted, List.pairwise_iff_getElem] at hs
  intro j j' hj hj' hjj
  rw [List.length_set] at hj hj'
  rw [List.getElem_set, List.getElem_set]
  have hbase := hs j j' hj hj' hjj
  by_cases h1 : i = j
  · rw [if_pos h1]
    by_cases h2 : i = j'
    · exact absurd hjj (by omega)
    · rw [if_neg h2, hf]
      subst h1
      exact hbase
  · rw [if_neg h1]
    by_cases h2 : i = j'
    · rw [if_pos h2, hf]
      subst h2
      exact hbase
    · rw [if_neg h2]
      exact hbase

/-- Inserting a marker carrying a frame not yet present, at position `kBound`,
keeps the array sorted. -/
theorem sorted_insertIdx_kBound {ms : List MovieTrackingMarker} {f : Int}
    {m : MovieTrackingMarker} (hs : MarkersSorted ms) (hm : m.framenr = f)
    (hne : ¬ HasExact ms f) :
    MarkersSorted (ms.insertIdx (kBound ms f) m) := by
  rw [insertIdx_eq_take_cons_drop m (kBound ms f) ms (kBound_le ms f)]
  have hmem_take : ∀ x ∈ ms.take (kBound ms f), x.framenr < f := by
    intro x hx
    obtain ⟨i, hi, hxi⟩ := List.getElem_of_mem hx
    have hil : i < kBound ms f := by
      have := List.length_take_le (kBound ms f) ms
      have hlt : i < (ms.take (kBound ms f)).length := hi
      rw [List.length_take] at hlt
      omega
    have himl : i < ms.length := lt_of_lt_of_le hil (kBound_le ms f)
    have hle : ms[i].framenr ≤ f := frame_le_of_lt_kBound hil himl
    have hnex : ms[i].framenr ≠ f := by
      intro hc
      exact hne ⟨ms[i], List.getElem_mem himl, hc⟩
    rw [← hxi]
    rw [List.getElem_take]
    omega
  have hmem_drop : ∀ x ∈ ms.drop (kBound ms f), f < x.framenr := by
    intro x hx
    obtain ⟨j, hj, hxj⟩ := List.getElem_of_mem hx
    have hlen : (ms.drop (kBound ms f)).length = ms.length - kBound ms f :=
      List.length_drop _ _
    have hjl : kBound ms f + j < ms.length := by
      have := hj; rw [hlen] at this; omega
    have := frame_gt_of_kBound_le (f := f) hs hjl (by omega)
    rw [← hxj, List.getElem_drop]
    exact this
  rw [MarkersSorted, List.pairwise_append]
  refine ⟨List.Pairwise.sublist (List.take_sublist _ _) hs, ?_, ?_⟩
  · rw [List.pairwise_cons]
    refine ⟨?_, List.Pairwise.sublist (List.drop_sublist _ _) hs⟩
    intro x hx
    have := hmem_drop x hx
    omega
  · intro x hx y hy
    have hxf := hmem_take x hx
    rcases List.mem_cons.1 hy with rfl | hyd
    · omega
    · have := hmem_drop y hyd
      omega

/-- Exact description of `BKE_tracking_marker_insert` on a sorted track: an
existing marker at the same frame is overwritten in place, otherwise the
marker is placed at position `kBound` (the number of markers with smaller
frames); in both cases the cursor is set to the marker's index. -/
theorem marker_insert_eq (track : MovieTrackingTrack) (m : MovieTrackingMarker)
    (hs : MarkersSorted track.markers) :
    BKE_tracking_marker_insert track m =
      some (if HasExact track.markers m.framenr
        then { track with
          markers := track.markers.set (kBound track.markers m.framenr - 1) m
          last_marker := kBound track.markers m.framenr - 1 }
        else { track with
          markers := track.markers.insertIdx (kBound track.markers m.framenr) m
          last_marker := kBound track.markers m.framenr }) := by
  by_cases hlen : track.markers.length = 0
  · have hnil : track.markers = [] := List.length_eq_zero.1 hlen
    have hne : ¬ HasExact track.markers m.framenr := by
      rw [hnil]; rintro ⟨x, hx, _⟩; simp at hx
    rw [BKE_tracking_marker_insert,
      if_neg (show ¬ track.markers.length ≠ 0 by omega), if_neg hne]
    congr 1
    rw [insertNewMarker]
    simp [hnil, scanDownFirst, kBound]
  · have hnee : track.markers ≠ [] := by
      intro hc; rw [hc] at hlen; simp at hlen
    rw [BKE_tracking_marker_insert, if_pos (show track.markers.length ≠ 0 by omega)]
    rw [BKE_tracking_marker_get_exact, BKE_tracking_marker_get,
      marker_get_impl_eq hs hnee]
    obtain ⟨mm, cur, hget, hspecm, hind, hex, hnex⟩ :=
      C1_marker_get_spec track m.framenr hs hnee
    rw [hspecm]
    have hmm_mem : ∃ i, ∃ h : i < track.markers.length, track.markers[i] = mm := by
      have hsm := hspecm
      rw [specNearestMarker_eq hs] at hsm
      by_cases hk : 0 < kBound track.markers m.framenr
      · rw [if_pos hk] at hsm
        have hklm : kBound track.markers m.framenr - 1 < track.markers.length := by
          have := kBound_le track.markers m.framenr; omega
        rw [List.getElem?_eq_getElem hklm] at hsm
        exact ⟨kBound track.markers m.framenr - 1, hklm, Option.some_inj.1 hsm⟩
      · rw [if_neg hk] at hsm
        have h0 : 0 < track.markers.length := List.length_pos.2 hnee
        rw [List.head?_eq_getElem?, List.getElem?_eq_getElem h0] at hsm
        exact ⟨0, h0, Option.some_inj.1 hsm⟩
    by_cases hhe : HasExact track.markers m.framenr
    · have hfr : mm.framenr = m.framenr := (hex hhe).1
      simp only [Option.map_some']
      rw [if_neg (by simpa using hfr), if_pos hhe]
      simp only [if_pos hhe]
    · have hfr : mm.framenr ≠ m.framenr := by
        intro hc
        obtain ⟨i, hi, hmi⟩ := hmm_mem
        exact hhe ⟨track.markers[i], List.getElem_mem hi, by rw [hmi, hc]⟩
      simp only [Option.map_some']
      rw [if_pos (by simpa using hfr), if_neg hhe]
      simp only [if_neg hhe]
      congr 1
      rw [insertNewMarker]
      have hpred : ∀ x : MovieTrackingMarker,
          decide (x.framenr < m.framenr) = decide (x.framenr ≤ m.framenr - 1) := by
        intro x
        by_cases h : x.framenr < m.framenr
        · rw [decide_eq_true h, Eq.comm, decide_eq_true_eq]; omega
        · rw [decide_eq_false h, Eq.comm, decide_eq_false_iff_not]; omega
      have hscan : scanDownFirst track.markers
          (fun x => decide (x.framenr < m.framenr)) track.markers.length
          = (kBound track.markers (m.framenr - 1) : Int) - 1 := by
        rw [scanDownFirst_congr hpred]
        exact scanDownFirst_le_eq hs track.markers.length (kBound_le _ _) le_rfl
      simp only [hscan]
      rw [kBound_pred_eq hhe]
      have htn : ((kBound track.markers m.framenr : Int) - 1 + 1).toNat
          = kBound track.markers m.framenr := by omega
      simp only [htn]

/-- Bundled consequences of `marker_insert_eq`: insertion on a sorted track
succeeds, keeps the array sorted, contains the new marker, and leaves the
cursor strictly below the array length. -/
theorem marker_insert_spec (track : MovieTrackingTrack) (m : MovieTrackingMarker)
    (hs : MarkersSorted track.markers) :
    ∃ t', BKE_tracking_marker_insert track m = some t' ∧
      MarkersSorted t'.markers ∧
      m ∈ t'.markers ∧
      t'.last_marker < t'.markers.length ∧
      t'.markers.length = (if HasExact track.markers m.framenr
        then track.markers.length else track.markers.length + 1) := by
  rw [marker_insert_eq track m hs]
  by_cases hhe : HasExact track.markers m.framenr
  · obtain ⟨hl, hpos, hfr⟩ := (hasExact_iff hs).1 hhe
    refine ⟨_, rfl, ?_, ?_, ?_, ?_⟩
    · rw [if_pos hhe]
      exact sorted_set_same_frame hs hl (by omega)
    · rw [if_pos hhe]
      have hl2 : kBound track.markers m.framenr - 1 <
          (track.markers.set (kBound track.markers m.framenr - 1) m).length := by
        rw [List.length_set]; exact hl
      have hm2 := List.getElem_mem hl2
      rw [List.getElem_set] at hm2
      simpa using hm2
    · rw [if_pos hhe]
      simp only [List.length_set]
      exact hl
    · rw [if_pos hhe, if_pos hhe]
      simp [List.length_set]
  · have hkle := kBound_le track.markers m.framenr
    refine ⟨_, rfl, ?_, ?_, ?_, ?_⟩
    · rw [if_neg hhe]
      exact sorted_insertIdx_kBound hs rfl hhe
    · rw [if_neg hhe]
      rw [insertIdx_eq_take_cons_drop m _ _ hkle]
      exact List.mem_append_right _ (List.mem_cons_self _ _)
    · rw [if_neg hhe]
      simp only [List.length_insertIdx _ _ hkle]
      omega
    · rw [if_neg hhe, if_neg hhe]
      simp [List.length_insertIdx _ _ hkle]

/-- On a sorted array the claim-side lookup finds exactly a member marker with
the queried frame, when there is one. -/
theorem specNearest_exact_mem {ms : List MovieTrackingMarker} {f : Int}
    {x : MovieTrackingMarker} (hs : MarkersSorted ms) (hx : x ∈ ms)
    (hf : x.framenr = f) : specNearestMarker ms f = some x := by
  obtain ⟨i, hi, hxi⟩ := List.getElem_of_mem hx
  have hik : i < kBound ms f := (lt_kBound_iff hs hi).2 (by rw [hxi]; omega)
  have hidx : i = kBound ms f - 1 := exact_index_eq hs hi (by rw [hxi, hf])
  rw [specNearestMarker_eq hs, if_pos (by omega)]
  rw [← hidx, List.getElem?_eq_getElem hi, hxi]

/-- `BKE_tracking_marker_delete` keeps the array sorted and never moves the
cursor. -/
theorem marker_delete_spec (track : MovieTrackingTrack) (f : Int)
    (hs : MarkersSorted track.markers) :
    MarkersSorted (BKE_tracking_marker_delete track f).markers ∧
    (BKE_tracking_marker_delete track f).last_marker = track.last_marker := by
  rw [BKE_tracking_marker_delete]
  rcases hidx : track.markers.findIdx? (fun m => decide (m.framenr = f)) with _ | a
  · simp only [hidx]
    exact ⟨hs, trivial⟩
  · simp only [hidx]
    exact ⟨List.Pairwise.sublist (List.eraseIdx_sublist _ a) hs, trivial⟩

/-- Core description of `BKE_tracking_marker_ensure` on a sorted non-empty
track. -/
theorem marker_ensure_spec (track : MovieTrackingTrack) (f : Int)
    (hs : MarkersSorted track.markers) (hne : track.markers ≠ []) :
    ∃ t' m, BKE_tracking_marker_ensure track f = some (t', m) ∧
      m.framenr = f ∧
      MarkersSorted t'.markers ∧
      t'.markers ≠ [] ∧
      t'.last_marker < t'.markers.length ∧
      (¬ HasExact track.markers f →
        ∃ mn, specNearestMarker track.markers f = some mn ∧
          m = { mn with framenr := f }) := by
  obtain ⟨mm, cur, hget, hspecm, hind, hex, hnex⟩ := C1_marker_get_spec track f hs hne
  rw [BKE_tracking_marker_ensure, hget]
  dsimp only
  by_cases hhe : HasExact track.markers f
  · have hfr : mm.framenr = f := (hex hhe).1
    rw [if_neg (by simpa using hfr)]
    refine ⟨_, mm, rfl, hfr, hs, hne, ?_, by tauto⟩
    obtain ⟨hl, hpos, _⟩ := (hasExact_iff hs).1 hhe
    have := (hex hhe).2
    simp only [this]
    exact hl
  · have hfr : mm.framenr ≠ f := by
      intro hc
      have hmem : mm ∈ track.markers := by
        have hsm := hspecm
        rw [specNearestMarker_eq hs] at hsm
        by_cases hk : 0 < kBound track.markers f
        · rw [if_pos hk] at hsm
          have hklm : kBound track.markers f - 1 < track.markers.length := by
            have := kBound_le track.markers f; omega
          rw [List.getElem?_eq_getElem hklm] at hsm
          rw [← Option.some_inj.1 hsm]
          exact List.getElem_mem hklm
        · rw [if_neg hk] at hsm
          have h0 : 0 < track.markers.length := List.length_pos.2 hne
          rw [List.head?_eq_getElem?, List.getElem?_eq_getElem h0] at hsm
          rw [← Option.some_inj.1 hsm]
          exact List.getElem_mem h0
      exact hhe ⟨mm, hmem, hc⟩
    rw [if_pos (by simpa using hfr)]
    set tcur : MovieTrackingTrack := { track with last_marker := cur } with htcur
    have hscur : MarkersSorted tcur.markers := hs
    obtain ⟨t2, hins, hs2, hmem2, hcb2, _⟩ :=
      marker_insert_spec tcur { mm with framenr := f } hscur
    rw [hins]
    dsimp only
    have hne2 : t2.markers ≠ [] := by
      intro hc
      rw [hc] at hmem2
      simp at hmem2
    obtain ⟨m2, cur2, hget2, hspecm2, _, hex2, _⟩ := C1_marker_get_spec t2 f hs2 hne2
    rw [hget2]
    dsimp only
    have hhe2 : HasExact t2.markers f := ⟨{ mm with framenr := f }, hmem2, rfl⟩
    have hm2 : m2 = { mm with framenr := f } := by
      have := specNearest_exact_mem hs2 hmem2 (rfl :
        ({ mm with framenr := f } : MovieTrackingMarker).framenr = f)
      rw [hspecm2] at this
      exact Option.some_inj.1 this
    refine ⟨_, m2, rfl, by rw [hm2], hs2, hne2, ?_, ?_⟩
    · have := (hex2 hhe2).2
      simp only [this]
      obtain ⟨hl2, _, _⟩ := (hasExact_iff hs2).1 hhe2
      exact hl2
    · intro _
      exact ⟨mm, hspecm, by rw [hm2]⟩

/-- C10: `BKE_tracking_marker_get_exact` and `BKE_tracking_marker_ensure`
dereference the result of `BKE_tracking_marker_get` unconditionally, so on an
empty track both hit the NULL dereference (embedded as `none`): the track
having at least one marker is a precondition.  Under that precondition (and
the sort invariant) the NULL branch is unreachable: `get_exact` returns the
marker at exactly the queried frame when one exists and NULL (inner `none`)
otherwise, and `ensure` always returns a marker whose frame equals the query,
inserting a copy of the nearest marker with its frame replaced when no exact
one exists. -/
theorem C10_get_exact_ensure :
    (∀ (t : MovieTrackingTrack) (f : Int), t.markers = [] →
      BKE_tracking_marker_get_exact t f = none ∧
      BKE_tracking_marker_ensure t f = none) ∧
    (∀ (t : MovieTrackingTrack) (f : Int),
      MarkersSorted t.markers → t.markers ≠ [] →
      (∃ r cur, BKE_tracking_marker_get_exact t f = some (r, cur) ∧
        (HasExact t.markers f → ∃ m, r = some m ∧ m.framenr = f ∧ m ∈ t.markers) ∧
        (¬ HasExact t.markers f → r = none)) ∧
      (∃ t' m, BKE_tracking_marker_ensure t f = some (t', m) ∧ m.framenr = f ∧
        (¬ HasExact t.markers f →
          ∃ mn, specNearestMarker t.markers f = some mn ∧
            m = { mn with framenr := f }))) := by
  constructor
  · intro t f hnil
    have hg : BKE_tracking_marker_get t f = none := by
      rw [BKE_tracking_marker_get, marker_get_impl, hnil]
      rfl
    constructor
    · rw [BKE_tracking_marker_get_exact, hg]
    · rw [BKE_tracking_marker_ensure, hg]
  · intro t f hs hne
    obtain ⟨mm, cur, hget, hspecm, hind, hex, hnex⟩ := C1_marker_get_spec t f hs hne
    constructor
    · refine ⟨if mm.framenr ≠ f then none else some mm, cur, ?_, ?_, ?_⟩
      · rw [BKE_tracking_marker_get_exact, hget]
      · intro hhe
        have hfr : mm.framenr = f := (hex hhe).1
        refine ⟨mm, ?_, hfr, ?_⟩
        · rw [if_neg (by simpa using hfr)]
        · obtain ⟨i, hi, hmi⟩ :
              ∃ i, ∃ h : i < t.markers.length, t.markers[i] = mm := by
            have hsm := hspecm
            rw [specNearestMarker_eq hs] at hsm
            by_cases hk : 0 < kBound t.markers f
            · rw [if_pos hk] at hsm
              have hklm : kBound t.markers f - 1 < t.markers.length := by
                have := kBound_le t.markers f; omega
              rw [List.getElem?_eq_getElem hklm] at hsm
              exact ⟨kBound t.markers f - 1, hklm, Option.some_inj.1 hsm⟩
            · rw [if_neg hk] at hsm
              have h0 : 0 < t.markers.length := List.length_pos.2 hne
              rw [List.head?_eq_getElem?, List.getElem?_eq_getElem h0] at hsm
              exact ⟨0, h0, Option.some_inj.1 hsm⟩
          rw [← hmi]
          exact List.getElem_mem hi
      · intro hhe
        have hfr : mm.framenr ≠ f := by
          intro hc
          obtain ⟨i, hi, hmi⟩ :
              ∃ i, ∃ h : i < t.markers.length, t.markers[i] = mm := by
            have hsm := hspecm
            rw [specNearestMarker_eq hs] at hsm
            by_cases hk : 0 < kBound t.markers f
            · rw [if_pos hk] at hsm
              have hklm : kBound t.markers f - 1 < t.markers.length := by
                have := kBound_le t.markers f; omega
              rw [List.getElem?_eq_getElem hklm] at hsm
              exact ⟨kBound t.markers f - 1, hklm, Option.some_inj.1 hsm⟩
            · rw [if_neg hk] at hsm
              have h0 : 0 < t.markers.length := List.length_pos.2 hne
              rw [List.head?_eq_getElem?, List.getElem?_eq_getElem h0] at hsm
              exact ⟨0, h0, Option.some_inj.1 hsm⟩
          exact hhe ⟨mm, by rw [← hmi]; exact List.getElem_mem hi, hc⟩
        rw [if_pos (by simpa using hfr)]
    · obtain ⟨t', m, hens, hmf, _, _, _, hcopy⟩ := marker_ensure_spec t f hs hne
      exact ⟨t', m, hens, hmf, hcopy⟩

/-- Witness for C10: the empty track hits the NULL dereference; on the S1
track `get_exact` at 10 returns the exact marker, at 7 returns NULL, and
`ensure` at 7 returns a marker at frame 7 copied from the marker at 5. -/
theorem C10_get_exact_ensure_witness :
    (BKE_tracking_marker_get_exact { markers := [], last_marker := 0 } 4 = none ∧
      BKE_tracking_marker_ensure { markers := [], last_marker := 0 } 4 = none) ∧
    (∃ r cur,
      BKE_tracking_marker_get_exact track520 10 = some (r, cur) ∧
      (HasExact track520.markers 10 →
        ∃ m, r = some m ∧ m.framenr = 10 ∧ m ∈ track520.markers) ∧
      (¬ HasExact track520.markers 10 → r = none)) ∧
    ((BKE_tracking_marker_get_exact track520 7).map Prod.fst = some none) ∧
    ((BKE_tracking_marker_ensure track520 7).map (fun p => p.2.framenr) = some 7) := by
  refine ⟨C10_get_exact_ensure.1 { markers := [], last_marker := 0 } 4 rfl,
    ((C10_get_exact_ensure.2 track520 10 (by decide) (by decide)).1), ?_, ?_⟩
  · simp [BKE_tracking_marker_get_exact, BKE_tracking_marker_get, marker_get_impl,
      markerScanRight, markerScanLeft, cIdx, track520, testMarker]
  · simp [BKE_tracking_marker_ensure, BKE_tracking_marker_get, marker_get_impl,
      markerScanRight, markerScanLeft, cIdx, track520, testMarker,
      BKE_tracking_marker_insert, BKE_tracking_marker_get_exact, insertNewMarker,
      scanDownFirst]

/-! ## Path clearing (C6) -/

theorem kBound_eq_length {ms : List MovieTrackingMarker} {q : Int}
    (h : ∀ x ∈ ms, x.framenr ≤ q) : kBound ms q = ms.length := by
  by_contra hc
  have hk : kBound ms q < ms.length := lt_of_le_of_ne (kBound_le ms q) hc
  have := frame_gt_at_kBound hk
  have := h ms[kBound ms q] (List.getElem_mem hk)
  omega

theorem kBound_eq_zero {ms : List MovieTrackingMarker} {q : Int}
    (h : ∀ x ∈ ms, q < x.framenr) : kBound ms q = 0 := by
  by_contra hc
  have hk : 0 < kBound ms q := Nat.pos_of_ne_zero hc
  have h0 : 0 < ms.length := lt_of_lt_of_le hk (kBound_le ms q)
  have := frame_le_of_lt_kBound hk h0
  have := h ms[0] (List.getElem_mem h0)
  omega

theorem not_hasExact_of_forall {ms : List MovieTrackingMarker} {q : Int}
    (h : ∀ x ∈ ms, x.framenr ≠ q) : ¬ HasExact ms q := by
  rintro ⟨x, hx, hf⟩
  exact h x hx hf

theorem sorted_le_getLast {ms : List MovieTrackingMarker} (hs : MarkersSorted ms)
    (hne : ms ≠ []) {x : MovieTrackingMarker} (hx : x ∈ ms) :
    x.framenr ≤ (ms.getLast hne).framenr := by
  obtain ⟨i, hi, hxi⟩ := List.getElem_of_mem hx
  have hlast : ms.getLast hne = ms[ms.length - 1] := List.getLast_eq_getElem _ hne
  rw [hlast, ← hxi]
  rcases Nat.lt_or_ge i (ms.length - 1) with hlt | hge
  · have := (List.pairwise_iff_getElem.1 hs) i (ms.length - 1) hi (by omega) hlt
    omega
  · have : i = ms.length - 1 := by omega
    simp only [this]
    omega

theorem sorted_head_le {ms : List MovieTrackingMarker} (hs : MarkersSorted ms)
    (hne : ms ≠ []) {x : MovieTrackingMarker} (hx : x ∈ ms) :
    (ms.head hne).framenr ≤ x.framenr := by
  obtain ⟨i, hi, hxi⟩ := List.getElem_of_mem hx
  have hhead : ms.head hne = ms[0] := List.head_eq_getElem _ hne
  rw [hhead, ← hxi]
  rcases Nat.lt_or_ge 0 i with hlt | hge
  · have := (List.pairwise_iff_getElem.1 hs) 0 i (by omega) hi hlt
    omega
  · have : i = 0 := by omega
    simp only [this]
    omega

/-- The disabled bracket marker placed next to `m` by
`tracking_marker_insert_disabled`. -/
def disabledCopy (m : MovieTrackingMarker) (before : Bool) : MovieTrackingMarker :=
  { m with
    tracked := false
    disabled := true
    framenr := if before then m.framenr - 1 else m.framenr + 1 }

theorem disabledCopy_framenr_after (m : MovieTrackingMarker) :
    (disabledCopy m false).framenr = m.framenr + 1 := rfl

theorem disabledCopy_framenr_before (m : MovieTrackingMarker) :
    (disabledCopy m true).framenr = m.framenr - 1 := rfl

/-- `tracking_marker_insert_disabled` with overwrite reduces to a plain
insert of the disabled copy. -/
theorem insert_disabled_overwrite (t : MovieTrackingTrack)
    (m : MovieTrackingMarker) (before : Bool) :
    tracking_marker_insert_disabled t m before true =
      BKE_tracking_marker_insert t (disabledCopy m before) := rfl

/-- Appending the after-bracket: inserting a disabled marker after the last
marker of a sorted non-empty track appends it at the end. -/
theorem insert_disabled_after_getLast (t : MovieTrackingTrack)
    (hs : MarkersSorted t.markers) (hne : t.markers ≠ []) :
    tracking_marker_insert_disabled t (t.markers.getLast hne) false true =
      some { t with
        markers := t.markers ++ [disabledCopy (t.markers.getLast hne) false]
        last_marker := t.markers.length } := by
  rw [insert_disabled_overwrite, marker_insert_eq _ _ hs]
  have hne' : ¬ HasExact t.markers
      ((disabledCopy (t.markers.getLast hne) false).framenr) := by
    apply not_hasExact_of_forall
    intro x hx
    have := sorted_le_getLast hs hne hx
    rw [disabledCopy_framenr_after]
    omega
  rw [if_neg hne']
  have hkl : kBound t.markers ((disabledCopy (t.markers.getLast hne) false).framenr)
      = t.markers.length := by
    apply kBound_eq_length
    intro x hx
    have := sorted_le_getLast hs hne hx
    rw [disabledCopy_framenr_after]
    omega
  rw [hkl, List.insertIdx_length_self]

/-- Prepending the before-bracket: inserting a disabled marker before the head
marker of a sorted non-empty track prepends it. -/
theorem insert_disabled_before_head (t : MovieTrackingTrack)
    (hs : MarkersSorted t.markers) (hne : t.markers ≠ []) :
    tracking_marker_insert_disabled t (t.markers.head hne) true true =
      some { t with
        markers := disabledCopy (t.markers.head hne) true :: t.markers
        last_marker := 0 } := by
  rw [insert_disabled_overwrite, marker_insert_eq _ _ hs]
  have hne' : ¬ HasExact t.markers
      ((disabledCopy (t.markers.head hne) true).framenr) := by
    apply not_hasExact_of_forall
    intro x hx
    have := sorted_head_le hs hne hx
    rw [disabledCopy_framenr_before]
    omega
  rw [if_neg hne']
  have hkl : kBound t.markers ((disabledCopy (t.markers.head hne) true).framenr)
      = 0 := by
    apply kBound_eq_zero
    intro x hx
    have := sorted_head_le hs hne hx
    rw [disabledCopy_framenr_before]
    omega
  rw [hkl, List.insertIdx_zero]

/-- Truncating at the first index found by `findIdx?` keeps exactly the
leading elements failing the predicate. -/
theorem take_findIdx?_eq_takeWhile {α : Type} (p : α → Bool) (l : List α) :
    (match l.findIdx? p with
      | some i => l.take i
      | none => l) = l.takeWhile (fun a => ! p a) := by
  induction l with
  | nil => rfl
  | cons x t ih =>
    rw [List.findIdx?_cons]
    by_cases hp : p x
    · simp [hp, List.takeWhile_cons]
    · rw [if_neg (by simpa using hp), List.findIdx?_succ]
      rw [List.takeWhile_cons, if_pos (by simpa using hp)]
      rcases hfi : t.findIdx? p with _ | i
      · rw [hfi] at ih
        simp only [hfi, Option.map_none']
        rw [← ih]
      · rw [hfi] at ih
        simp only [hfi, Option.map_some']
        rw [List.take_succ_cons, ← ih]

/-- `BKE_tracking_track_path_clear` with `TRACK_CLEAR_REMAINED` on a sorted
non-empty track: the first marker always survives, the rest of the array is
truncated to the markers with frame at most `ref`, and a disabled copy of the
new last marker is appended one frame after it. -/
theorem path_clear_remained_eq (track : MovieTrackingTrack) (ref : Int)
    (hs : MarkersSorted track.markers) (hne : track.markers ≠ []) :
    ∃ kept lastm,
      kept = track.markers.head hne ::
        track.markers.tail.takeWhile (fun m => decide (m.framenr ≤ ref)) ∧
      kept.getLast? = some lastm ∧
      BKE_tracking_track_path_clear track ref ClearAction.REMAINED =
        some { track with
          markers := kept ++ [disabledCopy lastm false]
          last_marker := kept.length } := by
  obtain ⟨hd, tl, hcons⟩ := List.exists_cons_of_ne_nil hne
  have hhd : track.markers.head hne = hd := by
    have h0 : 0 < track.markers.length := List.length_pos.2 hne
    have h1 : track.markers[0]? = some hd := by rw [hcons]; simp
    have h2 := List.getElem?_eq_getElem h0
    rw [List.head_eq_getElem]
    exact Option.some_inj.1 (h2.symm.trans h1)
  have htl : track.markers.tail = tl := by rw [hcons]; rfl
  set p : MovieTrackingMarker → Bool := fun m => decide (m.framenr > ref) with hp
  have hpeq : (fun a => ! p a) = fun m : MovieTrackingMarker =>
      decide (m.framenr ≤ ref) := by
    funext m
    by_cases h : m.framenr ≤ ref
    · rw [decide_eq_true h, hp]
      simp only [Bool.not_eq_true']
      rw [decide_eq_false (by omega)]
    · rw [decide_eq_false h, hp]
      simp only [Bool.not_eq_false']
      rw [decide_eq_true (by omega : m.framenr > ref)]
  set kept : List MovieTrackingMarker :=
    hd :: tl.takeWhile (fun m => decide (m.framenr ≤ ref)) with hkept
  have hkept_ne : kept ≠ [] := by rw [hkept]; exact List.cons_ne_nil _ _
  have hkept_sorted : MarkersSorted kept := by
    apply List.Pairwise.sublist _ hs
    rw [hcons, hkept]
    exact List.Sublist.cons₂ hd (by rw [← hpeq]; exact List.takeWhile_sublist _)
  have ht1 : (match (track.markers.drop 1).findIdx? p with
      | some i => { track with markers := track.markers.take (i + 1) }
      | none => track) = { track with markers := kept } := by
    have hdrop : track.markers.drop 1 = tl := by rw [hcons]; rfl
    rw [hdrop]
    have hbridge := take_findIdx?_eq_takeWhile p tl
    rcases hfi : tl.findIdx? p with _ | i
    · rw [hfi] at hbridge
      simp only [hfi]
      rw [hkept, ← hpeq, ← hbridge, ← hcons]
    · rw [hfi] at hbridge
      simp only [hfi]
      rw [hkept, ← hpeq, ← hbridge, hcons]
      rw [List.take_succ_cons]
  rw [BKE_tracking_track_path_clear]
  simp only [ht1]
  have hlast : kept.getLast? = some (kept.getLast hkept_ne) :=
    List.getLast?_eq_getLast kept hkept_ne
  refine ⟨kept, kept.getLast hkept_ne, by rw [hkept, hhd, htl], hlast, ?_⟩
  rw [hlast]
  exact insert_disabled_after_getLast { track with markers := kept }
    hkept_sorted hkept_ne

/-- `BKE_tracking_track_path_clear` with `TRACK_CLEAR_UPTO` on a sorted
non-empty track: the suffix starting at the last marker with frame at most
`ref` survives (the whole track when every frame exceeds `ref`), and a
disabled copy of the new first marker is prepended one frame before it. -/
theorem path_clear_upto_eq (track : MovieTrackingTrack) (ref : Int)
    (hs : MarkersSorted track.markers) (hne : track.markers ≠ []) :
    ∃ kept firstm,
      kept = track.markers.drop (kBound track.markers ref - 1) ∧
      kept.head? = some firstm ∧
      BKE_tracking_track_path_clear track ref ClearAction.UPTO =
        some { track with
          markers := disabledCopy firstm true :: kept
          last_marker := 0 } := by
  have h0 : 0 < track.markers.length := List.length_pos.2 hne
  have hkle := kBound_le track.markers ref
  set kept : List MovieTrackingMarker :=
    track.markers.drop (kBound track.markers ref - 1) with hkept
  have hkept_ne : kept ≠ [] := by
    rw [hkept]
    intro hc
    have := List.length_drop (kBound track.markers ref - 1) track.markers
    rw [hc] at this
    simp at this
    omega
  have hkept_sorted : MarkersSorted kept :=
    List.Pairwise.sublist (List.drop_sublist _ _) hs
  have hscan : scanDownFirst track.markers (fun m => decide (m.framenr ≤ ref))
      track.markers.length = (kBound track.markers ref : Int) - 1 :=
    scanDownFirst_le_eq hs _ (kBound_le _ _) le_rfl
  have ht1 : (if 0 ≤ scanDownFirst track.markers
        (fun m => decide (m.framenr ≤ ref)) track.markers.length then
      { track with markers := track.markers.drop (scanDownFirst track.markers
        (fun m => decide (m.framenr ≤ ref)) track.markers.length).toNat }
      else track) = { track with markers := kept } := by
    rw [hscan]
    by_cases hk : 0 < kBound track.markers ref
    · rw [if_pos (by omega)]
      have : ((kBound track.markers ref : Int) - 1).toNat
          = kBound track.markers ref - 1 := by omega
      rw [this, hkept]
    · rw [if_neg (by omega)]
      have hk0 : kBound track.markers ref = 0 := by omega
      rw [hkept, hk0]
      simp
  rw [BKE_tracking_track_path_clear]
  simp only [ht1]
  have hhead : kept.head? = some (kept.head hkept_ne) := List.head?_eq_head _
  refine ⟨kept, kept.head hkept_ne, rfl, hhead, ?_⟩
  rw [hhead]
  exact insert_disabled_before_head { track with markers := kept }
    hkept_sorted hkept_ne

/-- `BKE_tracking_track_path_clear` with `TRACK_CLEAR_ALL` on a sorted
non-empty track: the track collapses to the single marker found by
`BKE_tracking_marker_get` at `ref` (which carries its own frame, not
necessarily `ref`), bracketed by disabled copies one frame on each side. -/
theorem path_clear_all_eq (track : MovieTrackingTrack) (ref : Int)
    (hs : MarkersSorted track.markers) (hne : track.markers ≠ []) :
    ∃ mref, specNearestMarker track.markers ref = some mref ∧
      BKE_tracking_track_path_clear track ref ClearAction.ALL =
        some { track with
          markers := [disabledCopy mref true, mref, disabledCopy mref false], last_marker := 2 } := by
  obtain ⟨mref, cur, hget, hspecm, _, _, _⟩ := C1_marker_get_spec track ref hs hne
  refine ⟨mref, hspecm, ?_⟩
  rw [BKE_tracking_track_path_clear, hget]
  dsimp only
  have hins1 : BKE_tracking_marker_insert
      { track with markers := [], last_marker := cur } mref =
      some { track with markers := [mref], last_marker := 0 } := by
    rw [marker_insert_eq _ _ (by simp [MarkersSorted])]
    rw [if_neg (by rintro ⟨x, hx, _⟩; simp at hx)]
    have : kBound ([] : List MovieTrackingMarker) mref.framenr = 0 := by
      simp [kBound]
    simp only [this]
    rfl
  rw [hins1]
  rw [Option.some_bind]
  have hs2 : MarkersSorted [mref] := by simp [MarkersSorted]
  have hne2 : ([mref] : List MovieTrackingMarker) ≠ [] := by simp
  have hh2 : ([mref] : List MovieTrackingMarker).head hne2 = mref := rfl
  have hins2 := insert_disabled_before_head
    { track with markers := [mref], last_marker := 0 } hs2 hne2
  rw [hh2] at hins2
  rw [hins2]
  rw [Option.some_bind]
  have hs3 : MarkersSorted [disabledCopy mref true, mref] := by
    rw [MarkersSorted, List.pairwise_cons]
    refine ⟨?_, by simp [MarkersSorted]⟩
    intro x hx
    rcases List.mem_cons.1 hx with rfl | hx2
    · rw [disabledCopy_framenr_before]
      omega
    · simp at hx2
  have hne3 : ([disabledCopy mref true, mref] : List MovieTrackingMarker) ≠ [] := by
    simp
  have hl3 : ([disabledCopy mref true, mref] :
      List MovieTrackingMarker).getLast hne3 = mref := rfl
  have hins3 := insert_disabled_after_getLast
    { track with markers := [disabledCopy mref true, mref], last_marker := 0 }
    hs3 hne3
  rw [hl3] at hins3
  rw [hins3]
  rfl

theorem sorted_append_disabled_after {ms : List MovieTrackingMarker}
    (hs : MarkersSorted ms) (hne : ms ≠ []) :
    MarkersSorted (ms ++ [disabledCopy (ms.getLast hne) false]) := by
  rw [MarkersSorted, List.pairwise_append]
  refine ⟨hs, by simp [MarkersSorted], ?_⟩
  intro x hx y hy
  simp only [List.mem_singleton] at hy
  subst hy
  rw [disabledCopy_framenr_after]
  have := sorted_le_getLast hs hne hx
  omega

theorem sorted_cons_disabled_before {ms : List MovieTrackingMarker}
    (hs : MarkersSorted ms) (hne : ms ≠ []) :
    MarkersSorted (disabledCopy (ms.head hne) true :: ms) := by
  rw [MarkersSorted, List.pairwise_cons]
  refine ⟨?_, hs⟩
  intro x hx
  rw [disabledCopy_framenr_before]
  have := sorted_head_le hs hne hx
  omega

/-- On a sorted track, path clearing succeeds for non-`ALL` actions on the
empty track and for every action on a non-empty track, keeps the array
sorted, and leaves the cursor in bounds whenever the result is non-empty. -/
theorem path_clear_preserves (track : MovieTrackingTrack) (ref : Int)
    (action : ClearAction) (hs : MarkersSorted track.markers) :
    ∀ t', BKE_tracking_track_path_clear track ref action = some t' →
      MarkersSorted t'.markers ∧
      (t'.markers ≠ [] → t'.last_marker < t'.markers.length) := by
  intro t' ht'
  by_cases hne : track.markers = []
  · match action with
    | ClearAction.REMAINED =>
      rw [BKE_tracking_track_path_clear] at ht'
      simp only [hne, List.drop_nil, List.findIdx?_nil, List.getLast?_nil] at ht'
      obtain rfl := Option.some_inj.1 ht'
      exact ⟨hs, by intro h; exact absurd hne h⟩
    | ClearAction.UPTO =>
      rw [BKE_tracking_track_path_clear] at ht'
      simp only [hne, List.length_nil, scanDownFirst, List.head?_nil] at ht'
      rw [if_neg (by omega)] at ht'
      simp only [hne, List.head?_nil] at ht'
      obtain rfl := Option.some_inj.1 ht'
      exact ⟨hs, by intro h; exact absurd hne h⟩
    | ClearAction.ALL =>
      rw [BKE_tracking_track_path_clear] at ht'
      have hg : BKE_tracking_marker_get track ref = none := by
        rw [BKE_tracking_marker_get, marker_get_impl, hne]
        rfl
      rw [hg] at ht'
      exact absurd ht' (by simp)
  · match action with
    | ClearAction.REMAINED =>
      obtain ⟨kept, lastm, hkeq, hlast, heq⟩ := path_clear_remained_eq track ref hs hne
      rw [heq] at ht'
      rcases Option.some_inj.1 ht' with rfl
      have hkept_ne : kept ≠ [] := by
        rw [hkeq]; exact List.cons_ne_nil _ _
      have hkept_sorted : MarkersSorted kept := by
        apply List.Pairwise.sublist _ hs
        conv_rhs => rw [← List.head_cons_tail track.markers hne]
        rw [hkeq]
        exact List.Sublist.cons₂ _ (List.takeWhile_sublist _)
      have hlast' : kept.getLast hkept_ne = lastm := by
        have := List.getLast?_eq_getLast kept hkept_ne
        rw [hlast] at this
        exact (Option.some_inj.1 this).symm
      constructor
      · rw [← hlast']
        exact sorted_append_disabled_after hkept_sorted hkept_ne
      · intro _
        simp only [List.length_append, List.length_singleton]
        omega
    | ClearAction.UPTO =>
      obtain ⟨kept, firstm, hkeq, hhead, heq⟩ := path_clear_upto_eq track ref hs hne
      rw [heq] at ht'
      rcases Option.some_inj.1 ht' with rfl
      have hkept_ne : kept ≠ [] := by
        intro hc
        rw [hc] at hhead
        simp at hhead
      have hkept_sorted : MarkersSorted kept := by
        rw [hkeq]
        exact List.Pairwise.sublist (List.drop_sublist _ _) hs
      have hhead' : kept.head hkept_ne = firstm := by
        have := List.head?_eq_head (l := kept) hkept_ne
        rw [hhead] at this
        exact (Option.some_inj.1 this).symm
      constructor
      · rw [← hhead']
        exact sorted_cons_disabled_before hkept_sorted hkept_ne
      · intro _
        simp
    | ClearAction.ALL =>
      obtain ⟨mref, hspecm, heq⟩ := path_clear_all_eq track ref hs hne
      rw [heq] at ht'
      rcases Option.some_inj.1 ht' with rfl
      constructor
      · rw [MarkersSorted, List.pairwise_cons]
        constructor
        · intro x hx
          rw [disabledCopy_framenr_before]
          rcases List.mem_cons.1 hx with rfl | hx2
          · omega
          · simp only [List.mem_singleton] at hx2
            subst hx2
            rw [disabledCopy_framenr_after]
            omega
        · rw [List.pairwise_cons]
          constructor
          · intro x hx
            simp only [List.mem_singleton] at hx
            subst hx
            rw [disabledCopy_framenr_after]
            omega
          · simp [MarkersSorted]
      · intro _
        simp

/-- The track with enabled markers at frames 5 and 10 used to refute C6. -/
def trackC6 : MovieTrackingTrack :=
  { markers := [testMarker 5 0 0, testMarker 10 0 0], last_marker := 0 }

/-- Counterexample to C6 as stated: with markers at frames 5 and 10 and
`ref = 3`, `TRACK_CLEAR_REMAINED` keeps the enabled marker at frame 5 even
though it lies past `ref` (the truncation loop starts at index 1), and with
markers at 5, 10, 20 and `ref = 12`, `TRACK_CLEAR_ALL` leaves no marker at
frame 12: the surviving marker sits at frame 10, with brackets at 9 and 11,
not at `ref` ± 1. -/
theorem C6_path_clear_counterexample :
    (∃ t', BKE_tracking_track_path_clear trackC6 3 ClearAction.REMAINED = some t' ∧
      ∃ m ∈ t'.markers, 3 < m.framenr ∧ m.disabled = false) ∧
    (∃ t2, BKE_tracking_track_path_clear track520 12 ClearAction.ALL = some t2 ∧
      (∀ m ∈ t2.markers, m.framenr ≠ 12) ∧
      t2.markers.map (fun m => (m.framenr, m.disabled)) =
        [(9, true), (10, false), (11, true)]) := by
  constructor
  · obtain ⟨kept, lastm, hkeq, hlast, heq⟩ :=
      path_clear_remained_eq trackC6 3 (by decide) (by decide)
    have hk : kept = [testMarker 5 0 0] := by rw [hkeq]; decide
    have hl : lastm = testMarker 5 0 0 := by
      rw [hk] at hlast
      exact (Option.some_inj.1 hlast).symm
    rw [hk, hl] at heq
    exact ⟨_, heq, testMarker 5 0 0, by decide, by decide, by decide⟩
  · obtain ⟨mref, hspecm, heq⟩ :=
      path_clear_all_eq track520 12 (by decide) (by decide)
    have hm : mref = testMarker 10 0 0 := by
      have : specNearestMarker track520.markers 12 = some (testMarker 10 0 0) := by
        decide
      rw [hspecm] at this
      exact Option.some_inj.1 this
    rw [hm] at heq
    exact ⟨_, heq, by decide, by decide⟩

/-- C6 amended: on a sorted non-empty track, `REMAINED` keeps the first marker
unconditionally, truncates the rest to the markers with frame at most `ref`,
and appends a disabled bracket one frame after the new last marker; `UPTO`
keeps the suffix from the last marker with frame at most `ref` (the whole
track when every frame exceeds `ref`) and prepends a disabled bracket one
frame before the new first marker; `ALL` collapses the track to the marker
found by `get(ref)` — carrying its own frame, not necessarily `ref` — with
disabled brackets one frame on each side.  The brackets sit next to the
surviving segment's boundary (not at `ref` ± 1) and are inserted with
overwrite. -/
theorem C6_path_clear_amended (track : MovieTrackingTrack) (ref : Int)
    (hs : MarkersSorted track.markers) (hne : track.markers ≠ []) :
    (∃ kept lastm,
      kept = track.markers.head hne ::
        track.markers.tail.takeWhile (fun m => decide (m.framenr ≤ ref)) ∧
      kept.getLast? = some lastm ∧
      BKE_tracking_track_path_clear track ref ClearAction.REMAINED =
        some { track with
          markers := kept ++ [disabledCopy lastm false]
          last_marker := kept.length }) ∧
    (∃ kept firstm,
      kept = track.markers.drop (kBound track.markers ref - 1) ∧
      kept.head? = some firstm ∧
      BKE_tracking_track_path_clear track ref ClearAction.UPTO =
        some { track with
          markers := disabledCopy firstm true :: kept
          last_marker := 0 }) ∧
    (∃ mref, specNearestMarker track.markers ref = some mref ∧
      BKE_tracking_track_path_clear track ref ClearAction.ALL =
        some { track with
          markers := [disabledCopy mref true, mref, disabledCopy mref false], last_marker := 2 }) :=
  ⟨path_clear_remained_eq track ref hs hne,
   path_clear_upto_eq track ref hs hne,
   path_clear_all_eq track ref hs hne⟩

/-- Witness for the amended C6 on the track with markers at 5, 10, 20 and
`ref = 12`: `REMAINED` yields frames 5, 10 and a disabled 11, `UPTO` yields a
disabled 9 then 10 and 20, and `ALL` yields disabled 9, enabled 10, disabled
11. -/
theorem C6_path_clear_amended_witness :
    (MarkersSorted track520.markers ∧ track520.markers ≠ []) ∧
    ((∃ kept lastm,
      kept = track520.markers.head (by decide) ::
        track520.markers.tail.takeWhile (fun m => decide (m.framenr ≤ 12)) ∧
      kept.getLast? = some lastm ∧
      BKE_tracking_track_path_clear track520 12 ClearAction.REMAINED =
        some { track520 with
          markers := kept ++ [disabledCopy lastm false]
          last_marker := kept.length }) ∧
    (∃ kept firstm,
      kept = track520.markers.drop (kBound track520.markers 12 - 1) ∧
      kept.head? = some firstm ∧
      BKE_tracking_track_path_clear track520 12 ClearAction.UPTO =
        some { track520 with
          markers := disabledCopy firstm true :: kept
          last_marker := 0 }) ∧
    (∃ mref, specNearestMarker track520.markers 12 = some mref ∧
      BKE_tracking_track_path_clear track520 12 ClearAction.ALL =
        some { track520 with
          markers := [disabledCopy mref true, mref, disabledCopy mref false], last_marker := 2 })) ∧
    ((BKE_tracking_track_path_clear track520 12 ClearAction.REMAINED).map
        (fun t => t.markers.map (fun m => (m.framenr, m.disabled))) =
      some [(5, false), (10, false), (11, true)]) := by
  have hmain := C6_path_clear_amended track520 12 (by decide) (by decide)
  refine ⟨⟨by decide, by decide⟩, hmain, ?_⟩
  obtain ⟨⟨kept, lastm, hkeq, hlast, heq⟩, _, _⟩ := hmain
  have hk : kept = [testMarker 5 0 0, testMarker 10 0 0] := by rw [hkeq]; decide
  have hl : lastm = testMarker 10 0 0 := by
    rw [hk] at hlast
    exact (Option.some_inj.1 hlast).symm
  rw [hk, hl] at heq
  rw [heq]
  decide

/-! ## Operation sequences (C4) -/

/-- The marker-store operations the invariant claim quantifies over. -/
inductive MarkerOp
  | insert (m : MovieTrackingMarker)
  | delete (framenr : Int)
  | ensure (framenr : Int)
  | path_clear (ref_frame : Int) (action : ClearAction)
  deriving DecidableEq, Repr

/-- One operation on a track; `none` is undefined behaviour (a NULL
dereference in the C source). -/
def execOp (t : MovieTrackingTrack) : MarkerOp → Option MovieTrackingTrack
  | MarkerOp.insert m => BKE_tracking_marker_insert t m
  | MarkerOp.delete f => some (BKE_tracking_marker_delete t f)
  | MarkerOp.ensure f => (BKE_tracking_marker_ensure t f).map Prod.fst
  | MarkerOp.path_clear ref act => BKE_tracking_track_path_clear t ref act

/-- A finite sequence of operations. -/
def execOps (t : MovieTrackingTrack) : List MarkerOp → Option MovieTrackingTrack
  | [] => some t
  | op :: ops => (execOp t op).bind fun t' => execOps t' ops

/-- Every single operation keeps the marker array strictly sorted. -/
theorem execOp_sorted (t : MovieTrackingTrack) (op : MarkerOp)
    (hs : MarkersSorted t.markers) :
    ∀ t', execOp t op = some t' → MarkersSorted t'.markers := by
  intro t' ht'
  match op with
  | MarkerOp.insert m =>
    obtain ⟨t2, hins, hs2, _, _, _⟩ := marker_insert_spec t m hs
    rw [execOp, hins] at ht'
    obtain rfl := Option.some_inj.1 ht'
    exact hs2
  | MarkerOp.delete f =>
    rw [execOp] at ht'
    obtain rfl := Option.some_inj.1 ht'
    exact (marker_delete_spec t f hs).1
  | MarkerOp.ensure f =>
    rw [execOp] at ht'
    by_cases hne : t.markers = []
    · have : BKE_tracking_marker_ensure t f = none := by
        rw [BKE_tracking_marker_ensure, BKE_tracking_marker_get, marker_get_impl,
          hne]
        rfl
      rw [this] at ht'
      exact absurd ht' (by simp)
    · obtain ⟨t2, m2, hens, _, hs2, _, _, _⟩ := marker_ensure_spec t f hs hne
      rw [hens] at ht'
      obtain rfl := Option.some_inj.1 ht'
      exact hs2
  | MarkerOp.path_clear ref act =>
    rw [execOp] at ht'
    exact (path_clear_preserves t ref act hs t' ht').1

/-- Every non-delete operation leaves `last_marker` strictly below the array
length whenever the resulting track is non-empty. -/
theorem execOp_cursor (t : MovieTrackingTrack) (op : MarkerOp)
    (hs : MarkersSorted t.markers) (hnd : ∀ f, op ≠ MarkerOp.delete f) :
    ∀ t', execOp t op = some t' → t'.markers ≠ [] →
      t'.last_marker < t'.markers.length := by
  intro t' ht' hne'
  match op with
  | MarkerOp.insert m =>
    obtain ⟨t2, hins, _, _, hcb, _⟩ := marker_insert_spec t m hs
    rw [execOp, hins] at ht'
    obtain rfl := Option.some_inj.1 ht'
    exact hcb
  | MarkerOp.delete f => exact absurd rfl (hnd f)
  | MarkerOp.ensure f =>
    rw [execOp] at ht'
    by_cases hne : t.markers = []
    · have : BKE_tracking_marker_ensure t f = none := by
        rw [BKE_tracking_marker_ensure, BKE_tracking_marker_get, marker_get_impl,
          hne]
        rfl
      rw [this] at ht'
      exact absurd ht' (by simp)
    · obtain ⟨t2, m2, hens, _, _, _, hcb, _⟩ := marker_ensure_spec t f hs hne
      rw [hens] at ht'
      obtain rfl := Option.some_inj.1 ht'
      exact hcb
  | MarkerOp.path_clear ref act =>
    rw [execOp] at ht'
    exact (path_clear_preserves t ref act hs t' ht').2 hne'

set_option maxRecDepth 2048 in
/-- Counterexample to C4 as stated: starting from the valid empty track, the
sequence insert at frame 1, insert at frame 2, delete frame 1 succeeds and
leaves a non-empty track whose cursor equals `markersnr` (the delete shrinks
the array without touching `last_marker`), violating the claimed invariant
`last_marker_index < markersnr`. -/
theorem C4_invariant_counterexample :
    ∃ t', execOps { markers := [], last_marker := 0 }
        [MarkerOp.insert (testMarker 1 0 0), MarkerOp.insert (testMarker 2 0 0),
          MarkerOp.delete 1] = some t' ∧
      t'.markers ≠ [] ∧ ¬ (t'.last_marker < t'.markers.length) := by
  have h1 : execOp { markers := [], last_marker := 0 }
      (MarkerOp.insert (testMarker 1 0 0)) =
      some { markers := [testMarker 1 0 0], last_marker := 0 } := by
    simp only [execOp]
    rw [marker_insert_eq _ _ (by decide)]
    decide
  have h2 : execOp { markers := [testMarker 1 0 0], last_marker := 0 }
      (MarkerOp.insert (testMarker 2 0 0)) =
      some { markers := [testMarker 1 0 0, testMarker 2 0 0], last_marker := 1 } := by
    simp only [execOp]
    rw [marker_insert_eq _ _ (by decide)]
    decide
  have h3 : execOp { markers := [testMarker 1 0 0, testMarker 2 0 0], last_marker := 1 }
      (MarkerOp.delete 1) =
      some { markers := [testMarker 2 0 0], last_marker := 1 } := by
    simp only [execOp]
    decide
  refine ⟨{ markers := [testMarker 2 0 0], last_marker := 1 }, ?_, by decide,
    by decide⟩
  rw [execOps, h1, Option.some_bind, execOps, h2, Option.some_bind, execOps, h3,
    Option.some_bind, execOps]

/-- C4 amended: starting from a track with a sorted marker array, every finite
sequence of insert, delete, ensure and path-clear operations that completes
(no NULL dereference) leaves the array strictly ascending by frame; and after
any single insert, ensure or path-clear step on a sorted state the cursor
satisfies `last_marker < markersnr` whenever the track is non-empty — a
delete, which never touches the cursor, is the one operation that can leave
`last_marker = markersnr`. -/
theorem C4_sorted_amended :
    (∀ (t : MovieTrackingTrack) (ops : List MarkerOp) (t' : MovieTrackingTrack),
      MarkersSorted t.markers → execOps t ops = some t' →
      MarkersSorted t'.markers) ∧
    (∀ (t : MovieTrackingTrack) (op : MarkerOp) (t' : MovieTrackingTrack),
      MarkersSorted t.markers → (∀ f, op ≠ MarkerOp.delete f) →
      execOp t op = some t' → t'.markers ≠ [] →
      t'.last_marker < t'.markers.length) := by
  constructor
  · intro t ops
    induction ops generalizing t with
    | nil =>
      intro t' hs ht'
      rw [execOps] at ht'
      obtain rfl := Option.some_inj.1 ht'
      exact hs
    | cons op rest ih =>
      intro t' hs ht'
      rw [execOps] at ht'
      rcases hop : execOp t op with _ | t1
      · rw [hop] at ht'
        exact absurd ht' (by simp)
      · rw [hop, Option.some_bind] at ht'
        exact ih t1 t' (execOp_sorted t op hs t1 hop) ht'
  · intro t op t' hs hnd ht' hne'
    exact execOp_cursor t op hs hnd t' ht' hne'

set_option maxRecDepth 2048 in
/-- Witness for the amended C4: the counterexample sequence (two inserts and a
delete) still leaves a sorted array, and a single insert on the S1 track
leaves the cursor in bounds. -/
theorem C4_sorted_amended_witness :
    (MarkersSorted ([] : List MovieTrackingMarker)) ∧
    (∃ t', execOps { markers := [], last_marker := 0 }
        [MarkerOp.insert (testMarker 1 0 0), MarkerOp.insert (testMarker 2 0 0),
          MarkerOp.delete 1] = some t' ∧ MarkersSorted t'.markers) ∧
    (∃ t2, execOp track520 (MarkerOp.insert (testMarker 7 0 0)) = some t2 ∧
      t2.last_marker < t2.markers.length) := by
  refine ⟨by decide, ?_, ?_⟩
  · have h1 : execOp { markers := [], last_marker := 0 }
        (MarkerOp.insert (testMarker 1 0 0)) =
        some { markers := [testMarker 1 0 0], last_marker := 0 } := by
      simp only [execOp]
      rw [marker_insert_eq _ _ (by decide)]
      decide
    have h2 : execOp { markers := [testMarker 1 0 0], last_marker := 0 }
        (MarkerOp.insert (testMarker 2 0 0)) =
        some { markers := [testMarker 1 0 0, testMarker 2 0 0], last_marker := 1 } := by
      simp only [execOp]
      rw [marker_insert_eq _ _ (by decide)]
      decide
    have h3 : execOp
        { markers := [testMarker 1 0 0, testMarker 2 0 0], last_marker := 1 }
        (MarkerOp.delete 1) =
        some { markers := [testMarker 2 0 0], last_marker := 1 } := by
      simp only [execOp]
      decide
    have hexec : execOps { markers := [], last_marker := 0 }
        [MarkerOp.insert (testMarker 1 0 0), MarkerOp.insert (testMarker 2 0 0),
          MarkerOp.delete 1] =
        some { markers := [testMarker 2 0 0], last_marker := 1 } := by
      rw [execOps, h1, Option.some_bind, execOps, h2, Option.some_bind, execOps,
        h3, Option.some_bind, execOps]
    exact ⟨_, hexec, C4_sorted_amended.1 _ _ _ (by decide) hexec⟩
  · have hins : execOp track520 (MarkerOp.insert (testMarker 7 0 0)) =
        some { markers := [testMarker 5 0 0, testMarker 7 0 0, testMarker 10 0 0,
          testMarker 20 0 0], last_marker := 1 } := by
      simp only [execOp]
      rw [marker_insert_eq _ _ (by decide)]
      decide
    refine ⟨_, hins, C4_sorted_amended.2 track520 _ _ (by decide)
      (by intro f h; cases h) hins (by decide)⟩

/-! ## Track joining (C2) -/

/-- `interp_v2_v2v2` from BLI_math: linear interpolation `a + t·(b - a)`. -/
def interp_v2_v2v2 (a b : Vec2) (t : ℚ) : Vec2 :=
  (a.1 + t * (b.1 - a.1), a.2 + t * (b.2 - a.2))

/-- The length of the blend segment found by the inner loop of
`BKE_tracking_tracks_join` (tracking.c:777-792): the number of leading
positions where both tracks carry an enabled marker at the expected frame,
the frame counting up by one each step. -/
def blendLen (frame : Int) :
    List MovieTrackingMarker → List MovieTrackingMarker → Nat
  | ma :: st, mb :: dt =>
    if ma.disabled || mb.disabled then 0
    else if ma.framenr ≠ frame || mb.framenr ≠ frame then 0
    else 1 + blendLen (frame + 1) st dt
  | _, [] => 0
  | [], _ => 0

/-- The blended markers emitted for one segment (tracking.c:797-815): the
`j`-th output is the dst marker with its position interpolated towards the
src marker by `j/(len-1)` (one half for a single-frame segment), reversed
when `inverse` is set. -/
def blendEmit (len : Nat) (inverse : Bool) :
    Nat → List MovieTrackingMarker → List MovieTrackingMarker →
    List MovieTrackingMarker
  | j, ma :: st, mb :: dt =>
    if j < len then
      let fac0 : ℚ := if 1 < len then (j : ℚ) / ((len : ℚ) - 1) else 1 / 2
      let fac : ℚ := if inverse then 1 - fac0 else fac0
      { mb with pos := interp_v2_v2v2 mb.pos ma.pos fac } ::
        blendEmit len inverse (j + 1) st dt
    else []
  | _, _, [] => []
  | _, [], _ => []

/-- The merge loop of `BKE_tracking_tracks_join` (tracking.c:748-833) over the
remaining src and dst markers.  `prev` is the dst marker just before the
current dst position (`dst_track->markers[b - 1]`, `none` when `b == 0`),
used for the inverse test of a blend segment. -/
def tracks_join_loop (prev : Option MovieTrackingMarker) :
    List MovieTrackingMarker → List MovieTrackingMarker →
    List MovieTrackingMarker
  | src, [] => src
  | [], db :: dt => db :: dt
  | sa :: st, db :: dt =>
    if sa.framenr < db.framenr then
      sa :: tracks_join_loop prev st (db :: dt)
    else if db.framenr < sa.framenr then
      db :: tracks_join_loop (some db) (sa :: st) dt
    else
      if sa.disabled = false then
        if db.disabled = false then
          let len := blendLen sa.framenr (sa :: st) (db :: dt)
          let inverse : Bool := match prev with
            | none => true
            | some p => p.disabled || decide (p.framenr ≠ sa.framenr - 1)
          blendEmit len inverse 0 (sa :: st) (db :: dt) ++
            tracks_join_loop (((db :: dt).take len).getLast? <|> prev)
              ((sa :: st).drop len) ((db :: dt).drop len)
        else
          sa :: tracks_join_loop (some db) st dt
      else
        db :: tracks_join_loop (some db) st dt
termination_by src dst => src.length + dst.length
decreasing_by
  all_goals simp_wf
  all_goals try omega
  · have heq : db.framenr = sa.framenr := by omega
    have hlen : 1 ≤ blendLen sa.framenr (sa :: st) (db :: dt) := by
      rw [blendLen]
      rw [if_neg (by simp [*]), if_neg (by simp [heq])]
      omega
    have h1 := List.length_drop (blendLen sa.framenr (sa :: st) (db :: dt)) (sa :: st)
    have h2 := List.length_drop (blendLen sa.framenr (sa :: st) (db :: dt)) (db :: dt)
    simp only [List.length_cons] at h1 h2 ⊢
    omega

/-- `BKE_tracking_tracks_join` (tracking.c:740-845): replace the dst track's
marker array by the merge of both tracks' arrays. -/
def BKE_tracking_tracks_join (dst_track src_track : MovieTrackingTrack) :
    MovieTrackingTrack :=
  { dst_track with
    markers := tracks_join_loop none src_track.markers dst_track.markers }

/-- The marker of a track at exactly frame `f` (claim-side lookup used to
state the join properties). -/
def markerAt (ms : List MovieTrackingMarker) (f : Int) : Option MovieTrackingMarker :=
  ms.find? (fun m => decide (m.framenr = f))

/-- There is an enabled marker at exactly frame `f`. -/
def enabledAt (ms : List MovieTrackingMarker) (f : Int) : Bool :=
  match markerAt ms f with
  | some m => ! m.disabled
  | none => false

/-- Both tracks carry an enabled marker at frame `f` (the blend condition of
the claim). -/
def commonEnabled (src dst : List MovieTrackingMarker) (f : Int) : Bool :=
  enabledAt src f && enabledAt dst f

/-- The inverse flag of a blend segment starting at frame `g`: set when the
dst marker one frame before the segment is missing or disabled.  `prev` is
the dst marker just before the current position when the segment starts at
the head of the remaining dst array. -/
def inverseFor (prev : Option MovieTrackingMarker)
    (dst : List MovieTrackingMarker) (g : Int) : Bool :=
  match markerAt dst (g - 1) with
  | some p => p.disabled
  | none =>
    match prev with
    | none => true
    | some p => p.disabled || decide (p.framenr ≠ g - 1)

/-- The blend factor of the `j`-th frame of a segment of length `len`. -/
def facFor (len : Nat) (inv : Bool) (j : Nat) : ℚ :=
  let fac0 : ℚ := if 1 < len then (j : ℚ) / ((len : ℚ) - 1) else 1 / 2
  if inv then 1 - fac0 else fac0

theorem markerAt_cons {m : MovieTrackingMarker} {t : List MovieTrackingMarker}
    {f : Int} :
    markerAt (m :: t) f = if m.framenr = f then some m else markerAt t f := by
  rw [markerAt, List.find?_cons]
  by_cases h : m.framenr = f
  · simp [h]
  · rw [if_neg h]
    simp only [decide_eq_false h]
    rfl

theorem markerAt_eq_none {ms : List MovieTrackingMarker} {f : Int}
    (h : ∀ x ∈ ms, x.framenr ≠ f) : markerAt ms f = none := by
  rw [markerAt, List.find?_eq_none]
  intro x hx
  simpa using h x hx

theorem markerAt_some_mem {ms : List MovieTrackingMarker} {f : Int}
    {x : MovieTrackingMarker} (h : markerAt ms f = some x) :
    x ∈ ms ∧ x.framenr = f :=
  ⟨List.mem_of_find?_eq_some h, by simpa using List.find?_some h⟩

/-- A sorted cons has no marker strictly below its head frame. -/
theorem markerAt_lt_head {m : MovieTrackingMarker} {t : List MovieTrackingMarker}
    (hs : MarkersSorted (m :: t)) {f : Int} (hf : f < m.framenr) :
    markerAt (m :: t) f = none := by
  apply markerAt_eq_none
  intro x hx
  rcases List.mem_cons.1 hx with rfl | hx2
  · omega
  · have := (List.pairwise_cons.1 hs).1 x hx2
    omega

theorem markerAt_of_mem_sorted {ms : List MovieTrackingMarker}
    (hs : MarkersSorted ms) {x : MovieTrackingMarker} (hx : x ∈ ms) :
    markerAt ms x.framenr = some x := by
  induction ms with
  | nil => simp at hx
  | cons m t ih =>
    rw [markerAt_cons]
    rcases List.mem_cons.1 hx with rfl | hx2
    · rw [if_pos rfl]
    · by_cases hf : m.framenr = x.framenr
      · have := (List.pairwise_cons.1 hs).1 x hx2
        omega
      · rw [if_neg hf]
        exact ih (List.pairwise_cons.1 hs).2 hx2

theorem sorted_frame_inj {ms : List MovieTrackingMarker}
    (hs : MarkersSorted ms) {i j : Nat} (hi : i < ms.length) (hj : j < ms.length)
    (hf : ms[i].framenr = ms[j].framenr) : i = j := by
  rcases Nat.lt_trichotomy i j with h | h | h
  · have := (List.pairwise_iff_getElem.1 hs) i j hi hj h
    omega
  · exact h
  · have := (List.pairwise_iff_getElem.1 hs) j i hj hi h
    omega

/-- Dropping a prefix whose frames avoid `f` does not change the lookup. -/
theorem markerAt_drop_eq {ms : List MovieTrackingMarker} {k : Nat} {f : Int}
    (h : ∀ x ∈ ms.take k, x.framenr ≠ f) :
    markerAt (ms.drop k) f = markerAt ms f := by
  conv_rhs => rw [← List.take_append_drop k ms]
  rw [markerAt, markerAt, List.find?_append]
  have : (ms.take k).find? (fun m => decide (m.framenr = f)) = none := by
    rw [List.find?_eq_none]
    intro x hx
    simpa using h x hx
  rw [this]
  rfl

/-- Positional description of `blendEmit`. -/
theorem blendEmit_getElem? (len : Nat) (inv : Bool) :
    ∀ (src : List MovieTrackingMarker) (j : Nat)
      (dst : List MovieTrackingMarker) (k : Nat),
      (blendEmit len inv j src dst)[k]? =
        if j + k < len then
          match src[k]?, dst[k]? with
          | some ma, some mb =>
            some { mb with pos := interp_v2_v2v2 mb.pos ma.pos (facFor len inv (j + k)) }
          | some _, none => none
          | none, some _ => none
          | none, none => none
        else none := by
  intro src
  induction src with
  | nil =>
    intro j dst k
    have hnil : blendEmit len inv j [] dst = [] := by
      match dst with
      | [] => rfl
      | _ :: _ => rfl
    rw [hnil]
    simp only [List.getElem?_nil]
    split
    · cases dst[k]? <;> rfl
    · rfl
  | cons ma st ih =>
    intro j dst k
    match dst with
    | [] =>
      have hnil : blendEmit len inv j (ma :: st) [] = [] := rfl
      rw [hnil]
      simp only [List.getElem?_nil]
      split
      · cases (ma :: st)[k]? <;> rfl
      · rfl
    | mb :: dt =>
      rw [blendEmit]
      by_cases hj : j < len
      · rw [if_pos hj]
        match k with
        | 0 =>
          rw [if_pos (show j + 0 < len by omega)]
          simp only [List.getElem?_cons_zero, Nat.add_zero]
          rfl
        | Nat.succ k' =>
          simp only [List.getElem?_cons_succ]
          rw [ih (j + 1) dt k']
          have harith : j + 1 + k' = j + (k' + 1) := by omega
          rw [harith]
      · rw [if_neg hj, if_neg (by omega)]
        simp

/-- The blend-segment length scan stops exactly when the positional run
condition fails. -/
theorem blendLen_char (F : Int) :
    ∀ (src dst : List MovieTrackingMarker),
      (∀ j, ∀ (hj : j < blendLen F src dst),
        ∃ (h1 : j < src.length) (h2 : j < dst.length),
          src[j].framenr = F + j ∧ dst[j].framenr = F + j ∧
          src[j].disabled = false ∧ dst[j].disabled = false) ∧
      (blendLen F src dst ≤ src.length ∧ blendLen F src dst ≤ dst.length) ∧
      ¬ (∃ (h1 : blendLen F src dst < src.length)
          (h2 : blendLen F src dst < dst.length),
          src[blendLen F src dst].framenr = F + blendLen F src dst ∧
          dst[blendLen F src dst].framenr = F + blendLen F src dst ∧
          src[blendLen F src dst].disabled = false ∧
          dst[blendLen F src dst].disabled = false) := by
  intro src
  induction src generalizing F with
  | nil =>
    intro dst
    have h0 : blendLen F [] dst = 0 := by
      match dst with
      | [] => rfl
      | _ :: _ => rfl
    rw [h0]
    refine ⟨by omega, ⟨by omega, by omega⟩, ?_⟩
    rintro ⟨h1, _, _⟩
    simp at h1
  | cons ma st ih =>
    intro dst
    match dst with
    | [] =>
      have h0 : blendLen F (ma :: st) [] = 0 := rfl
      rw [h0]
      refine ⟨by omega, ⟨by omega, by omega⟩, ?_⟩
      rintro ⟨_, h2, _⟩
      simp at h2
    | mb :: dt =>
      rw [blendLen]
      by_cases hdis : ma.disabled || mb.disabled
      · rw [if_pos hdis]
        refine ⟨by omega, ⟨by omega, by omega⟩, ?_⟩
        rintro ⟨h1, h2, _, _, hd1, hd2⟩
        simp only [List.getElem_cons_zero] at hd1 hd2
        rw [hd1, hd2] at hdis
        simp at hdis
      · rw [if_neg hdis]
        by_cases hfr : ma.framenr ≠ F ∨ mb.framenr ≠ F
        · rw [if_pos (by simpa using hfr)]
          refine ⟨by omega, ⟨by omega, by omega⟩, ?_⟩
          rintro ⟨h1, h2, hf1, hf2, _, _⟩
          simp only [List.getElem_cons_zero] at hf1 hf2
          omega
        · push_neg at hfr
          rw [if_neg (by simpa using (by omega : ¬ (ma.framenr ≠ F ∨ mb.framenr ≠ F)))]
          obtain ⟨ihrun, ⟨ihl1, ihl2⟩, ihstop⟩ := ih (F + 1) dt
          simp only [Bool.or_eq_true] at hdis
          push_neg at hdis
          refine ⟨?_, ⟨by simp; omega, by simp; omega⟩, ?_⟩
          · intro j hj
            match j with
            | 0 =>
              refine ⟨by simp, by simp, ?_⟩
              simp only [List.getElem_cons_zero]
              refine ⟨by omega, by omega, ?_, ?_⟩
              · simpa using hdis.1
              · simpa using hdis.2
            | Nat.succ j' =>
              have hj' : j' < blendLen (F + 1) st dt := by omega
              obtain ⟨h1, h2, hf1, hf2, hd1, hd2⟩ := ihrun j' hj'
              refine ⟨by simp; omega, by simp; omega, ?_⟩
              simp only [List.getElem_cons_succ]
              refine ⟨by omega, by omega, hd1, hd2⟩
          · rintro ⟨h1, h2, hf1, hf2, hd1, hd2⟩
            apply ihstop
            simp only [List.length_cons] at h1 h2
            refine ⟨by omega, by omega, ?_⟩
            have hidx : 1 + blendLen (F + 1) st dt = blendLen (F + 1) st dt + 1 := by
              omega
            simp only [hidx, List.getElem_cons_succ] at hf1 hf2 hd1 hd2
            refine ⟨by rw [hf1]; omega, by rw [hf2]; omega, hd1, hd2⟩

/-! Branch equations of the join loop, one per source branch. -/

theorem jl_dst_nil (prev : Option MovieTrackingMarker)
    (src : List MovieTrackingMarker) :
    tracks_join_loop prev src [] = src := by
  cases src <;> rw [tracks_join_loop]

theorem jl_src_nil (prev : Option MovieTrackingMarker)
    (db : MovieTrackingMarker) (dt : List MovieTrackingMarker) :
    tracks_join_loop prev [] (db :: dt) = db :: dt := by
  rw [tracks_join_loop]

theorem jl_lt {sa db : MovieTrackingMarker} (prev : Option MovieTrackingMarker)
    (st dt : List MovieTrackingMarker) (h : sa.framenr < db.framenr) :
    tracks_join_loop prev (sa :: st) (db :: dt) =
      sa :: tracks_join_loop prev st (db :: dt) := by
  rw [tracks_join_loop.eq_def]
  dsimp only
  rw [if_pos h]

theorem jl_gt {sa db : MovieTrackingMarker} (prev : Option MovieTrackingMarker)
    (st dt : List MovieTrackingMarker) (h : db.framenr < sa.framenr) :
    tracks_join_loop prev (sa :: st) (db :: dt) =
      db :: tracks_join_loop (some db) (sa :: st) dt := by
  rw [tracks_join_loop.eq_def]
  dsimp only
  rw [if_neg (by omega), if_pos h]

theorem jl_src_disabled {sa db : MovieTrackingMarker}
    (prev : Option MovieTrackingMarker) (st dt : List MovieTrackingMarker)
    (h : sa.framenr = db.framenr) (hd : sa.disabled = true) :
    tracks_join_loop prev (sa :: st) (db :: dt) =
      db :: tracks_join_loop (some db) st dt := by
  rw [tracks_join_loop.eq_def]
  dsimp only
  rw [if_neg (by omega), if_neg (by omega), if_neg (by simp [hd])]

theorem jl_dst_disabled {sa db : MovieTrackingMarker}
    (prev : Option MovieTrackingMarker) (st dt : List MovieTrackingMarker)
    (h : sa.framenr = db.framenr) (hsa : sa.disabled = false)
    (hdb : db.disabled = true) :
    tracks_join_loop prev (sa :: st) (db :: dt) =
      sa :: tracks_join_loop (some db) st dt := by
  rw [tracks_join_loop.eq_def]
  dsimp only
  rw [if_neg (by omega), if_neg (by omega), if_pos hsa, if_neg (by simp [hdb])]

theorem jl_blend {sa db : MovieTrackingMarker}
    (prev : Option MovieTrackingMarker) (st dt : List MovieTrackingMarker)
    (h : sa.framenr = db.framenr) (hsa : sa.disabled = false)
    (hdb : db.disabled = false) :
    tracks_join_loop prev (sa :: st) (db :: dt) =
      blendEmit (blendLen sa.framenr (sa :: st) (db :: dt))
        (match prev with
         | none => true
         | some p => p.disabled || decide (p.framenr ≠ sa.framenr - 1)) 0
        (sa :: st) (db :: dt) ++
      tracks_join_loop
        (((db :: dt).take (blendLen sa.framenr (sa :: st) (db :: dt))).getLast?
          <|> prev)
        ((sa :: st).drop (blendLen sa.framenr (sa :: st) (db :: dt)))
        ((db :: dt).drop (blendLen sa.framenr (sa :: st) (db :: dt))) := by
  rw [tracks_join_loop.eq_def]
  dsimp only
  rw [if_neg (by omega), if_neg (by omega), if_pos hsa, if_pos hdb]

/-! Small facts about `enabledAt`, `commonEnabled` and `inverseFor`. -/

theorem enabledAt_cons_ne {m : MovieTrackingMarker}
    {t : List MovieTrackingMarker} {f : Int} (h : m.framenr ≠ f) :
    enabledAt (m :: t) f = enabledAt t f := by
  unfold enabledAt
  rw [markerAt_cons, if_neg h]

theorem commonEnabled_cons_src_ne {sa : MovieTrackingMarker}
    {st dst : List MovieTrackingMarker} {f : Int} (h : sa.framenr ≠ f) :
    commonEnabled (sa :: st) dst f = commonEnabled st dst f := by
  unfold commonEnabled
  rw [enabledAt_cons_ne h]

theorem commonEnabled_cons_dst_ne {db : MovieTrackingMarker}
    {src dt : List MovieTrackingMarker} {f : Int} (h : db.framenr ≠ f) :
    commonEnabled src (db :: dt) f = commonEnabled src dt f := by
  unfold commonEnabled
  rw [enabledAt_cons_ne h]

theorem commonEnabled_elim {src dst : List MovieTrackingMarker} {f : Int}
    (h : commonEnabled src dst f = true) :
    ∃ ma mb, markerAt src f = some ma ∧ markerAt dst f = some mb ∧
      ma.disabled = false ∧ mb.disabled = false := by
  unfold commonEnabled enabledAt at h
  cases hma : markerAt src f with
  | none => rw [hma] at h; simp at h
  | some ma =>
    cases hmb : markerAt dst f with
    | none => rw [hma, hmb] at h; simp at h
    | some mb =>
      rw [hma, hmb] at h
      simp only [Bool.and_eq_true, Bool.not_eq_true'] at h
      exact ⟨ma, mb, rfl, rfl, h.1, h.2⟩

theorem commonEnabled_intro {src dst : List MovieTrackingMarker} {f : Int}
    {ma mb : MovieTrackingMarker} (hma : markerAt src f = some ma)
    (hmb : markerAt dst f = some mb) (ha : ma.disabled = false)
    (hb : mb.disabled = false) : commonEnabled src dst f = true := by
  unfold commonEnabled enabledAt
  rw [hma, hmb]
  simp [ha, hb]

theorem commonEnabled_false_src {src dst : List MovieTrackingMarker} {f : Int}
    (h : markerAt src f = none) : commonEnabled src dst f = false := by
  unfold commonEnabled enabledAt
  rw [h]
  simp

theorem commonEnabled_false_dst {src dst : List MovieTrackingMarker} {f : Int}
    (h : markerAt dst f = none) : commonEnabled src dst f = false := by
  unfold commonEnabled enabledAt
  rw [h]
  cases markerAt src f <;> simp

theorem commonEnabled_false_src_dis {src dst : List MovieTrackingMarker}
    {f : Int} {ma : MovieTrackingMarker} (h : markerAt src f = some ma)
    (hd : ma.disabled = true) : commonEnabled src dst f = false := by
  unfold commonEnabled enabledAt
  rw [h]
  simp [hd]

theorem commonEnabled_false_dst_dis {src dst : List MovieTrackingMarker}
    {f : Int} {mb : MovieTrackingMarker} (h : markerAt dst f = some mb)
    (hd : mb.disabled = true) : commonEnabled src dst f = false := by
  unfold commonEnabled enabledAt
  rw [h]
  cases markerAt src f <;> simp [hd]

/-- At the head frame of the dst list the code's `prev`-based inverse test is
exactly `inverseFor`: a dst marker one frame earlier cannot exist. -/
theorem inverseFor_head {db : MovieTrackingMarker}
    {dt : List MovieTrackingMarker} {prev : Option MovieTrackingMarker}
    {F : Int} (hs : MarkersSorted (db :: dt)) (hF : db.framenr = F) :
    inverseFor prev (db :: dt) F =
      (match prev with
       | none => true
       | some p => p.disabled || decide (p.framenr ≠ F - 1)) := by
  unfold inverseFor
  rw [markerAt_lt_head hs (by omega)]

/-- Stepping past the dst head keeps the inverse test unchanged for any later
segment start. -/
theorem inverseFor_step_cons {db : MovieTrackingMarker}
    {dt : List MovieTrackingMarker} {prev : Option MovieTrackingMarker}
    {g : Int} (hs : MarkersSorted (db :: dt))
    (hpi : ∀ p, prev = some p → ∀ x ∈ db :: dt, p.framenr < x.framenr)
    (hg : db.framenr < g) :
    inverseFor (some db) dt g = inverseFor prev (db :: dt) g := by
  unfold inverseFor
  rw [markerAt_cons]
  by_cases hdbf : db.framenr = g - 1
  · have hdt : markerAt dt (g - 1) = none := by
      apply markerAt_eq_none
      intro x hx
      have := (List.pairwise_cons.1 hs).1 x hx
      omega
    rw [hdt, if_pos hdbf]
    simp [hdbf]
  · rw [if_neg hdbf]
    cases hq : markerAt dt (g - 1) with
    | some q => rfl
    | none =>
      cases prev with
      | none => simp [hdbf]
      | some p =>
        have hp := hpi p rfl db (by simp)
        simp [hdbf, show p.framenr ≠ g - 1 by omega]

/-! Positional facts about sorted marker lists. -/

theorem sorted_lt_of_mem_drop {ms : List MovieTrackingMarker}
    (hs : MarkersSorted ms) {k : Nat} {m : MovieTrackingMarker}
    (hm : ms[k]? = some m) {x : MovieTrackingMarker}
    (hx : x ∈ ms.drop (k + 1)) : m.framenr < x.framenr := by
  obtain ⟨i, hi, hxeq⟩ := List.mem_iff_getElem.1 hx
  have hk : k < ms.length := by
    by_contra hcon
    rw [List.getElem?_eq_none (by omega)] at hm
    cases hm
  have hi' : k + 1 + i < ms.length := by
    rw [List.length_drop] at hi
    omega
  rw [List.getElem_drop] at hxeq
  have hp := (List.pairwise_iff_getElem.1 hs) k (k + 1 + i) hk hi' (by omega)
  rw [List.getElem?_eq_getElem hk] at hm
  rw [← Option.some_inj.1 hm, ← hxeq] at *
  exact hp

/-- In a sorted list whose first `len` positions carry frames `F .. F+len-1`,
a marker at frame `F + len` can only sit at position `len`. -/
theorem exact_index_after_run {ms : List MovieTrackingMarker}
    (hs : MarkersSorted ms) {F : Int} {len : Nat} (hpos : 0 < len)
    (hfr : ∀ k, k < len → ∃ m, ms[k]? = some m ∧ m.framenr = F + k)
    {x : MovieTrackingMarker} (hx : markerAt ms (F + len) = some x) :
    ms[len]? = some x := by
  obtain ⟨hxm, hxf⟩ := markerAt_some_mem hx
  obtain ⟨i, hi, hieq⟩ := List.mem_iff_getElem.1 hxm
  rcases Nat.lt_trichotomy i len with hlt | heq | hgt
  · obtain ⟨m, hm, hfm⟩ := hfr i hlt
    rw [List.getElem?_eq_getElem hi] at hm
    rw [← Option.some_inj.1 hm] at hfm
    rw [hieq] at hfm
    omega
  · rw [← heq, List.getElem?_eq_getElem hi, hieq]
  · obtain ⟨m, hm, hfm⟩ := hfr (len - 1) (by omega)
    have hlenlt : len < ms.length := by omega
    have hlen1 : len - 1 < ms.length := by omega
    rw [List.getElem?_eq_getElem hlen1] at hm
    have h1 := (List.pairwise_iff_getElem.1 hs) (len - 1) len hlen1 hlenlt
      (by omega)
    have h2 := (List.pairwise_iff_getElem.1 hs) len i hlenlt hi hgt
    rw [← Option.some_inj.1 hm] at hfm
    rw [hieq] at h2
    have hc : (len - 1 : Nat) + 1 = len := by omega
    have : (((len : Int) - 1)) = ((len - 1 : Nat) : Int) := by omega
    omega

theorem markerAt_of_getElem? {ms : List MovieTrackingMarker}
    (hs : MarkersSorted ms) {k : Nat} {m : MovieTrackingMarker}
    (h : ms[k]? = some m) : markerAt ms m.framenr = some m := by
  have hk : k < ms.length := by
    by_contra hcon
    rw [List.getElem?_eq_none (by omega)] at h
    cases h
  rw [List.getElem?_eq_getElem hk] at h
  exact markerAt_of_mem_sorted hs (by rw [← Option.some_inj.1 h]; exact List.getElem_mem hk)

/-! Lookup over an append. -/

theorem markerAt_append_left {A B : List MovieTrackingMarker} {f : Int}
    {x : MovieTrackingMarker} (h : markerAt A f = some x) :
    markerAt (A ++ B) f = some x := by
  unfold markerAt at *
  rw [List.find?_append, h]
  rfl

theorem markerAt_append_right {A B : List MovieTrackingMarker} {f : Int}
    (h : markerAt A f = none) :
    markerAt (A ++ B) f = markerAt B f := by
  unfold markerAt at *
  rw [List.find?_append, h]
  rfl

/-! The emitted blend block, positionally. -/

theorem blendEmit_getElem?_of {len : Nat} {inv : Bool}
    {src dst : List MovieTrackingMarker} {k : Nat}
    {ma mb : MovieTrackingMarker} (hk : k < len) (hsa : src[k]? = some ma)
    (hdb : dst[k]? = some mb) :
    (blendEmit len inv 0 src dst)[k]? =
      some { mb with pos := interp_v2_v2v2 mb.pos ma.pos (facFor len inv k) } := by
  have h := blendEmit_getElem? len inv src 0 dst k
  rw [hsa, hdb, if_pos (by omega)] at h
  simpa using h

theorem blendEmit_getElem?_none {len : Nat} {inv : Bool}
    {src dst : List MovieTrackingMarker} {k : Nat} (hk : len ≤ k) :
    (blendEmit len inv 0 src dst)[k]? = none := by
  have h := blendEmit_getElem? len inv src 0 dst k
  rw [if_neg (by omega)] at h
  exact h

theorem blendEmit_length {len : Nat} {inv : Bool}
    {src dst : List MovieTrackingMarker} (h1 : len ≤ src.length)
    (h2 : len ≤ dst.length) :
    (blendEmit len inv 0 src dst).length = len := by
  apply Nat.le_antisymm
  · by_contra hcon
    push_neg at hcon
    have h := blendEmit_getElem? len inv src 0 dst len
    rw [if_neg (by omega), List.getElem?_eq_getElem (by omega)] at h
    cases h
  · by_contra hcon
    push_neg at hcon
    have h := blendEmit_getElem? len inv src 0 dst
      (blendEmit len inv 0 src dst).length
    rw [if_pos (by omega), List.getElem?_eq_none (by omega)] at h
    rw [List.getElem?_eq_getElem (show (blendEmit len inv 0 src dst).length < src.length by omega),
      List.getElem?_eq_getElem (show (blendEmit len inv 0 src dst).length < dst.length by omega)] at h
    cases h

/-- Frames of the emitted block: position `k` carries the dst frame at `k`. -/
theorem blendEmit_frames {len : Nat} {inv : Bool}
    {src dst : List MovieTrackingMarker} {F : Int}
    (hsa : ∀ k, k < len → ∃ m, src[k]? = some m)
    (hdb : ∀ k, k < len → ∃ m, dst[k]? = some m ∧ m.framenr = F + k) :
    ∀ k, k < len → ∃ m, (blendEmit len inv 0 src dst)[k]? = some m ∧
      m.framenr = F + k := by
  intro k hk
  obtain ⟨ma, hma⟩ := hsa k hk
  obtain ⟨mb, hmb, hfb⟩ := hdb k hk
  exact ⟨_, blendEmit_getElem?_of hk hma hmb, hfb⟩

/-- A list whose `k`-th frame is `F + k` throughout is sorted. -/
theorem sorted_of_run_frames {ms : List MovieTrackingMarker} {F : Int}
    (hfr : ∀ k, k < ms.length → ∃ m, ms[k]? = some m ∧ m.framenr = F + k) :
    MarkersSorted ms := by
  rw [MarkersSorted, List.pairwise_iff_getElem]
  intro i j hi hj hij
  obtain ⟨mi, hmi, hfi⟩ := hfr i hi
  obtain ⟨mj, hmj, hfj⟩ := hfr j hj
  rw [List.getElem?_eq_getElem hi] at hmi
  rw [List.getElem?_eq_getElem hj] at hmj
  rw [← Option.some_inj.1 hmi] at hfi
  rw [← Option.some_inj.1 hmj] at hfj
  omega

/-! Uniqueness of maximal runs of a predicate on frames. -/

theorem run_unique (P : Int → Bool) {g g' : Int} {len len' : Nat}
    (hpos : 0 < len) (hpos' : 0 < len')
    (hrun : ∀ j : Nat, j < len → P (g + j) = true)
    (hleft : P (g - 1) = false) (hright : P (g + len) = false)
    (hrun' : ∀ j : Nat, j < len' → P (g' + j) = true)
    (hleft' : P (g' - 1) = false) (hright' : P (g' + len') = false)
    {j j' : Nat} (hj : j < len) (hj' : j' < len')
    (hshare : g + j = g' + j') : g = g' ∧ len = len' := by
  have hgg : g = g' := by
    rcases Int.lt_trichotomy g g' with hlt | heq | hgt
    · exfalso
      have hk : ((g' - 1 - g).toNat : Int) = g' - 1 - g := by omega
      have hklen : (g' - 1 - g).toNat < len := by omega
      have := hrun _ hklen
      rw [show g + ((g' - 1 - g).toNat : Int) = g' - 1 by omega] at this
      rw [this] at hleft'
      cases hleft'
    · exact heq
    · exfalso
      have hk : ((g - 1 - g').toNat : Int) = g - 1 - g' := by omega
      have hklen : (g - 1 - g').toNat < len' := by omega
      have := hrun' _ hklen
      rw [show g' + ((g - 1 - g').toNat : Int) = g - 1 by omega] at this
      rw [this] at hleft
      cases hleft
  subst hgg
  refine ⟨rfl, ?_⟩
  rcases Nat.lt_trichotomy len len' with hlt | heq | hgt
  · exfalso
    have := hrun' len hlt
    rw [this] at hright
    cases hright
  · exact heq
  · exfalso
    have := hrun len' hgt
    rw [this] at hright'
    cases hright'

theorem frames_of_mem_take {ms : List MovieTrackingMarker} {len : Nat} {F : Int}
    (hfr : ∀ k, k < len → ∃ m, ms[k]? = some m ∧ m.framenr = F + k)
    {x : MovieTrackingMarker} (hx : x ∈ ms.take len) :
    ∃ k, k < len ∧ x.framenr = F + k := by
  obtain ⟨i, hi, hieq⟩ := List.mem_iff_getElem.1 hx
  have hi' : i < len := by
    rw [List.length_take] at hi
    omega
  have hil : i < ms.length := by
    rw [List.length_take] at hi
    omega
  rw [List.getElem_take] at hieq
  obtain ⟨m, hm, hfm⟩ := hfr i hi'
  rw [List.getElem?_eq_getElem hil] at hm
  rw [← hieq, ← Option.some_inj.1 hm] at *
  exact ⟨i, hi', hfm⟩

theorem getLast?_take_of_getElem? {ms : List MovieTrackingMarker} {len : Nat}
    (h1 : 0 < len) {m : MovieTrackingMarker} (hm : ms[len - 1]? = some m)
    (hlen : len ≤ ms.length) : (ms.take len).getLast? = some m := by
  rw [List.getLast?_eq_getElem?]
  have hl : (ms.take len).length = len := by
    rw [List.length_take]
    omega
  rw [hl, List.getElem?_take, if_pos (by omega)]
  exact hm

/-- Skipping a consumed blend segment keeps the inverse test unchanged for any
later segment start. -/
theorem inverseFor_step_drop {dst : List MovieTrackingMarker}
    {prev : Option MovieTrackingMarker} {F g : Int} {len : Nat}
    (hs : MarkersSorted dst)
    (hpi : ∀ p, prev = some p → ∀ x ∈ dst, p.framenr < x.framenr)
    (hlen : 0 < len) (hlenle : len ≤ dst.length)
    (hfr : ∀ k, k < len → ∃ m, dst[k]? = some m ∧ m.framenr = F + k)
    (hg : F + len < g) :
    inverseFor ((dst.take len).getLast? <|> prev) (dst.drop len) g =
      inverseFor prev dst g := by
  obtain ⟨mlast, hmlast, hflast⟩ := hfr (len - 1) (by omega)
  rw [getLast?_take_of_getElem? hlen hmlast hlenle]
  have hdropAt : markerAt (dst.drop len) (g - 1) = markerAt dst (g - 1) := by
    apply markerAt_drop_eq
    intro x hx
    obtain ⟨k, hk, hfk⟩ := frames_of_mem_take hfr hx
    omega
  unfold inverseFor
  rw [hdropAt]
  cases hq : markerAt dst (g - 1) with
  | some q => rfl
  | none =>
    have hne : mlast.framenr ≠ g - 1 := by omega
    cases prev with
    | none => simp [hne]
    | some p =>
      obtain ⟨m0, hm0, hf0⟩ := hfr 0 (by omega)
      have hp := hpi p rfl m0 (by
        have hk : (0 : Nat) < dst.length := by omega
        rw [List.getElem?_eq_getElem hk] at hm0
        rw [← Option.some_inj.1 hm0]
        exact List.getElem_mem hk)
      simp [hne, show p.framenr ≠ g - 1 by omega]

/-- All the segment facts extracted from the positional characterisation of
`blendLen`, at a blend branch of the join loop. -/
theorem blend_run_facts {sa db : MovieTrackingMarker}
    {st dt : List MovieTrackingMarker} {len : Nat}
    (hss : MarkersSorted (sa :: st)) (hds : MarkersSorted (db :: dt))
    (heq : sa.framenr = db.framenr) (hsae : sa.disabled = false)
    (hdbe : db.disabled = false)
    (hlen : len = blendLen sa.framenr (sa :: st) (db :: dt)) :
    0 < len ∧ len ≤ (sa :: st).length ∧ len ≤ (db :: dt).length ∧
    (∀ k, k < len → ∃ m, (sa :: st)[k]? = some m ∧
      m.framenr = sa.framenr + k ∧ m.disabled = false) ∧
    (∀ k, k < len → ∃ m, (db :: dt)[k]? = some m ∧
      m.framenr = sa.framenr + k ∧ m.disabled = false) ∧
    (∀ j : Nat, j < len →
      commonEnabled (sa :: st) (db :: dt) (sa.framenr + j) = true) ∧
    commonEnabled (sa :: st) (db :: dt) (sa.framenr - 1) = false ∧
    commonEnabled (sa :: st) (db :: dt) (sa.framenr + len) = false := by
  obtain ⟨hrun, ⟨hl1, hl2⟩, hstop⟩ := blendLen_char sa.framenr (sa :: st) (db :: dt)
  have hpos : 0 < len := by
    rw [hlen, blendLen, if_neg (by simp [hsae, hdbe]),
      if_neg (by simp [heq])]
    omega
  have hfrS : ∀ k, k < len → ∃ m, (sa :: st)[k]? = some m ∧
      m.framenr = sa.framenr + k ∧ m.disabled = false := by
    intro k hk
    obtain ⟨h1, h2, hf1, hf2, hd1, hd2⟩ := hrun k (by omega)
    exact ⟨_, List.getElem?_eq_getElem h1, hf1, hd1⟩
  have hfrD : ∀ k, k < len → ∃ m, (db :: dt)[k]? = some m ∧
      m.framenr = sa.framenr + k ∧ m.disabled = false := by
    intro k hk
    obtain ⟨h1, h2, hf1, hf2, hd1, hd2⟩ := hrun k (by omega)
    exact ⟨_, List.getElem?_eq_getElem h2, hf2, hd2⟩
  refine ⟨hpos, by omega, by omega, hfrS, hfrD, ?_, ?_, ?_⟩
  · intro j hj
    obtain ⟨ma, hma, hfa, hda⟩ := hfrS j hj
    obtain ⟨mb, hmb, hfb, hdb2⟩ := hfrD j hj
    have h1 : markerAt (sa :: st) (sa.framenr + j) = some ma := by
      have := markerAt_of_getElem? hss hma
      rw [hfa] at this
      exact this
    have h2 : markerAt (db :: dt) (sa.framenr + j) = some mb := by
      have := markerAt_of_getElem? hds hmb
      rw [hfb] at this
      exact this
    exact commonEnabled_intro h1 h2 hda hdb2
  · exact commonEnabled_false_src (markerAt_lt_head hss (by omega))
  · by_cases hce : commonEnabled (sa :: st) (db :: dt) (sa.framenr + len) = true
    · exfalso
      obtain ⟨ma, mb, hma, hmb, hda, hdb2⟩ := commonEnabled_elim hce
      have hfrS' : ∀ k, k < len → ∃ m, (sa :: st)[k]? = some m ∧
          m.framenr = sa.framenr + k := by
        intro k hk
        obtain ⟨m, hm, hf, _⟩ := hfrS k hk
        exact ⟨m, hm, hf⟩
      have hfrD' : ∀ k, k < len → ∃ m, (db :: dt)[k]? = some m ∧
          m.framenr = sa.framenr + k := by
        intro k hk
        obtain ⟨m, hm, hf, _⟩ := hfrD k hk
        exact ⟨m, hm, hf⟩
      have hia := exact_index_after_run hss hpos hfrS' hma
      have hib := exact_index_after_run hds hpos hfrD' hmb
      obtain ⟨hlta, hgea⟩ := List.getElem?_eq_some.1 hia
      obtain ⟨hltb, hgeb⟩ := List.getElem?_eq_some.1 hib
      obtain ⟨hmam, hmaf⟩ := markerAt_some_mem hma
      obtain ⟨hmbm, hmbf⟩ := markerAt_some_mem hmb
      apply hstop
      rw [← hlen]
      refine ⟨hlta, hltb, ?_, ?_, ?_, ?_⟩
      · rw [hgea, hmaf]
      · rw [hgeb, hmbf]
      · rw [hgea, hda]
      · rw [hgeb, hdb2]
    · simpa using hce

theorem commonEnabled_congr {src' dst' src dst : List MovieTrackingMarker}
    {f : Int} (h1 : markerAt src' f = markerAt src f)
    (h2 : markerAt dst' f = markerAt dst f) :
    commonEnabled src' dst' f = commonEnabled src dst f := by
  unfold commonEnabled enabledAt
  rw [h1, h2]

theorem sorted_drop {ms : List MovieTrackingMarker} (hs : MarkersSorted ms)
    (n : Nat) : MarkersSorted (ms.drop n) := by
  rw [MarkersSorted, List.pairwise_iff_getElem]
  intro i j hi hj hij
  rw [List.getElem_drop, List.getElem_drop]
  have hi' : n + i < ms.length := by
    rw [List.length_drop] at hi
    omega
  have hj' : n + j < ms.length := by
    rw [List.length_drop] at hj
    omega
  exact (List.pairwise_iff_getElem.1 hs) (n + i) (n + j) hi' hj' (by omega)

theorem le_head_of_markerAt {m : MovieTrackingMarker}
    {t : List MovieTrackingMarker} (hs : MarkersSorted (m :: t)) {f : Int}
    {x : MovieTrackingMarker} (h : markerAt (m :: t) f = some x) :
    m.framenr ≤ f := by
  obtain ⟨hmem, hfr⟩ := markerAt_some_mem h
  rcases List.mem_cons.1 hmem with rfl | h2
  · omega
  · have := (List.pairwise_cons.1 hs).1 x h2
    omega

/-- The properties of one merge-loop call, stated over the claim-side lookup
`markerAt`: provenance of output frames, sortedness, the four per-frame
selection cases, and the interpolated positions over every maximal run of
common enabled frames. -/
def JoinSpec (prev : Option MovieTrackingMarker)
    (src dst : List MovieTrackingMarker) : Prop :=
  (∀ x ∈ tracks_join_loop prev src dst,
    (∃ y ∈ src, y.framenr = x.framenr) ∨ (∃ y ∈ dst, y.framenr = x.framenr)) ∧
  MarkersSorted (tracks_join_loop prev src dst) ∧
  (∀ f m, markerAt src f = some m → markerAt dst f = none →
    markerAt (tracks_join_loop prev src dst) f = some m) ∧
  (∀ f m, markerAt src f = none → markerAt dst f = some m →
    markerAt (tracks_join_loop prev src dst) f = some m) ∧
  (∀ f ma mb, markerAt src f = some ma → markerAt dst f = some mb →
    ma.disabled = true →
    markerAt (tracks_join_loop prev src dst) f = some mb) ∧
  (∀ f ma mb, markerAt src f = some ma → markerAt dst f = some mb →
    ma.disabled = false → mb.disabled = true →
    markerAt (tracks_join_loop prev src dst) f = some ma) ∧
  (∀ (g : Int) (len : Nat), 0 < len →
    (∀ j : Nat, j < len → commonEnabled src dst (g + j) = true) →
    commonEnabled src dst (g - 1) = false →
    commonEnabled src dst (g + len) = false →
    ∀ j : Nat, j < len → ∀ ma mb, markerAt src (g + j) = some ma →
      markerAt dst (g + j) = some mb →
      markerAt (tracks_join_loop prev src dst) (g + j) =
        some { mb with pos := interp_v2_v2v2 mb.pos ma.pos (facFor len (inverseFor prev dst g) j) })

set_option maxHeartbeats 1000000 in
theorem joinLoop_spec :
    ∀ (prev : Option MovieTrackingMarker) (src dst : List MovieTrackingMarker),
      MarkersSorted src → MarkersSorted dst →
      (∀ p, prev = some p → ∀ x ∈ dst, p.framenr < x.framenr) →
      JoinSpec prev src dst := by
  intro prev src dst
  induction prev, src, dst using tracks_join_loop.induct with
  | case1 prev src =>
    intro hss hds hpi
    unfold JoinSpec
    rw [jl_dst_nil]
    refine ⟨?_, hss, ?_, ?_, ?_, ?_, ?_⟩
    · intro x hx
      exact Or.inl ⟨x, hx, rfl⟩
    · intro f m hm _
      exact hm
    · intro f m _ hm
      simp [markerAt] at hm
    · intro f ma mb _ hmb
      simp [markerAt] at hmb
    · intro f ma mb _ hmb
      simp [markerAt] at hmb
    · intro g len _ _ _ _ j _ ma mb _ hmb
      simp [markerAt] at hmb
  | case2 prev db dt =>
    intro hss hds hpi
    unfold JoinSpec
    rw [jl_src_nil]
    refine ⟨?_, hds, ?_, ?_, ?_, ?_, ?_⟩
    · intro x hx
      exact Or.inr ⟨x, hx, rfl⟩
    · intro f m hm _
      simp [markerAt] at hm
    · intro f m _ hm
      exact hm
    · intro f ma mb hma _
      simp [markerAt] at hma
    · intro f ma mb hma _
      simp [markerAt] at hma
    · intro g len _ _ _ _ j _ ma mb hma _
      simp [markerAt] at hma
  | case3 prev sa st db dt hlt ih =>
    intro hss hds hpi
    have hst : MarkersSorted st := (List.pairwise_cons.1 hss).2
    have hsa_lt : ∀ x ∈ st, sa.framenr < x.framenr := (List.pairwise_cons.1 hss).1
    have hdb_lt : ∀ x ∈ dt, db.framenr < x.framenr := (List.pairwise_cons.1 hds).1
    obtain ⟨ihA, ihS, ihC1, ihC2, ihC3, ihC4, ihD⟩ := ih hst hds hpi
    unfold JoinSpec
    rw [jl_lt prev st dt hlt]
    refine ⟨?_, ?_, ?_, ?_, ?_, ?_, ?_⟩
    · intro x hx
      rcases List.mem_cons.1 hx with rfl | hx2
      · exact Or.inl ⟨x, by simp, rfl⟩
      · rcases ihA x hx2 with ⟨y, hy, hyf⟩ | h
        · exact Or.inl ⟨y, List.mem_cons_of_mem sa hy, hyf⟩
        · exact Or.inr h
    · rw [MarkersSorted, List.pairwise_cons]
      refine ⟨?_, ihS⟩
      intro x hx
      rcases ihA x hx with ⟨y, hy, hyf⟩ | ⟨y, hy, hyf⟩
      · rw [← hyf]
        exact hsa_lt y hy
      · rw [← hyf]
        rcases List.mem_cons.1 hy with rfl | hy2
        · exact hlt
        · have := hdb_lt y hy2
          omega
    · intro f m hma hmb
      rw [markerAt_cons] at hma ⊢
      by_cases hf : sa.framenr = f
      · rw [if_pos hf] at hma ⊢
        exact hma
      · rw [if_neg hf] at hma ⊢
        exact ihC1 f m hma hmb
    · intro f m hma hmb
      rw [markerAt_cons] at hma
      by_cases hf : sa.framenr = f
      · rw [if_pos hf] at hma
        simp at hma
      · rw [if_neg hf] at hma
        rw [markerAt_cons, if_neg hf]
        exact ihC2 f m hma hmb
    · intro f ma mb hma hmb hdis
      rw [markerAt_cons] at hma
      by_cases hf : sa.framenr = f
      · exfalso
        rw [markerAt_lt_head hds (by omega)] at hmb
        simp at hmb
      · rw [if_neg hf] at hma
        rw [markerAt_cons, if_neg hf]
        exact ihC3 f ma mb hma hmb hdis
    · intro f ma mb hma hmb hena hdis
      rw [markerAt_cons] at hma
      by_cases hf : sa.framenr = f
      · exfalso
        rw [markerAt_lt_head hds (by omega)] at hmb
        simp at hmb
      · rw [if_neg hf] at hma
        rw [markerAt_cons, if_neg hf]
        exact ihC4 f ma mb hma hmb hena hdis
    · intro g len hpos hrun hleft hright j hj ma mb hma hmb
      have hrunne : ∀ j' : Nat, j' < len → sa.framenr ≠ g + j' := by
        intro j' hj' hfeq
        obtain ⟨ma', mb', _, hmb', _, _⟩ := commonEnabled_elim (hrun j' hj')
        obtain ⟨hmem, hfr⟩ := markerAt_some_mem hmb'
        rcases List.mem_cons.1 hmem with rfl | h2
        · omega
        · have := hdb_lt _ h2
          omega
      have hrun' : ∀ j' : Nat, j' < len →
          commonEnabled st (db :: dt) (g + j') = true := by
        intro j' hj'
        rw [← commonEnabled_cons_src_ne (hrunne j' hj')]
        exact hrun j' hj'
      have hleft' : commonEnabled st (db :: dt) (g - 1) = false := by
        by_cases hf : sa.framenr = g - 1
        · apply commonEnabled_false_src
          apply markerAt_eq_none
          intro x hx
          have := hsa_lt x hx
          omega
        · rw [← commonEnabled_cons_src_ne hf]
          exact hleft
      have hright' : commonEnabled st (db :: dt) (g + len) = false := by
        by_cases hf : sa.framenr = g + len
        · apply commonEnabled_false_src
          apply markerAt_eq_none
          intro x hx
          have := hsa_lt x hx
          omega
        · rw [← commonEnabled_cons_src_ne hf]
          exact hright
      have hne := hrunne j hj
      rw [markerAt_cons, if_neg hne] at hma
      rw [markerAt_cons, if_neg hne]
      exact ihD g len hpos hrun' hleft' hright' j hj ma mb hma hmb
  | case4 prev sa st db dt hnlt hgt ih =>
    intro hss hds hpi
    have hdt : MarkersSorted dt := (List.pairwise_cons.1 hds).2
    have hdb_lt : ∀ x ∈ dt, db.framenr < x.framenr := (List.pairwise_cons.1 hds).1
    have hpi' : ∀ p, some db = some p → ∀ x ∈ dt, p.framenr < x.framenr := by
      intro p hp x hx
      rw [← Option.some_inj.1 hp]
      exact hdb_lt x hx
    obtain ⟨ihA, ihS, ihC1, ihC2, ihC3, ihC4, ihD⟩ := ih hss hdt hpi'
    unfold JoinSpec
    rw [jl_gt prev st dt hgt]
    refine ⟨?_, ?_, ?_, ?_, ?_, ?_, ?_⟩
    · intro x hx
      rcases List.mem_cons.1 hx with rfl | hx2
      · exact Or.inr ⟨x, by simp, rfl⟩
      · rcases ihA x hx2 with h | ⟨y, hy, hyf⟩
        · exact Or.inl h
        · exact Or.inr ⟨y, List.mem_cons_of_mem db hy, hyf⟩
    · rw [MarkersSorted, List.pairwise_cons]
      refine ⟨?_, ihS⟩
      intro x hx
      rcases ihA x hx with ⟨y, hy, hyf⟩ | ⟨y, hy, hyf⟩
      · rw [← hyf]
        rcases List.mem_cons.1 hy with rfl | hy2
        · exact hgt
        · have := (List.pairwise_cons.1 hss).1 y hy2
          omega
      · rw [← hyf]
        exact hdb_lt y hy
    · intro f m hma hmb
      rw [markerAt_cons] at hmb
      by_cases hf : db.framenr = f
      · rw [if_pos hf] at hmb
        simp at hmb
      · rw [if_neg hf] at hmb
        rw [markerAt_cons, if_neg hf]
        exact ihC1 f m hma hmb
    · intro f m hma hmb
      rw [markerAt_cons] at hmb
      by_cases hf : db.framenr = f
      · rw [if_pos hf] at hmb
        rw [markerAt_cons, if_pos hf]
        exact hmb
      · rw [if_neg hf] at hmb
        rw [markerAt_cons, if_neg hf]
        exact ihC2 f m hma hmb
    · intro f ma mb hma hmb hdis
      rw [markerAt_cons] at hmb
      by_cases hf : db.framenr = f
      · exfalso
        rw [markerAt_lt_head hss (by omega)] at hma
        simp at hma
      · rw [if_neg hf] at hmb
        rw [markerAt_cons, if_neg hf]
        exact ihC3 f ma mb hma hmb hdis
    · intro f ma mb hma hmb hena hdis
      rw [markerAt_cons] at hmb
      by_cases hf : db.framenr = f
      · exfalso
        rw [markerAt_lt_head hss (by omega)] at hma
        simp at hma
      · rw [if_neg hf] at hmb
        rw [markerAt_cons, if_neg hf]
        exact ihC4 f ma mb hma hmb hena hdis
    · intro g len hpos hrun hleft hright j hj ma mb hma hmb
      have hrunne : ∀ j' : Nat, j' < len → db.framenr ≠ g + j' := by
        intro j' hj' hfeq
        obtain ⟨ma', mb', hma', _, _, _⟩ := commonEnabled_elim (hrun j' hj')
        have := le_head_of_markerAt hss hma'
        omega
      have hrun' : ∀ j' : Nat, j' < len →
          commonEnabled (sa :: st) dt (g + j') = true := by
        intro j' hj'
        rw [← commonEnabled_cons_dst_ne (hrunne j' hj')]
        exact hrun j' hj'
      have hleft' : commonEnabled (sa :: st) dt (g - 1) = false := by
        by_cases hf : db.framenr = g - 1
        · apply commonEnabled_false_dst
          apply markerAt_eq_none
          intro x hx
          have := hdb_lt x hx
          omega
        · rw [← commonEnabled_cons_dst_ne hf]
          exact hleft
      have hright' : commonEnabled (sa :: st) dt (g + len) = false := by
        by_cases hf : db.framenr = g + len
        · apply commonEnabled_false_dst
          apply markerAt_eq_none
          intro x hx
          have := hdb_lt x hx
          omega
        · rw [← commonEnabled_cons_dst_ne hf]
          exact hright
      have hg : db.framenr < g := by
        obtain ⟨ma', mb', hma', _, _, _⟩ := commonEnabled_elim (hrun 0 hpos)
        have := le_head_of_markerAt hss hma'
        omega
      have hne := hrunne j hj
      rw [markerAt_cons, if_neg hne] at hmb
      rw [markerAt_cons, if_neg hne]
      have := ihD g len hpos hrun' hleft' hright' j hj ma mb hma hmb
      rw [inverseFor_step_cons hds hpi hg] at this
      exact this
  | case5 prev sa st db dt hnlt hngt hsaen hdben Lv ih =>
    intro hss hds hpi
    rw [show Lv = blendLen sa.framenr (sa :: st) (db :: dt) from rfl] at ih
    have heqf : sa.framenr = db.framenr := by omega
    obtain ⟨hpos, hlenS, hlenD, hfrS, hfrD, hrunF, hleftF, hrightF⟩ :=
      blend_run_facts hss hds heqf hsaen hdben rfl
    have hfrS' : ∀ k, k < blendLen sa.framenr (sa :: st) (db :: dt) →
        ∃ m, (sa :: st)[k]? = some m ∧ m.framenr = sa.framenr + k := by
      intro k hk
      obtain ⟨m, hm, hf, _⟩ := hfrS k hk
      exact ⟨m, hm, hf⟩
    have hfrD' : ∀ k, k < blendLen sa.framenr (sa :: st) (db :: dt) →
        ∃ m, (db :: dt)[k]? = some m ∧ m.framenr = sa.framenr + k := by
      intro k hk
      obtain ⟨m, hm, hf, _⟩ := hfrD k hk
      exact ⟨m, hm, hf⟩
    have hfrSx : ∀ k, k < blendLen sa.framenr (sa :: st) (db :: dt) →
        ∃ m, (sa :: st)[k]? = some m := by
      intro k hk
      obtain ⟨m, hm, _, _⟩ := hfrS k hk
      exact ⟨m, hm⟩
    obtain ⟨mlast, hmlast, hflast, _⟩ :=
      hfrD (blendLen sa.framenr (sa :: st) (db :: dt) - 1) (by omega)
    obtain ⟨slast, hslast, hfslast, _⟩ :=
      hfrS (blendLen sa.framenr (sa :: st) (db :: dt) - 1) (by omega)
    have hsds : MarkersSorted
        ((sa :: st).drop (blendLen sa.framenr (sa :: st) (db :: dt))) :=
      sorted_drop hss _
    have hsdd : MarkersSorted
        ((db :: dt).drop (blendLen sa.framenr (sa :: st) (db :: dt))) :=
      sorted_drop hds _
    have hplast : (((db :: dt)).take
        (blendLen sa.framenr (sa :: st) (db :: dt))).getLast? = some mlast :=
      getLast?_take_of_getElem? hpos hmlast hlenD
    have hpi2 : ∀ p,
        ((((db :: dt)).take (blendLen sa.framenr (sa :: st) (db :: dt))).getLast?
          <|> prev) = some p →
        ∀ x ∈ (db :: dt).drop (blendLen sa.framenr (sa :: st) (db :: dt)),
          p.framenr < x.framenr := by
      intro p hp x hx
      rw [hplast] at hp
      simp only [Option.some_orElse] at hp
      rw [← Option.some_inj.1 hp]
      have hx2 : x ∈ (db :: dt).drop
          ((blendLen sa.framenr (sa :: st) (db :: dt) - 1) + 1) := by
        rw [show blendLen sa.framenr (sa :: st) (db :: dt) - 1 + 1 =
          blendLen sa.framenr (sa :: st) (db :: dt) by omega]
        exact hx
      exact sorted_lt_of_mem_drop hds hmlast hx2
    obtain ⟨ihA, ihS, ihC1, ihC2, ihC3, ihC4, ihD⟩ := ih hsds hsdd hpi2
    unfold JoinSpec
    rw [jl_blend prev st dt heqf hsaen hdben]
    have hmatch := @inverseFor_head db dt prev sa.framenr hds
      (show db.framenr = sa.framenr by omega)
    rw [← hmatch]
    have hBlen : (blendEmit (blendLen sa.framenr (sa :: st) (db :: dt))
        (inverseFor prev (db :: dt) sa.framenr) 0 (sa :: st) (db :: dt)).length =
        blendLen sa.framenr (sa :: st) (db :: dt) :=
      blendEmit_length hlenS hlenD
    have hBfr := @blendEmit_frames (blendLen sa.framenr (sa :: st) (db :: dt))
      (inverseFor prev (db :: dt) sa.framenr) (sa :: st) (db :: dt) sa.framenr
      hfrSx hfrD'
    have hBsorted : MarkersSorted (blendEmit
        (blendLen sa.framenr (sa :: st) (db :: dt))
        (inverseFor prev (db :: dt) sa.framenr) 0 (sa :: st) (db :: dt)) := by
      apply sorted_of_run_frames (F := sa.framenr)
      intro k hk
      rw [hBlen] at hk
      exact hBfr k hk
    have hBnone : ∀ f : Int,
        (∀ k : Nat, k < blendLen sa.framenr (sa :: st) (db :: dt) →
          f ≠ sa.framenr + k) →
        markerAt (blendEmit (blendLen sa.framenr (sa :: st) (db :: dt))
          (inverseFor prev (db :: dt) sa.framenr) 0 (sa :: st) (db :: dt)) f =
          none := by
      intro f hf
      apply markerAt_eq_none
      intro x hx
      obtain ⟨i, hi, hieq⟩ := List.mem_iff_getElem.1 hx
      have hiL : i < blendLen sa.framenr (sa :: st) (db :: dt) := by
        rw [hBlen] at hi
        exact hi
      obtain ⟨m, hm, hfm⟩ := hBfr i hiL
      rw [List.getElem?_eq_getElem hi] at hm
      have hxm : x = m := by
        rw [← hieq, Option.some_inj.1 hm]
      rw [hxm, hfm]
      exact Ne.symm (hf i hiL)
    have hBat : ∀ j : Nat, j < blendLen sa.framenr (sa :: st) (db :: dt) →
        ∀ ma mb, (sa :: st)[j]? = some ma → (db :: dt)[j]? = some mb →
        markerAt (blendEmit (blendLen sa.framenr (sa :: st) (db :: dt))
          (inverseFor prev (db :: dt) sa.framenr) 0 (sa :: st) (db :: dt))
          (sa.framenr + j) =
          some { mb with pos := interp_v2_v2v2 mb.pos ma.pos (facFor (blendLen sa.framenr (sa :: st) (db :: dt)) (inverseFor prev (db :: dt) sa.framenr) j) } := by
      intro j hj ma mb hma hmb
      have hBj := @blendEmit_getElem?_of
        (blendLen sa.framenr (sa :: st) (db :: dt))
        (inverseFor prev (db :: dt) sa.framenr) (sa :: st) (db :: dt) j ma mb
        hj hma hmb
      have hmk := markerAt_of_getElem? hBsorted hBj
      dsimp only at hmk
      obtain ⟨m, hm, hfm, _⟩ := hfrD j hj
      rw [hmb] at hm
      rw [← Option.some_inj.1 hm] at hfm
      rw [hfm] at hmk ⊢
      exact hmk
    have hdropS : ∀ f : Int,
        sa.framenr + blendLen sa.framenr (sa :: st) (db :: dt) ≤ f →
        markerAt ((sa :: st).drop (blendLen sa.framenr (sa :: st) (db :: dt))) f =
          markerAt (sa :: st) f := by
      intro f hf
      apply markerAt_drop_eq
      intro x hx
      obtain ⟨k, hk, hfk⟩ := frames_of_mem_take hfrS' hx
      omega
    have hdropD : ∀ f : Int,
        sa.framenr + blendLen sa.framenr (sa :: st) (db :: dt) ≤ f →
        markerAt ((db :: dt).drop (blendLen sa.framenr (sa :: st) (db :: dt))) f =
          markerAt (db :: dt) f := by
      intro f hf
      apply markerAt_drop_eq
      intro x hx
      obtain ⟨k, hk, hfk⟩ := frames_of_mem_take hfrD' hx
      omega
    have hgeS : ∀ f : Int, ∀ m, markerAt (sa :: st) f = some m →
        (∀ k : Nat, k < blendLen sa.framenr (sa :: st) (db :: dt) →
          f ≠ sa.framenr + k) →
        sa.framenr + blendLen sa.framenr (sa :: st) (db :: dt) ≤ f := by
      intro f m hm hout
      have h1 := le_head_of_markerAt hss hm
      by_contra hcon
      push_neg at hcon
      exact hout (f - sa.framenr).toNat (by omega) (by omega)
    have hgeD : ∀ f : Int, ∀ m, markerAt (db :: dt) f = some m →
        (∀ k : Nat, k < blendLen sa.framenr (sa :: st) (db :: dt) →
          f ≠ sa.framenr + k) →
        sa.framenr + blendLen sa.framenr (sa :: st) (db :: dt) ≤ f := by
      intro f m hm hout
      have h1 := le_head_of_markerAt hds hm
      by_contra hcon
      push_neg at hcon
      exact hout (f - sa.framenr).toNat (by omega) (by omega)
    have houtDnone : ∀ f : Int, markerAt (db :: dt) f = none →
        ∀ k : Nat, k < blendLen sa.framenr (sa :: st) (db :: dt) →
          f ≠ sa.framenr + k := by
      intro f hnone k hk hfeq
      obtain ⟨m, hm, hfm, _⟩ := hfrD k hk
      have h2 := markerAt_of_getElem? hds hm
      rw [hfm, ← hfeq] at h2
      rw [h2] at hnone
      cases hnone
    have houtSnone : ∀ f : Int, markerAt (sa :: st) f = none →
        ∀ k : Nat, k < blendLen sa.framenr (sa :: st) (db :: dt) →
          f ≠ sa.framenr + k := by
      intro f hnone k hk hfeq
      obtain ⟨m, hm, hfm, _⟩ := hfrS k hk
      have h2 := markerAt_of_getElem? hss hm
      rw [hfm, ← hfeq] at h2
      rw [h2] at hnone
      cases hnone
    have houtSdis : ∀ f : Int, ∀ ma, markerAt (sa :: st) f = some ma →
        ma.disabled = true →
        ∀ k : Nat, k < blendLen sa.framenr (sa :: st) (db :: dt) →
          f ≠ sa.framenr + k := by
      intro f ma hma hdis k hk hfeq
      obtain ⟨m, hm, hfm, hmen⟩ := hfrS k hk
      have h2 := markerAt_of_getElem? hss hm
      rw [hfm, ← hfeq] at h2
      rw [hma] at h2
      rw [← Option.some_inj.1 h2] at hmen
      rw [hdis] at hmen
      cases hmen
    have houtDdis : ∀ f : Int, ∀ mb, markerAt (db :: dt) f = some mb →
        mb.disabled = true →
        ∀ k : Nat, k < blendLen sa.framenr (sa :: st) (db :: dt) →
          f ≠ sa.framenr + k := by
      intro f mb hmb hdis k hk hfeq
      obtain ⟨m, hm, hfm, hmen⟩ := hfrD k hk
      have h2 := markerAt_of_getElem? hds hm
      rw [hfm, ← hfeq] at h2
      rw [hmb] at h2
      rw [← Option.some_inj.1 h2] at hmen
      rw [hdis] at hmen
      cases hmen
    refine ⟨?_, ?_, ?_, ?_, ?_, ?_, ?_⟩
    · intro x hx
      rcases List.mem_append.1 hx with hxB | hxR
      · obtain ⟨i, hi, hieq⟩ := List.mem_iff_getElem.1 hxB
        have hiL : i < blendLen sa.framenr (sa :: st) (db :: dt) := by
          rw [hBlen] at hi
          exact hi
        obtain ⟨m, hm, hfm⟩ := hBfr i hiL
        obtain ⟨y, hy, hfy, _⟩ := hfrD i hiL
        have hymem : y ∈ db :: dt := by
          obtain ⟨hlt2, heq2⟩ := List.getElem?_eq_some.1 hy
          rw [← heq2]
          exact List.getElem_mem hlt2
        refine Or.inr ⟨y, hymem, ?_⟩
        rw [List.getElem?_eq_getElem hi] at hm
        have hxm : x = m := by
          rw [← hieq, Option.some_inj.1 hm]
        rw [hfy, hxm, hfm]
      · rcases ihA x hxR with ⟨y, hy, hyf⟩ | ⟨y, hy, hyf⟩
        · exact Or.inl ⟨y, List.mem_of_mem_drop hy, hyf⟩
        · exact Or.inr ⟨y, List.mem_of_mem_drop hy, hyf⟩
    · rw [MarkersSorted, List.pairwise_append]
      refine ⟨hBsorted, ihS, ?_⟩
      intro a ha b hb
      obtain ⟨i, hi, hieq⟩ := List.mem_iff_getElem.1 ha
      have hiL : i < blendLen sa.framenr (sa :: st) (db :: dt) := by
        rw [hBlen] at hi
        exact hi
      obtain ⟨m, hm, hfm⟩ := hBfr i hiL
      rw [List.getElem?_eq_getElem hi] at hm
      have haeq : a = m := by
        rw [← hieq, Option.some_inj.1 hm]
      rcases ihA b hb with ⟨y, hy, hyf⟩ | ⟨y, hy, hyf⟩
      · have hy2 : y ∈ (sa :: st).drop
            ((blendLen sa.framenr (sa :: st) (db :: dt) - 1) + 1) := by
          rw [show blendLen sa.framenr (sa :: st) (db :: dt) - 1 + 1 =
            blendLen sa.framenr (sa :: st) (db :: dt) by omega]
          exact hy
        have hlast := sorted_lt_of_mem_drop hss hslast hy2
        rw [haeq, hfm, ← hyf]
        omega
      · have hy2 : y ∈ (db :: dt).drop
            ((blendLen sa.framenr (sa :: st) (db :: dt) - 1) + 1) := by
          rw [show blendLen sa.framenr (sa :: st) (db :: dt) - 1 + 1 =
            blendLen sa.framenr (sa :: st) (db :: dt) by omega]
          exact hy
        have hlast := sorted_lt_of_mem_drop hds hmlast hy2
        rw [haeq, hfm, ← hyf]
        omega
    · intro f m hma hmb
      have hout := houtDnone f hmb
      have hge := hgeS f m hma hout
      rw [markerAt_append_right (hBnone f hout)]
      exact ihC1 f m (by rw [hdropS f hge]; exact hma)
        (by rw [hdropD f hge]; exact hmb)
    · intro f m hma hmb
      have hout := houtSnone f hma
      have hge := hgeD f m hmb hout
      rw [markerAt_append_right (hBnone f hout)]
      exact ihC2 f m (by rw [hdropS f hge]; exact hma)
        (by rw [hdropD f hge]; exact hmb)
    · intro f ma mb hma hmb hdis
      have hout := houtSdis f ma hma hdis
      have hge := hgeS f ma hma hout
      rw [markerAt_append_right (hBnone f hout)]
      exact ihC3 f ma mb (by rw [hdropS f hge]; exact hma)
        (by rw [hdropD f hge]; exact hmb) hdis
    · intro f ma mb hma hmb hena hdis
      have hout := houtDdis f mb hmb hdis
      have hge := hgeS f ma hma hout
      rw [markerAt_append_right (hBnone f hout)]
      exact ihC4 f ma mb (by rw [hdropS f hge]; exact hma)
        (by rw [hdropD f hge]; exact hmb) hena hdis
    · intro g len hpos2 hrun hleft hright j hj ma mb hma hmb
      by_cases hgF : g = sa.framenr
      · subst hgF
        have hlenL : len = blendLen sa.framenr (sa :: st) (db :: dt) :=
          (run_unique (commonEnabled (sa :: st) (db :: dt)) hpos2 hpos
            hrun hleft hright hrunF hleftF hrightF hpos2 hpos (by omega)).2
        subst hlenL
        have hma2 : (sa :: st)[j]? = some ma := by
          obtain ⟨m, hm, hfm, _⟩ := hfrS j hj
          have h2 := markerAt_of_getElem? hss hm
          rw [hfm] at h2
          rw [hma] at h2
          rw [hm, Option.some_inj.1 h2]
        have hmb2 : (db :: dt)[j]? = some mb := by
          obtain ⟨m, hm, hfm, _⟩ := hfrD j hj
          have h2 := markerAt_of_getElem? hds hm
          rw [hfm] at h2
          rw [hmb] at h2
          rw [hm, Option.some_inj.1 h2]
        exact markerAt_append_left (hBat j hj ma mb hma2 hmb2)
      · have hnoshare : ∀ j0 : Nat, j0 < len →
            ∀ k : Nat, k < blendLen sa.framenr (sa :: st) (db :: dt) →
              g + j0 ≠ sa.framenr + k := by
          intro j0 hj0 k hk hcon
          exact hgF (run_unique (commonEnabled (sa :: st) (db :: dt)) hpos2 hpos
            hrun hleft hright hrunF hleftF hrightF hj0 hk hcon).1
        have hge : ∀ j0 : Nat, j0 < len →
            sa.framenr + blendLen sa.framenr (sa :: st) (db :: dt) ≤ g + j0 := by
          intro j0 hj0
          obtain ⟨ma2, mb2, hma2, _, _, _⟩ := commonEnabled_elim (hrun j0 hj0)
          exact hgeS (g + j0) ma2 hma2 (hnoshare j0 hj0)
        have hgL : sa.framenr + blendLen sa.framenr (sa :: st) (db :: dt) < g := by
          have h0 := hge 0 hpos2
          rcases eq_or_lt_of_le (show sa.framenr +
              (blendLen sa.framenr (sa :: st) (db :: dt) : Int) ≤ g by
            have : ((0 : Nat) : Int) = 0 := rfl
            omega) with heq2 | hlt2
          · exfalso
            have h1 := hrun 0 hpos2
            rw [show g + ((0 : Nat) : Int) = g by simp] at h1
            rw [← heq2] at h1
            rw [h1] at hrightF
            cases hrightF
          · exact hlt2
        have hrun2 : ∀ j0 : Nat, j0 < len → commonEnabled
            ((sa :: st).drop (blendLen sa.framenr (sa :: st) (db :: dt)))
            ((db :: dt).drop (blendLen sa.framenr (sa :: st) (db :: dt)))
            (g + j0) = true := by
          intro j0 hj0
          rw [commonEnabled_congr (hdropS _ (hge j0 hj0)) (hdropD _ (hge j0 hj0))]
          exact hrun j0 hj0
        have hleft2 : commonEnabled
            ((sa :: st).drop (blendLen sa.framenr (sa :: st) (db :: dt)))
            ((db :: dt).drop (blendLen sa.framenr (sa :: st) (db :: dt)))
            (g - 1) = false := by
          rw [commonEnabled_congr (hdropS _ (by omega)) (hdropD _ (by omega))]
          exact hleft
        have hright2 : commonEnabled
            ((sa :: st).drop (blendLen sa.framenr (sa :: st) (db :: dt)))
            ((db :: dt).drop (blendLen sa.framenr (sa :: st) (db :: dt)))
            (g + len) = false := by
          rw [commonEnabled_congr (hdropS _ (by omega)) (hdropD _ (by omega))]
          exact hright
        have hres := ihD g len hpos2 hrun2 hleft2 hright2 j hj ma mb
          (by rw [hdropS _ (hge j hj)]; exact hma)
          (by rw [hdropD _ (hge j hj)]; exact hmb)
        rw [inverseFor_step_drop hds hpi hpos hlenD hfrD' hgL] at hres
        rw [markerAt_append_right (hBnone _ (hnoshare j hj))]
        exact hres
  | case6 prev sa st db dt hnlt hngt hsaen hdbdis ih =>
    intro hss hds hpi
    have heqf : sa.framenr = db.framenr := by omega
    have hdb' : db.disabled = true := by simpa using hdbdis
    have hst : MarkersSorted st := (List.pairwise_cons.1 hss).2
    have hdt : MarkersSorted dt := (List.pairwise_cons.1 hds).2
    have hsa_lt : ∀ x ∈ st, sa.framenr < x.framenr := (List.pairwise_cons.1 hss).1
    have hdb_lt : ∀ x ∈ dt, db.framenr < x.framenr := (List.pairwise_cons.1 hds).1
    have hpi' : ∀ p, some db = some p → ∀ x ∈ dt, p.framenr < x.framenr := by
      intro p hp x hx
      rw [← Option.some_inj.1 hp]
      exact hdb_lt x hx
    obtain ⟨ihA, ihS, ihC1, ihC2, ihC3, ihC4, ihD⟩ := ih hst hdt hpi'
    unfold JoinSpec
    rw [jl_dst_disabled prev st dt heqf hsaen hdb']
    refine ⟨?_, ?_, ?_, ?_, ?_, ?_, ?_⟩
    · intro x hx
      rcases List.mem_cons.1 hx with rfl | hx2
      · exact Or.inl ⟨x, by simp, rfl⟩
      · rcases ihA x hx2 with ⟨y, hy, hyf⟩ | ⟨y, hy, hyf⟩
        · exact Or.inl ⟨y, List.mem_cons_of_mem sa hy, hyf⟩
        · exact Or.inr ⟨y, List.mem_cons_of_mem db hy, hyf⟩
    · rw [MarkersSorted, List.pairwise_cons]
      refine ⟨?_, ihS⟩
      intro x hx
      rcases ihA x hx with ⟨y, hy, hyf⟩ | ⟨y, hy, hyf⟩
      · rw [← hyf]
        exact hsa_lt y hy
      · rw [← hyf]
        have := hdb_lt y hy
        omega
    · intro f m hma hmb
      rw [markerAt_cons] at hma
      by_cases hf : sa.framenr = f
      · exfalso
        rw [markerAt_cons, if_pos (by omega)] at hmb
        simp at hmb
      · rw [if_neg hf] at hma
        rw [markerAt_cons, if_neg (by omega : ¬ db.framenr = f)] at hmb
        rw [markerAt_cons, if_neg hf]
        exact ihC1 f m hma hmb
    · intro f m hma hmb
      rw [markerAt_cons] at hma hmb
      by_cases hf : sa.framenr = f
      · rw [if_pos hf] at hma
        simp at hma
      · rw [if_neg hf] at hma
        rw [if_neg (by omega : ¬ db.framenr = f)] at hmb
        rw [markerAt_cons, if_neg hf]
        exact ihC2 f m hma hmb
    · intro f ma mb hma hmb hdis
      rw [markerAt_cons] at hma hmb
      by_cases hf : sa.framenr = f
      · exfalso
        rw [if_pos hf] at hma
        rw [← Option.some_inj.1 hma] at hdis
        rw [hsaen] at hdis
        cases hdis
      · rw [if_neg hf] at hma
        rw [if_neg (by omega : ¬ db.framenr = f)] at hmb
        rw [markerAt_cons, if_neg hf]
        exact ihC3 f ma mb hma hmb hdis
    · intro f ma mb hma hmb hena hdis
      rw [markerAt_cons] at hma hmb
      by_cases hf : sa.framenr = f
      · rw [if_pos hf] at hma
        rw [markerAt_cons, if_pos hf]
        exact hma
      · rw [if_neg hf] at hma
        rw [if_neg (by omega : ¬ db.framenr = f)] at hmb
        rw [markerAt_cons, if_neg hf]
        exact ihC4 f ma mb hma hmb hena hdis
    · intro g len hpos hrun hleft hright j hj ma mb hma hmb
      have hrunne : ∀ j' : Nat, j' < len → db.framenr ≠ g + j' := by
        intro j' hj' hfeq
        obtain ⟨ma', mb', _, hmb', _, hdb2⟩ := commonEnabled_elim (hrun j' hj')
        rw [markerAt_cons, if_pos hfeq] at hmb'
        rw [← Option.some_inj.1 hmb'] at hdb2
        rw [hdb'] at hdb2
        cases hdb2
      have hrun' : ∀ j' : Nat, j' < len →
          commonEnabled st dt (g + j') = true := by
        intro j' hj'
        rw [← commonEnabled_cons_dst_ne (hrunne j' hj'),
          ← commonEnabled_cons_src_ne (by have := hrunne j' hj'; omega : sa.framenr ≠ g + j')]
        exact hrun j' hj'
      have hleft' : commonEnabled st dt (g - 1) = false := by
        by_cases hf : sa.framenr = g - 1
        · apply commonEnabled_false_src
          apply markerAt_eq_none
          intro x hx
          have := hsa_lt x hx
          omega
        · rw [← commonEnabled_cons_dst_ne (by omega : db.framenr ≠ g - 1),
            ← commonEnabled_cons_src_ne hf]
          exact hleft
      have hright' : commonEnabled st dt (g + len) = false := by
        by_cases hf : sa.framenr = g + len
        · apply commonEnabled_false_src
          apply markerAt_eq_none
          intro x hx
          have := hsa_lt x hx
          omega
        · rw [← commonEnabled_cons_dst_ne (by omega : db.framenr ≠ g + len),
            ← commonEnabled_cons_src_ne hf]
          exact hright
      have hg : db.framenr < g := by
        have hne0 := hrunne 0 hpos
        obtain ⟨ma', mb', _, hmb', _, _⟩ := commonEnabled_elim (hrun 0 hpos)
        have h1 := le_head_of_markerAt hds hmb'
        omega
      have hnej := hrunne j hj
      rw [markerAt_cons, if_neg (by omega : ¬ sa.framenr = g + j)] at hma
      rw [markerAt_cons, if_neg (by omega : ¬ db.framenr = g + j)] at hmb
      rw [markerAt_cons, if_neg (by omega : ¬ sa.framenr = g + j)]
      have := ihD g len hpos hrun' hleft' hright' j hj ma mb hma hmb
      rw [inverseFor_step_cons hds hpi hg] at this
      exact this
  | case7 prev sa st db dt hnlt hngt hsadis ih =>
    intro hss hds hpi
    have heqf : sa.framenr = db.framenr := by omega
    have hsa' : sa.disabled = true := by simpa using hsadis
    have hst : MarkersSorted st := (List.pairwise_cons.1 hss).2
    have hdt : MarkersSorted dt := (List.pairwise_cons.1 hds).2
    have hsa_lt : ∀ x ∈ st, sa.framenr < x.framenr := (List.pairwise_cons.1 hss).1
    have hdb_lt : ∀ x ∈ dt, db.framenr < x.framenr := (List.pairwise_cons.1 hds).1
    have hpi' : ∀ p, some db = some p → ∀ x ∈ dt, p.framenr < x.framenr := by
      intro p hp x hx
      rw [← Option.some_inj.1 hp]
      exact hdb_lt x hx
    obtain ⟨ihA, ihS, ihC1, ihC2, ihC3, ihC4, ihD⟩ := ih hst hdt hpi'
    unfold JoinSpec
    rw [jl_src_disabled prev st dt heqf hsa']
    refine ⟨?_, ?_, ?_, ?_, ?_, ?_, ?_⟩
    · intro x hx
      rcases List.mem_cons.1 hx with rfl | hx2
      · exact Or.inr ⟨x, by simp, rfl⟩
      · rcases ihA x hx2 with ⟨y, hy, hyf⟩ | ⟨y, hy, hyf⟩
        · exact Or.inl ⟨y, List.mem_cons_of_mem sa hy, hyf⟩
        · exact Or.inr ⟨y, List.mem_cons_of_mem db hy, hyf⟩
    · rw [MarkersSorted, List.pairwise_cons]
      refine ⟨?_, ihS⟩
      intro x hx
      rcases ihA x hx with ⟨y, hy, hyf⟩ | ⟨y, hy, hyf⟩
      · rw [← hyf]
        have := hsa_lt y hy
        omega
      · rw [← hyf]
        exact hdb_lt y hy
    · intro f m hma hmb
      rw [markerAt_cons] at hma
      by_cases hf : sa.framenr = f
      · exfalso
        rw [markerAt_cons, if_pos (by omega)] at hmb
        simp at hmb
      · rw [if_neg hf] at hma
        rw [markerAt_cons, if_neg (by omega : ¬ db.framenr = f)] at hmb
        rw [markerAt_cons, if_neg (by omega : ¬ db.framenr = f)]
        exact ihC1 f m hma hmb
    · intro f m hma hmb
      rw [markerAt_cons] at hma hmb
      by_cases hf : db.framenr = f
      · rw [if_pos (by omega : sa.framenr = f)] at hma
        simp at hma
      · rw [if_neg (by omega : ¬ sa.framenr = f)] at hma
        rw [if_neg hf] at hmb
        rw [markerAt_cons, if_neg hf]
        exact ihC2 f m hma hmb
    · intro f ma mb hma hmb hdis
      rw [markerAt_cons] at hma hmb
      by_cases hf : sa.framenr = f
      · rw [if_pos (by omega : db.framenr = f)] at hmb
        rw [markerAt_cons, if_pos (by omega : db.framenr = f)]
        exact hmb
      · rw [if_neg hf] at hma
        rw [if_neg (by omega : ¬ db.framenr = f)] at hmb
        rw [markerAt_cons, if_neg (by omega : ¬ db.framenr = f)]
        exact ihC3 f ma mb hma hmb hdis
    · intro f ma mb hma hmb hena hdis
      rw [markerAt_cons] at hma hmb
      by_cases hf : sa.framenr = f
      · exfalso
        rw [if_pos hf] at hma
        rw [← Option.some_inj.1 hma] at hena
        rw [hsa'] at hena
        cases hena
      · rw [if_neg hf] at hma
        rw [if_neg (by omega : ¬ db.framenr = f)] at hmb
        rw [markerAt_cons, if_neg (by omega : ¬ db.framenr = f)]
        exact ihC4 f ma mb hma hmb hena hdis
    · intro g len hpos hrun hleft hright j hj ma mb hma hmb
      have hrunne : ∀ j' : Nat, j' < len → sa.framenr ≠ g + j' := by
        intro j' hj' hfeq
        obtain ⟨ma', mb', hma', _, hsa2, _⟩ := commonEnabled_elim (hrun j' hj')
        rw [markerAt_cons, if_pos hfeq] at hma'
        rw [← Option.some_inj.1 hma'] at hsa2
        rw [hsa'] at hsa2
        cases hsa2
      have hrun' : ∀ j' : Nat, j' < len →
          commonEnabled st dt (g + j') = true := by
        intro j' hj'
        rw [← commonEnabled_cons_dst_ne (by have := hrunne j' hj'; omega : db.framenr ≠ g + j'),
          ← commonEnabled_cons_src_ne (hrunne j' hj')]
        exact hrun j' hj'
      have hleft' : commonEnabled st dt (g - 1) = false := by
        by_cases hf : sa.framenr = g - 1
        · apply commonEnabled_false_src
          apply markerAt_eq_none
          intro x hx
          have := hsa_lt x hx
          omega
        · rw [← commonEnabled_cons_dst_ne (by omega : db.framenr ≠ g - 1),
            ← commonEnabled_cons_src_ne hf]
          exact hleft
      have hright' : commonEnabled st dt (g + len) = false := by
        by_cases hf : sa.framenr = g + len
        · apply commonEnabled_false_src
          apply markerAt_eq_none
          intro x hx
          have := hsa_lt x hx
          omega
        · rw [← commonEnabled_cons_dst_ne (by omega : db.framenr ≠ g + len),
            ← commonEnabled_cons_src_ne hf]
          exact hright
      have hg : db.framenr < g := by
        have hne0 := hrunne 0 hpos
        obtain ⟨ma', mb', hma', _, _, _⟩ := commonEnabled_elim (hrun 0 hpos)
        have h1 := le_head_of_markerAt hss hma'
        omega
      have hnej := hrunne j hj
      rw [markerAt_cons, if_neg (by omega : ¬ sa.framenr = g + j)] at hma
      rw [markerAt_cons, if_neg (by omega : ¬ db.framenr = g + j)] at hmb
      rw [markerAt_cons, if_neg (by omega : ¬ db.framenr = g + j)]
      have := ihD g len hpos hrun' hleft' hright' j hj ma mb hma hmb
      rw [inverseFor_step_cons hds hpi hg] at this
      exact this

/-- S2 src track markers: enabled at frames 3..7 at position (1, 1). -/
def srcJoinMarkers : List MovieTrackingMarker :=
  [testMarker 3 1 1, testMarker 4 1 1, testMarker 5 1 1, testMarker 6 1 1,
    testMarker 7 1 1]

/-- S2 dst track markers: enabled at frames 1..5 at position (0, 0). -/
def dstJoinMarkersA : List MovieTrackingMarker :=
  [testMarker 1 0 0, testMarker 2 0 0, testMarker 3 0 0, testMarker 4 0 0,
    testMarker 5 0 0]

/-- S2 dst track variant: the marker at frame 2 is disabled. -/
def dstJoinMarkersB : List MovieTrackingMarker :=
  [testMarker 1 0 0, { testMarker 2 0 0 with disabled := true },
    testMarker 3 0 0, testMarker 4 0 0, testMarker 5 0 0]

/-- C2: joining two tracks with sorted marker arrays yields a sorted merged
array in which a frame present in only one track keeps that track's marker, a
frame present in both with exactly one marker disabled keeps the enabled one,
and over every maximal run of `len` consecutive frames where both markers are
enabled the emitted marker is the dst marker moved to the interpolation of the
dst and src positions with factor `j/(len-1)` at the `j`-th frame of the run
(one half for a single-frame run), the factor sequence reversed exactly when
the dst marker one frame before the run is disabled or missing. -/
theorem C2_tracks_join_spec (dst_track src_track : MovieTrackingTrack)
    (hsrc : MarkersSorted src_track.markers)
    (hdst : MarkersSorted dst_track.markers) :
    MarkersSorted (BKE_tracking_tracks_join dst_track src_track).markers ∧
    (∀ f m, markerAt src_track.markers f = some m →
      markerAt dst_track.markers f = none →
      markerAt (BKE_tracking_tracks_join dst_track src_track).markers f =
        some m) ∧
    (∀ f m, markerAt src_track.markers f = none →
      markerAt dst_track.markers f = some m →
      markerAt (BKE_tracking_tracks_join dst_track src_track).markers f =
        some m) ∧
    (∀ f ma mb, markerAt src_track.markers f = some ma →
      markerAt dst_track.markers f = some mb → ma.disabled = true →
      mb.disabled = false →
      markerAt (BKE_tracking_tracks_join dst_track src_track).markers f =
        some mb) ∧
    (∀ f ma mb, markerAt src_track.markers f = some ma →
      markerAt dst_track.markers f = some mb → ma.disabled = false →
      mb.disabled = true →
      markerAt (BKE_tracking_tracks_join dst_track src_track).markers f =
        some ma) ∧
    (∀ (g : Int) (len : Nat), 0 < len →
      (∀ j : Nat, j < len →
        commonEnabled src_track.markers dst_track.markers (g + j) = true) →
      commonEnabled src_track.markers dst_track.markers (g - 1) = false →
      commonEnabled src_track.markers dst_track.markers (g + len) = false →
      ∀ j : Nat, j < len → ∀ ma mb,
        markerAt src_track.markers (g + j) = some ma →
        markerAt dst_track.markers (g + j) = some mb →
        markerAt (BKE_tracking_tracks_join dst_track src_track).markers (g + j) =
          some { mb with pos := interp_v2_v2v2 mb.pos ma.pos (facFor len (inverseFor none dst_track.markers g) j) }) := by
  have h := joinLoop_spec none src_track.markers dst_track.markers hsrc hdst
    (by intro p hp; cases hp)
  unfold JoinSpec at h
  obtain ⟨hA, hS, hC1, hC2, hC3, hC4, hD⟩ := h
  have hout : (BKE_tracking_tracks_join dst_track src_track).markers =
      tracks_join_loop none src_track.markers dst_track.markers := rfl
  rw [hout]
  exact ⟨hS, hC1, hC2, fun f ma mb h1 h2 h3 _ => hC3 f ma mb h1 h2 h3, hC4, hD⟩

/-- Witness for C2 on the S2 scenario: both example pairs are sorted; the
joined track keeps the dst marker at frame 1 and the src marker at frame 7;
the blend over frames 3..5 uses factors 0, 1/2, 1 (positions (0,0), (1/2,1/2),
(1,1)); with the dst marker at frame 2 disabled the factors reverse to
1, 1/2, 0. -/
theorem C2_tracks_join_spec_witness :
    (MarkersSorted srcJoinMarkers ∧ MarkersSorted dstJoinMarkersA ∧
      MarkersSorted dstJoinMarkersB) ∧
    markerAt (BKE_tracking_tracks_join { markers := dstJoinMarkersA, last_marker := 0 }
      { markers := srcJoinMarkers, last_marker := 0 }).markers 1 =
      some (testMarker 1 0 0) ∧
    markerAt (BKE_tracking_tracks_join { markers := dstJoinMarkersA, last_marker := 0 }
      { markers := srcJoinMarkers, last_marker := 0 }).markers 7 =
      some (testMarker 7 1 1) ∧
    markerAt (BKE_tracking_tracks_join { markers := dstJoinMarkersA, last_marker := 0 }
      { markers := srcJoinMarkers, last_marker := 0 }).markers 3 =
      some (testMarker 3 0 0) ∧
    markerAt (BKE_tracking_tracks_join { markers := dstJoinMarkersA, last_marker := 0 }
      { markers := srcJoinMarkers, last_marker := 0 }).markers 4 =
      some (testMarker 4 (1/2) (1/2)) ∧
    markerAt (BKE_tracking_tracks_join { markers := dstJoinMarkersA, last_marker := 0 }
      { markers := srcJoinMarkers, last_marker := 0 }).markers 5 =
      some (testMarker 5 1 1) ∧
    markerAt (BKE_tracking_tracks_join { markers := dstJoinMarkersB, last_marker := 0 }
      { markers := srcJoinMarkers, last_marker := 0 }).markers 3 =
      some (testMarker 3 1 1) ∧
    markerAt (BKE_tracking_tracks_join { markers := dstJoinMarkersB, last_marker := 0 }
      { markers := srcJoinMarkers, last_marker := 0 }).markers 4 =
      some (testMarker 4 (1/2) (1/2)) ∧
    markerAt (BKE_tracking_tracks_join { markers := dstJoinMarkersB, last_marker := 0 }
      { markers := srcJoinMarkers, last_marker := 0 }).markers 5 =
      some (testMarker 5 0 0) := by
  have hA := C2_tracks_join_spec { markers := dstJoinMarkersA, last_marker := 0 }
    { markers := srcJoinMarkers, last_marker := 0 } (by decide) (by decide)
  have hB := C2_tracks_join_spec { markers := dstJoinMarkersB, last_marker := 0 }
    { markers := srcJoinMarkers, last_marker := 0 } (by decide) (by decide)
  refine ⟨⟨by decide, by decide, by decide⟩, ?_, ?_, ?_, ?_, ?_, ?_, ?_, ?_⟩
  · exact hA.2.2.1 1 (testMarker 1 0 0) (by decide) (by decide)
  · exact hA.2.1 7 (testMarker 7 1 1) (by decide) (by decide)
  · have h3 := hA.2.2.2.2.2 3 3 (by decide) (by decide) (by decide) (by decide)
      0 (by decide) (testMarker 3 1 1) (testMarker 3 0 0) (by decide) (by decide)
    rw [show (3 : Int) + ((0 : Nat) : Int) = 3 by norm_num] at h3
    rw [show inverseFor none ({ markers := dstJoinMarkersA, last_marker := 0 } : MovieTrackingTrack).markers 3 = false by decide] at h3
    rw [h3]
    norm_num [testMarker, facFor, interp_v2_v2v2]
  · have h4 := hA.2.2.2.2.2 3 3 (by decide) (by decide) (by decide) (by decide)
      1 (by decide) (testMarker 4 1 1) (testMarker 4 0 0) (by decide) (by decide)
    rw [show (3 : Int) + ((1 : Nat) : Int) = 4 by norm_num] at h4
    rw [show inverseFor none ({ markers := dstJoinMarkersA, last_marker := 0 } : MovieTrackingTrack).markers 3 = false by decide] at h4
    rw [h4]
    norm_num [testMarker, facFor, interp_v2_v2v2]
  · have h5 := hA.2.2.2.2.2 3 3 (by decide) (by decide) (by decide) (by decide)
      2 (by decide) (testMarker 5 1 1) (testMarker 5 0 0) (by decide) (by decide)
    rw [show (3 : Int) + ((2 : Nat) : Int) = 5 by norm_num] at h5
    rw [show inverseFor none ({ markers := dstJoinMarkersA, last_marker := 0 } : MovieTrackingTrack).markers 3 = false by decide] at h5
    rw [h5]
    norm_num [testMarker, facFor, interp_v2_v2v2]
  · have h3 := hB.2.2.2.2.2 3 3 (by decide) (by decide) (by decide) (by decide)
      0 (by decide) (testMarker 3 1 1) (testMarker 3 0 0) (by decide) (by decide)
    rw [show (3 : Int) + ((0 : Nat) : Int) = 3 by norm_num] at h3
    rw [show inverseFor none ({ markers := dstJoinMarkersB, last_marker := 0 } : MovieTrackingTrack).markers 3 = true by decide] at h3
    rw [h3]
    norm_num [testMarker, facFor, interp_v2_v2v2]
  · have h4 := hB.2.2.2.2.2 3 3 (by decide) (by decide) (by decide) (by decide)
      1 (by decide) (testMarker 4 1 1) (testMarker 4 0 0) (by decide) (by decide)
    rw [show (3 : Int) + ((1 : Nat) : Int) = 4 by norm_num] at h4
    rw [show inverseFor none ({ markers := dstJoinMarkersB, last_marker := 0 } : MovieTrackingTrack).markers 3 = true by decide] at h4
    rw [h4]
    norm_num [testMarker, facFor, interp_v2_v2v2]
  · have h5 := hB.2.2.2.2.2 3 3 (by decide) (by decide) (by decide) (by decide)
      2 (by decide) (testMarker 5 1 1) (testMarker 5 0 0) (by decide) (by decide)
    rw [show (3 : Int) + ((2 : Nat) : Int) = 5 by norm_num] at h5
    rw [show inverseFor none ({ markers := dstJoinMarkersB, last_marker := 0 } : MovieTrackingTrack).markers 3 = true by decide] at h5
    rw [h5]
    norm_num [testMarker, facFor, interp_v2_v2v2]

/-! ## Channel disabling (C9) -/

/-- The rescale factor of `BKE_tracking_disable_channels` (tracking.c:1919-1921):
the sum of the luminance weights of the channels left enabled, as exact
rationals (0.2126, 0.7152, 0.0722). -/
def disable_channels_scale (disable_red disable_green disable_blue : Bool) : ℚ :=
  (if disable_red then 0 else 2126 / 10000) +
  (if disable_green then 0 else 7152 / 10000) +
  (if disable_blue then 0 else 722 / 10000)

/-- One pixel of `BKE_tracking_disable_channels` (tracking.c:1907-1962), the
same arithmetic for the float and the 8-bit path: early return when nothing is
disabled and grayscale is off; otherwise zero the disabled channels and, when
grayscale is set, write the weighted sum divided by `disable_channels_scale`
to all three channels.  The C code performs that division in `float` with no
guard; a zero divisor there yields IEEE NaN, embedded here as `none`. -/
def BKE_tracking_disable_channels (disable_red disable_green disable_blue
    grayscale : Bool) (r g b : ℚ) : Option (ℚ × ℚ × ℚ) :=
  if !disable_red && !disable_green && !disable_blue && !grayscale then
    some (r, g, b)
  else
    let r2 := if disable_red then 0 else r
    let g2 := if disable_green then 0 else g
    let b2 := if disable_blue then 0 else b
    if grayscale then
      if disable_channels_scale disable_red disable_green disable_blue = 0 then
        none
      else
        let gray := (2126 / 10000 * r2 + 7152 / 10000 * g2 + 722 / 10000 * b2) /
          disable_channels_scale disable_red disable_green disable_blue
        some (gray, gray, gray)
    else
      some (r2, g2, b2)

/-- C9: the grayscale blend does divide by the sum of the enabled channels'
luminance weights, and that divisor is well defined whenever at least one of
red, green and blue stays enabled (it is 1 with all three enabled); but the
code has no clamp: with all three channels disabled the divisor is exactly
zero and the per-pixel result is a float division by zero (`none`, IEEE NaN),
not the black pixel the claim requires. -/
theorem C9_disable_channels_no_clamp :
    disable_channels_scale false false false = 1 ∧
    (∀ dr dg db : Bool, ¬ (dr = true ∧ dg = true ∧ db = true) →
      disable_channels_scale dr dg db ≠ 0) ∧
    (∀ dr dg db : Bool, ∀ r g b : ℚ,
      ¬ (dr = true ∧ dg = true ∧ db = true) →
      BKE_tracking_disable_channels dr dg db true r g b =
        some (((2126 / 10000) * (if dr then 0 else r) +
            (7152 / 10000) * (if dg then 0 else g) +
            (722 / 10000) * (if db then 0 else b)) /
            disable_channels_scale dr dg db,
          ((2126 / 10000) * (if dr then 0 else r) +
            (7152 / 10000) * (if dg then 0 else g) +
            (722 / 10000) * (if db then 0 else b)) /
            disable_channels_scale dr dg db,
          ((2126 / 10000) * (if dr then 0 else r) +
            (7152 / 10000) * (if dg then 0 else g) +
            (722 / 10000) * (if db then 0 else b)) /
            disable_channels_scale dr dg db)) ∧
    disable_channels_scale true true true = 0 ∧
    (∀ r g b : ℚ, BKE_tracking_disable_channels true true true true r g b =
      none) ∧
    ∀ p : ℚ × ℚ × ℚ,
      BKE_tracking_disable_channels true true true true (1/2) (1/2) (1/2) ≠
        some p := by
  have hscale : ∀ dr dg db : Bool, ¬ (dr = true ∧ dg = true ∧ db = true) →
      disable_channels_scale dr dg db ≠ 0 := by
    intro dr dg db h
    unfold disable_channels_scale
    cases dr <;> cases dg <;> cases db <;> norm_num at h ⊢
  refine ⟨by norm_num [disable_channels_scale], hscale, ?_, by
    norm_num [disable_channels_scale], ?_, ?_⟩
  · intro dr dg db r g b h
    unfold BKE_tracking_disable_channels
    rw [if_neg (by cases dr <;> cases dg <;> cases db <;> simp_all)]
    rw [if_pos rfl, if_neg (hscale dr dg db h)]
  · intro r g b
    unfold BKE_tracking_disable_channels
    rw [if_neg (by simp)]
    rw [if_pos rfl, if_pos (by norm_num [disable_channels_scale])]
  · intro p hcon
    rw [show BKE_tracking_disable_channels true true true true (1/2) (1/2) (1/2) = none by
      unfold BKE_tracking_disable_channels
      rw [if_neg (by simp)]
      rw [if_pos rfl, if_pos (by norm_num [disable_channels_scale])]] at hcon
    cases hcon

/-! ## Dopesheet coverage (C8) -/

/-- Coverage classes (`TRACKING_COVERAGE_*`). -/
inductive Coverage where
  | bad
  | acceptable
  | ok
  deriving DecidableEq, Repr

/-- `coverage_from_count` (tracking.c:4207-4215). -/
def coverage_from_count (count : Nat) : Coverage :=
  if count < 8 then Coverage.bad
  else if count < 16 then Coverage.acceptable
  else Coverage.ok

/-- The per-frame enabled-marker count over all tracks
(tracking.c:4244-4254). -/
def per_frame_count (tracks : List (List MovieTrackingMarker)) (f : Int) : Nat :=
  (tracks.map (fun ms =>
    (ms.filter (fun m => !m.disabled && decide (m.framenr = f))).length)).sum

/-- The frame boundaries of `tracking_dopesheet_calc_coverage`
(tracking.c:4233-4236): the minimum first-marker frame and maximum
last-marker frame over all tracks.  No track (a `calloc` of negative size
later) or a track with no markers (a `markers[0]` dereference) is undefined
behaviour, `none` here. -/
def coverage_bounds : List (List MovieTrackingMarker) → Option (Int × Int)
  | [] => none
  | ms :: rest => do
    let h ← ms.head?
    let l ← ms.getLast?
    rest.foldl (fun acc ms2 => do
      let se ← acc
      let h2 ← ms2.head?
      let l2 ← ms2.getLast?
      some (min se.1 h2.framenr, max se.2 l2.framenr))
      (some (h.framenr, l.framenr))

/-- The segment-detection loop of `tracking_dopesheet_calc_coverage`
(tracking.c:4264-4289): `i` is the loop counter, `rem` the remaining
iterations (`frames - i`), `prev` the previous frame's coverage and
`last_segment_frame` the last emitted boundary. -/
def coverage_loop (cnt : Nat → Nat) (frames : Nat) (start_frame : Int) :
    Nat → Nat → Coverage → Int → List (Coverage × Int × Int)
  | _, 0, _, _ => []
  | i, rem + 1, prev, last_segment_frame =>
    let coverage := if i = frames - 1 ∧ cnt i = 0 then Coverage.ok
      else coverage_from_count (cnt i)
    if coverage ≠ prev ∨ i = frames - 1 then
      let end0 : Int := (i : Int) - 1 + start_frame
      let end1 : Int := if end0 = last_segment_frame then end0 + 1 else end0
      (prev, last_segment_frame, end1) ::
        coverage_loop cnt frames start_frame (i + 1) rem coverage end1
    else
      coverage_loop cnt frames start_frame (i + 1) rem coverage
        last_segment_frame

/-- `tracking_dopesheet_calc_coverage` (tracking.c:4221-4292) over the marker
arrays of the active object's tracks: the emitted coverage segments
`(coverage, start_frame, end_frame)` in order.  An enabled marker outside the
computed frame range (an out-of-bounds counter write in the C code) is
undefined behaviour, `none` here. -/
def tracking_dopesheet_calc_coverage (tracks : List (List MovieTrackingMarker)) :
    Option (List (Coverage × Int × Int)) :=
  match coverage_bounds tracks with
  | none => none
  | some (s, e) =>
    if e < s then none
    else if tracks.any (fun ms => ms.any (fun m => !m.disabled &&
        (decide (m.framenr < s) || decide (e < m.framenr)))) then none
    else
      some (coverage_loop (fun i => per_frame_count tracks (s + i))
        (e - s + 1).toNat s 1 ((e - s + 1).toNat - 1)
        (if per_frame_count tracks (s + ((0 : Nat) : Int)) = 0 then Coverage.ok
          else coverage_from_count (per_frame_count tracks (s + ((0 : Nat) : Int))))
        s)

/-- The per-frame coverage class the code effectively assigns: the claimed
thresholds, except that a zero count at the first or last frame is classed
OK. -/
def coverage_class (cnt : Nat → Nat) (frames i : Nat) : Coverage :=
  if (i = 0 ∨ i = frames - 1) ∧ cnt i = 0 then Coverage.ok
  else coverage_from_count (cnt i)

/-- The loop indices at which a segment is emitted: every class change and
the final index. -/
def coverage_change_points (cnt : Nat → Nat) (frames : Nat) : List Nat :=
  (List.range' 1 (frames - 1)).filter
    (fun j => decide (coverage_class cnt frames j ≠
      coverage_class cnt frames (j - 1) ∨ j = frames - 1))

/-- The C8 counterexample track list: one track with a disabled marker at
frame 1 and enabled markers at frames 2 and 3. -/
def tracksC8 : List (List MovieTrackingMarker) :=
  [[{ testMarker 1 0 0 with disabled := true }, testMarker 2 0 0,
    testMarker 3 0 0]]

/-- C8 counterexample: at the first frame of the range the marker count is 0,
so the claim classes it BAD; the code classes it OK (tracking.c:4261-4262) and
emits an OK segment over it, so the leading segment's class diverges from the
claim. -/
theorem C8_coverage_counterexample :
    tracking_dopesheet_calc_coverage tracksC8 =
      some [(Coverage.ok, 1, 2), (Coverage.bad, 2, 3)] ∧
    per_frame_count tracksC8 1 = 0 ∧
    coverage_from_count (per_frame_count tracksC8 1) = Coverage.bad ∧
    (tracking_dopesheet_calc_coverage tracksC8).map
      (fun segs => segs.map (fun seg => seg.1)) =
      some [Coverage.ok, Coverage.bad] ∧
    Coverage.ok ≠ Coverage.bad := by
  refine ⟨?_, by decide, by decide, ?_, by decide⟩
  · decide
  · decide

/-- The loop's per-iteration class equals `coverage_class` at every index
past the first frame. -/
theorem coverage_loop_class_eq (cnt : Nat → Nat) (frames i : Nat) (hi : 1 ≤ i) :
    (if i = frames - 1 ∧ cnt i = 0 then Coverage.ok
      else coverage_from_count (cnt i)) = coverage_class cnt frames i := by
  unfold coverage_class
  by_cases h1 : i = frames - 1 ∧ cnt i = 0
  · rw [if_pos h1, if_pos ⟨Or.inr h1.1, h1.2⟩]
  · rw [if_neg h1, if_neg ?_]
    rintro ⟨h2 | h2, h3⟩
    · omega
    · exact h1 ⟨h2, h3⟩

/-- The number of segments the loop emits equals the number of class changes
plus the forced final emission. -/
theorem coverage_loop_length (cnt : Nat → Nat) (frames : Nat) (s : Int) :
    ∀ (rem i : Nat) (prev : Coverage) (lastf : Int), i + rem = frames →
      1 ≤ i → prev = coverage_class cnt frames (i - 1) →
      (coverage_loop cnt frames s i rem prev lastf).length =
        ((List.range' i rem).filter
          (fun j => decide (coverage_class cnt frames j ≠
            coverage_class cnt frames (j - 1) ∨ j = frames - 1))).length := by
  intro rem
  induction rem with
  | zero =>
    intro i prev lastf _ _ _
    rfl
  | succ rem ih =>
    intro i prev lastf hif hi hprev
    rw [coverage_loop]
    dsimp only
    rw [coverage_loop_class_eq cnt frames i hi, hprev, List.range'_succ,
      List.filter_cons]
    by_cases hemit : coverage_class cnt frames i ≠
        coverage_class cnt frames (i - 1) ∨ i = frames - 1
    · rw [if_pos hemit, if_pos (decide_eq_true hemit), List.length_cons,
        List.length_cons,
        ih (i + 1) (coverage_class cnt frames i) _ (by omega) (by omega)
          (by rw [show i + 1 - 1 = i by omega])]
    · rw [if_neg hemit, if_neg (by simpa using hemit)]
      exact ih (i + 1) (coverage_class cnt frames i) lastf (by omega)
        (by omega) (by rw [show i + 1 - 1 = i by omega])

/-- When every frame has the same class, the loop emits exactly one segment,
at the forced final iteration. -/
theorem coverage_loop_uniform (cnt : Nat → Nat) (frames : Nat) (s : Int)
    (c : Coverage) :
    ∀ (rem i : Nat) (lastf : Int), i + rem = frames → 1 ≤ i → 1 ≤ rem →
      (∀ j, j < frames → coverage_class cnt frames j = c) →
      coverage_loop cnt frames s i rem c lastf =
        [(c, lastf, if ((frames : Int) - 2 + s) = lastf
          then ((frames : Int) - 2 + s) + 1 else ((frames : Int) - 2 + s))] := by
  intro rem
  induction rem with
  | zero =>
    intro i lastf _ _ h2 _
    omega
  | succ rem ih =>
    intro i lastf hif hi _ huni
    rw [coverage_loop]
    dsimp only
    rw [coverage_loop_class_eq cnt frames i hi, huni i (by omega)]
    cases rem with
    | zero =>
      have hlast : i = frames - 1 := by omega
      rw [if_pos (Or.inr hlast)]
      rw [coverage_loop]
      rw [show ((i : Nat) : Int) - 1 + s = (frames : Int) - 2 + s by omega]
    | succ rem2 =>
      rw [if_neg (by
        push_neg
        exact ⟨rfl, by omega⟩)]
      exact ih (i + 1) lastf (by omega) (by omega) (by omega) huni

/-- C8, amended: on a defined run of the coverage computation the number of
emitted segments is exactly the number of class changes plus the forced final
emission, and a range whose every frame carries one class collapses to a
single segment (ending one frame before the range end, bumped by one when the
range has just two frames). -/
theorem C8_coverage_amended (tracks : List (List MovieTrackingMarker))
    (s e : Int) (segs : List (Coverage × Int × Int))
    (hb : coverage_bounds tracks = some (s, e))
    (hcalc : tracking_dopesheet_calc_coverage tracks = some segs) :
    segs.length = (coverage_change_points
      (fun i => per_frame_count tracks (s + i)) (e - s + 1).toNat).length ∧
    (∀ c : Coverage, 2 ≤ (e - s + 1).toNat →
      (∀ j, j < (e - s + 1).toNat → coverage_class
        (fun i => per_frame_count tracks (s + i)) (e - s + 1).toNat j = c) →
      segs = [(c, s, if e - 1 = s then s + 1 else e - 1)]) := by
  unfold tracking_dopesheet_calc_coverage at hcalc
  rw [hb] at hcalc
  dsimp only at hcalc
  by_cases h1 : e < s
  · rw [if_pos h1] at hcalc
    cases hcalc
  rw [if_neg h1] at hcalc
  by_cases h2 : tracks.any (fun ms => ms.any (fun m => !m.disabled &&
      (decide (m.framenr < s) || decide (e < m.framenr)))) = true
  · rw [if_pos h2] at hcalc
    cases hcalc
  rw [if_neg h2] at hcalc
  have hsegs := (Option.some_inj.1 hcalc).symm
  have hfr1 : 1 ≤ (e - s + 1).toNat := by omega
  have hprev0 : (if per_frame_count tracks (s + ((0 : Nat) : Int)) = 0 then
      Coverage.ok
      else coverage_from_count (per_frame_count tracks (s + ((0 : Nat) : Int)))) =
      coverage_class (fun i => per_frame_count tracks (s + i))
        (e - s + 1).toNat 0 := by
    unfold coverage_class
    by_cases hz : per_frame_count tracks (s + ((0 : Nat) : Int)) = 0
    · rw [if_pos hz, if_pos ⟨Or.inl rfl, hz⟩]
    · rw [if_neg hz, if_neg (by rintro ⟨_, h3⟩; exact hz h3)]
  constructor
  · rw [hsegs, hprev0]
    rw [coverage_loop_length (fun i => per_frame_count tracks (s + i))
      (e - s + 1).toNat s ((e - s + 1).toNat - 1) 1 _ s (by omega) (by omega)
      (by rw [show (1 : Nat) - 1 = 0 by omega])]
    rfl
  · intro c hfr2 huni
    rw [hsegs, hprev0, huni 0 (by omega)]
    rw [coverage_loop_uniform (fun i => per_frame_count tracks (s + i))
      (e - s + 1).toNat s c ((e - s + 1).toNat - 1) 1 s (by omega) (by omega)
      (by omega) huni]
    rw [show (((e - s + 1).toNat : Nat) : Int) - 2 + s = e - 1 by omega]
    by_cases he : e - 1 = s
    · rw [if_pos he, if_pos he, he]
    · rw [if_neg he, if_neg he]

/-- A uniform-coverage track list: one enabled marker at each of frames
1..3, so every frame is classed BAD. -/
def tracksC8u : List (List MovieTrackingMarker) :=
  [[testMarker 1 0 0, testMarker 2 0 0, testMarker 3 0 0]]

/-- Witness for the amended C8: on the counterexample tracks the computation
is defined with bounds 1..3 and its two segments match the change-point
count; on the uniform tracks the whole range collapses into the single
segment the amended claim describes. -/
theorem C8_coverage_amended_witness :
    coverage_bounds tracksC8 = some (1, 3) ∧
    tracking_dopesheet_calc_coverage tracksC8 =
      some [(Coverage.ok, 1, 2), (Coverage.bad, 2, 3)] ∧
    ([(Coverage.ok, 1, 2), (Coverage.bad, 2, 3)] :
      List (Coverage × Int × Int)).length =
      (coverage_change_points (fun i => per_frame_count tracksC8 (1 + i))
        ((3 : Int) - 1 + 1).toNat).length ∧
    tracking_dopesheet_calc_coverage tracksC8u = some [(Coverage.bad, 1, 2)] ∧
    ([(Coverage.bad, 1, 2)] : List (Coverage × Int × Int)) =
      [(Coverage.bad, 1, if (3 : Int) - 1 = 1 then 1 + 1 else 3 - 1)] := by
  refine ⟨by decide, by decide, ?_, by decide, ?_⟩
  · exact (C8_coverage_amended tracksC8 1 3 _ (by decide) (by decide)).1
  · exact (C8_coverage_amended tracksC8u 1 3 [(Coverage.bad, 1, 2)]
      (by decide) (by decide)).2 Coverage.bad (by decide) (by decide)

/-! ## Reconstruction retrieval (C3)

The libmv solver and the `BLI_math` matrix helpers are not part of this
repository's files, so the solver is abstracted as functions and the matrix
helpers are modelled from the spec: matrices are mathematical 4x4 rational
matrices, `mul_m4_m4m4(R, A, B)` is the product `A * B`, `unit_m4` the
identity, `invert_m4_m4` the matrix inverse (`m4_invert` below) and
`mul_v3_m4v3` the affine application of a matrix to a 3-vector. -/

/-- Modelled from the spec: `invert_m4_m4` as the adjugate divided by the
determinant (the mathematical inverse for invertible matrices, and a total
function like the C helper). -/
def m4_invert (A : Matrix (Fin 4) (Fin 4) ℚ) : Matrix (Fin 4) (Fin 4) ℚ :=
  A.det⁻¹ • A.adjugate

theorem m4_invert_eq_inv (A : Matrix (Fin 4) (Fin 4) ℚ) : m4_invert A = A⁻¹ := by
  rw [Matrix.inv_def, Ring.inverse_eq_inv']
  rfl

theorem m4_invert_mul (A : Matrix (Fin 4) (Fin 4) ℚ) (h : A.det ≠ 0) :
    m4_invert A * A = 1 := by
  rw [m4_invert_eq_inv]
  exact Matrix.nonsing_inv_mul A (isUnit_iff_ne_zero.2 h)

/-- Modelled from the spec: `mul_v3_m4v3`, the affine action of a 4x4 matrix
on a 3-vector. -/
def mul_v3_m4v3 (M : Matrix (Fin 4) (Fin 4) ℚ) (v : ℚ × ℚ × ℚ) : ℚ × ℚ × ℚ :=
  (M 0 0 * v.1 + M 0 1 * v.2.1 + M 0 2 * v.2.2 + M 0 3,
   M 1 0 * v.1 + M 1 1 * v.2.1 + M 1 2 * v.2.2 + M 1 3,
   M 2 0 * v.1 + M 2 1 * v.2.1 + M 2 2 * v.2.2 + M 2 3)

/-- The per-track state touched by `reconstruct_retrieve_libmv_tracks`: the
3D bundle position and the `TRACK_HAS_BUNDLE` flag bit.  The per-track and
per-camera reprojection errors are not modelled; no claim concerns them. -/
structure ReconTrack where
  bundle_pos : ℚ × ℚ × ℚ
  has_bundle : Bool
  deriving DecidableEq, Repr

/-- The frames `sfra..efra` of the camera loop (tracking.c:3017). -/
def frameRange (sfra efra : Int) : List Int :=
  (List.range (efra + 1 - sfra).toNat).map (fun i => sfra + i)

/-- The camera loop of `reconstruct_retrieve_libmv_tracks`
(tracking.c:3017-3058): walk the frames; at the first frame with a solver
pose store the identity and remember the pose's inverse in `imat`; at every
later retrieved frame store `imat * pose`.  Returns the stored
`(framenr, mat)` pairs in order together with the final `imat` and
`origin_set`. -/
def retrieve_cameras_loop (solver : Int → Option (Matrix (Fin 4) (Fin 4) ℚ)) :
    List Int → Matrix (Fin 4) (Fin 4) ℚ → Bool →
    List (Int × Matrix (Fin 4) (Fin 4) ℚ) × Matrix (Fin 4) (Fin 4) ℚ × Bool
  | [], imat, origin_set => ([], imat, origin_set)
  | a :: rest, imat, origin_set =>
    match solver a with
    | none => retrieve_cameras_loop solver rest imat origin_set
    | some mat =>
      if origin_set then
        let r := retrieve_cameras_loop solver rest imat true
        ((a, imat * mat) :: r.1, r.2)
      else
        let r := retrieve_cameras_loop solver rest (m4_invert mat) true
        ((a, (1 : Matrix (Fin 4) (Fin 4) ℚ)) :: r.1, r.2)

/-- `reconstruct_retrieve_libmv_tracks` (tracking.c:2960-3079): copy each
track's solver bundle (setting or clearing `TRACK_HAS_BUNDLE`), run the
camera loop over `sfra..efra`, transform every bundled track's position by
the final `imat` when an origin was set, and report whether every track got a
bundle and every frame a camera. -/
def reconstruct_retrieve_libmv_tracks
    (solverBundle : Nat → Option (ℚ × ℚ × ℚ))
    (solverCamera : Int → Option (Matrix (Fin 4) (Fin 4) ℚ))
    (tracks : List ReconTrack) (sfra efra : Int) :
    List ReconTrack × List (Int × Matrix (Fin 4) (Fin 4) ℚ) × Bool :=
  let tracks1 := tracks.enum.map (fun kt =>
    match solverBundle kt.1 with
    | some p => { kt.2 with bundle_pos := p, has_bundle := true }
    | none => { kt.2 with has_bundle := false })
  let r := retrieve_cameras_loop solverCamera (frameRange sfra efra) 1 false
  let tracks2 := if r.2.2 then
      tracks1.map (fun t => if t.has_bundle then
        { t with bundle_pos := mul_v3_m4v3 r.2.1 t.bundle_pos } else t)
    else tracks1
  let ok := tracks.enum.all (fun kt => (solverBundle kt.1).isSome) &&
    (frameRange sfra efra).all (fun a => (solverCamera a).isSome)
  (tracks2, r.1, ok)

/-- A prefix of frames without solver poses is skipped without effect. -/
theorem cameras_loop_skip (solver : Int → Option (Matrix (Fin 4) (Fin 4) ℚ))
    (imat : Matrix (Fin 4) (Fin 4) ℚ) :
    ∀ (before rest : List Int), (∀ a ∈ before, solver a = none) →
      retrieve_cameras_loop solver (before ++ rest) imat false =
        retrieve_cameras_loop solver rest imat false := by
  intro before
  induction before with
  | nil =>
    intro rest _
    rfl
  | cons b bs ih =>
    intro rest h
    rw [List.cons_append, retrieve_cameras_loop, h b (by simp)]
    exact ih rest (fun a ha => h a (by simp [ha]))

/-- Once the origin is set the loop stores `imat * pose` for every retrieved
frame, leaving `imat` unchanged. -/
theorem cameras_loop_map (solver : Int → Option (Matrix (Fin 4) (Fin 4) ℚ))
    (imat : Matrix (Fin 4) (Fin 4) ℚ) :
    ∀ frames : List Int,
      retrieve_cameras_loop solver frames imat true =
        (frames.filterMap (fun a => (solver a).map (fun M => (a, imat * M))),
          imat, true) := by
  intro frames
  induction frames with
  | nil => rfl
  | cons a rest ih =>
    rw [retrieve_cameras_loop]
    cases hs : solver a with
    | none =>
      dsimp only
      rw [ih]
      simp [List.filterMap_cons, hs]
    | some M =>
      dsimp only
      rw [ih]
      simp [List.filterMap_cons, hs]

/-- C3: when the solver yields a pose for at least one frame of
`[sfra, efra]` (`f0` the first such frame), the stored camera list starts
with the identity at `f0` and stores `M0⁻¹ * M_f` for every later retrieved
frame `f`; every track that received a bundle has its 3D position transformed
by the same inverse (and a track without a bundle just loses the flag); and
`m4_invert M0` is the true inverse whenever `M0` is invertible. -/
theorem C3_reconstruction_origin
    (solverBundle : Nat → Option (ℚ × ℚ × ℚ))
    (solverCamera : Int → Option (Matrix (Fin 4) (Fin 4) ℚ))
    (tracks : List ReconTrack) (sfra efra : Int)
    (before after : List Int) (f0 : Int) (M0 : Matrix (Fin 4) (Fin 4) ℚ)
    (hsplit : frameRange sfra efra = before ++ f0 :: after)
    (hbefore : ∀ a ∈ before, solverCamera a = none)
    (hM0 : solverCamera f0 = some M0) :
    (reconstruct_retrieve_libmv_tracks solverBundle solverCamera tracks
        sfra efra).2.1 =
      (f0, (1 : Matrix (Fin 4) (Fin 4) ℚ)) ::
        after.filterMap (fun a => (solverCamera a).map
          (fun M => (a, m4_invert M0 * M))) ∧
    (∀ k t p, tracks[k]? = some t → solverBundle k = some p →
      ((reconstruct_retrieve_libmv_tracks solverBundle solverCamera tracks
        sfra efra).1)[k]? =
        some { t with bundle_pos := mul_v3_m4v3 (m4_invert M0) p, has_bundle := true }) ∧
    (∀ k t, tracks[k]? = some t → solverBundle k = none →
      ((reconstruct_retrieve_libmv_tracks solverBundle solverCamera tracks
        sfra efra).1)[k]? = some { t with has_bundle := false }) ∧
    (M0.det ≠ 0 → m4_invert M0 * M0 = 1) := by
  have hloop : retrieve_cameras_loop solverCamera (frameRange sfra efra) 1
      false =
      ((f0, (1 : Matrix (Fin 4) (Fin 4) ℚ)) ::
        after.filterMap (fun a => (solverCamera a).map
          (fun M => (a, m4_invert M0 * M))), m4_invert M0, true) := by
    rw [hsplit, cameras_loop_skip solverCamera 1 before (f0 :: after) hbefore]
    rw [retrieve_cameras_loop, hM0]
    dsimp only
    rw [if_neg Bool.false_ne_true, cameras_loop_map]
  refine ⟨?_, ?_, ?_, fun h => m4_invert_mul M0 h⟩
  · unfold reconstruct_retrieve_libmv_tracks
    rw [hloop]
  · intro k t p hk hp
    unfold reconstruct_retrieve_libmv_tracks
    rw [hloop]
    dsimp only
    rw [if_pos rfl, List.getElem?_map, List.getElem?_map, List.getElem?_enum,
      hk]
    simp only [Option.map_some', hp]
    rfl
  · intro k t hk hp
    unfold reconstruct_retrieve_libmv_tracks
    rw [hloop]
    dsimp only
    rw [if_pos rfl, List.getElem?_map, List.getElem?_map, List.getElem?_enum,
      hk]
    simp only [Option.map_some', hp]
    rfl

/-- The first-pose matrix of the C3 witness: twice the identity (so not the
identity, with determinant 16). -/
def matT : Matrix (Fin 4) (Fin 4) ℚ := (2 : ℚ) • 1

/-- The C3 witness camera solver: poses at frames 6 and 7 only. -/
def solverCamC3 (a : Int) : Option (Matrix (Fin 4) (Fin 4) ℚ) :=
  if a = 6 then some matT else if a = 7 then some matT else none

/-- The C3 witness bundle solver: a point for track 0 only. -/
def solverBundleC3 (k : Nat) : Option (ℚ × ℚ × ℚ) :=
  if k = 0 then some (1, 2, 3) else none

/-- The C3 witness tracks. -/
def tracksC3 : List ReconTrack :=
  [{ bundle_pos := (0, 0, 0), has_bundle := false },
   { bundle_pos := (5, 5, 5), has_bundle := true }]

/-- Witness for C3 over frames 5..7 with the first pose retrieved at frame 6:
the stored cameras are the identity at 6 and `matT⁻¹ * matT` at 7 (which is
the identity, `matT` being invertible and itself not the identity), track 0's
bundle is transformed by `matT⁻¹`, and track 1 loses its bundle flag. -/
theorem C3_reconstruction_origin_witness :
    frameRange 5 7 = [5] ++ 6 :: [7] ∧
    solverCamC3 5 = none ∧
    solverCamC3 6 = some matT ∧
    (reconstruct_retrieve_libmv_tracks solverBundleC3 solverCamC3 tracksC3
      5 7).2.1 = [(6, (1 : Matrix (Fin 4) (Fin 4) ℚ)),
        (7, m4_invert matT * matT)] ∧
    m4_invert matT * matT = 1 ∧
    matT ≠ 1 ∧
    ((reconstruct_retrieve_libmv_tracks solverBundleC3 solverCamC3 tracksC3
      5 7).1)[0]? = some { bundle_pos := mul_v3_m4v3 (m4_invert matT) (1, 2, 3), has_bundle := true } ∧
    ((reconstruct_retrieve_libmv_tracks solverBundleC3 solverCamC3 tracksC3
      5 7).1)[1]? = some { bundle_pos := (5, 5, 5), has_bundle := false } := by
  have h := C3_reconstruction_origin solverBundleC3 solverCamC3 tracksC3 5 7
    [5] [7] 6 matT (by decide) (by
      intro a ha
      simp only [List.mem_singleton] at ha
      rw [ha]
      rfl) rfl
  have hdet : matT.det ≠ 0 := by
    rw [matT, Matrix.det_smul]
    norm_num
  refine ⟨by decide, rfl, rfl, ?_, h.2.2.2 hdet, ?_, ?_, ?_⟩
  · rw [h.1]
    rfl
  · intro hcon
    have h00 := congrFun (congrFun hcon 0) 0
    rw [matT] at h00
    simp [Matrix.smul_apply, Matrix.one_apply] at h00
  · exact h.2.1 0 { bundle_pos := (0, 0, 0), has_bundle := false } (1, 2, 3)
      rfl rfl
  · exact h.2.2.1 1 { bundle_pos := (5, 5, 5), has_bundle := true } rfl rfl

/-! ## 2D stabilization (C7)

The C transcendentals `atan2f`, `cosf` and `sinf` come from libm, which is
not part of this repository's files, so they are abstracted as a `TrigOps`
parameter; the `BLI_math` vector and matrix helpers are modelled from the
spec as exact rational operations, as in the reconstruction section. -/

/-- The trigonometric backend (`atan2`, `cos`, `sin` from libm), abstracted:
the C float functions are not part of the repository. -/
structure TrigOps where
  atan2 : ℚ → ℚ → ℚ
  cos : ℚ → ℚ
  sin : ℚ → ℚ

/-- DNA `MovieTrackingStabilization`: the three flag bits read by the
stabilization code, the influence values, the cached scale and the `ok`
cache flag.  The interpolation `filter` is not modelled: the interpolation
functions live outside this repository and are abstracted in
`BKE_tracking_stabilize_frame`. -/
structure MovieTrackingStabilization where
  use_2d_stabilization : Bool
  use_autoscale : Bool
  use_stabilize_rotation : Bool
  rot_track : Option MovieTrackingTrack
  locinf : ℚ
  scaleinf : ℚ
  rotinf : ℚ
  scale : ℚ
  maxscale : ℚ
  ok : Bool
  deriving DecidableEq, Repr

/-- The part of DNA `MovieTracking` read by the stabilization functions: the
track list, the stabilization settings and the camera pixel aspect. -/
structure MovieTracking where
  tracks : List MovieTrackingTrack
  stabilization : MovieTrackingStabilization
  pixel_aspect : ℚ
  deriving DecidableEq, Repr

/-- The marker value read through `BKE_tracking_marker_get` by the
stabilization code.  The C call also moves the `last_marker` cursor, which
does not change any value read here (the lookup result is
hint-independent on sorted arrays, see `marker_get_impl_eq`). -/
def marker_get_marker (track : MovieTrackingTrack) (framenr : Int) :
    Option MovieTrackingMarker :=
  (BKE_tracking_marker_get track framenr).map Prod.fst

/-- On a sorted non-empty track the marker value is the claim-side nearest
marker. -/
theorem marker_get_marker_eq {track : MovieTrackingTrack} {f : Int}
    (hs : MarkersSorted track.markers) (hne : track.markers ≠ []) :
    marker_get_marker track f = specNearestMarker track.markers f := by
  rw [marker_get_marker, BKE_tracking_marker_get,
    marker_get_impl_eq hs hne track.last_marker, Option.map_map]
  cases specNearestMarker track.markers f <;> rfl

/-- The result of a marker lookup lies in the marker array. -/
theorem specNearestMarker_mem {ms : List MovieTrackingMarker} {f : Int}
    {m : MovieTrackingMarker} (h : specNearestMarker ms f = some m) :
    m ∈ ms := by
  unfold specNearestMarker at h
  cases hgl : (ms.filter (fun x => decide (x.framenr ≤ f))).getLast? with
  | some x =>
    rw [hgl] at h
    have hmem : x ∈ ms.filter (fun x => decide (x.framenr ≤ f)) := by
      have := List.getLast?_eq_getElem? (ms.filter (fun x => decide (x.framenr ≤ f)))
      rw [hgl] at this
      obtain ⟨hlt, heq⟩ := List.getElem?_eq_some.1 this.symm
      rw [← heq]
      exact List.getElem_mem hlt
    rw [← Option.some_inj.1 h]
    exact List.mem_of_mem_filter hmem
  | none =>
    rw [hgl] at h
    rw [List.head?_eq_getElem?] at h
    obtain ⟨hlt, heq⟩ := List.getElem?_eq_some.1 h
    rw [← heq]
    exact List.getElem_mem hlt

theorem specNearestMarker_isSome {ms : List MovieTrackingMarker} {f : Int}
    (hne : ms ≠ []) : ∃ m, specNearestMarker ms f = some m := by
  unfold specNearestMarker
  cases hgl : (ms.filter (fun x => decide (x.framenr ≤ f))).getLast? with
  | some x => exact ⟨x, rfl⟩
  | none =>
    cases hh : ms.head? with
    | some m0 => exact ⟨m0, rfl⟩
    | none =>
      rw [List.head?_eq_none_iff] at hh
      exact absurd hh hne

/-- `stabilization_median_point_get` (tracking.c:3571-3596): the bounding box
of the stabilization tracks' marker positions at the frame, grown from the
`INIT_MINMAX2` sentinels, and its center; the boolean records whether any
stabilization track exists.  A stabilization track without markers makes the
C code dereference a NULL marker: `none`. -/
def median_point_step (framenr : Int) (acc : Option (Bool × Vec2 × Vec2))
    (track : MovieTrackingTrack) : Option (Bool × Vec2 × Vec2) :=
  match acc with
  | none => none
  | some s =>
    if track.use_2d_stab then
      match marker_get_marker track framenr with
      | none => none
      | some marker =>
        let mm := minmax_v2v2_v2 s.2.1 s.2.2 marker.pos
        some (true, mm.1, mm.2)
    else some s

def stabilization_median_point_get (tracking : MovieTracking) (framenr : Int) :
    Option (Bool × Vec2) :=
  (tracking.tracks.foldl (median_point_step framenr)
    (some (false, (initMinmaxSentinel, initMinmaxSentinel),
      (-initMinmaxSentinel, -initMinmaxSentinel)))).map
    (fun s => (s.1, ((s.2.2.1 + s.2.1.1) / 2, (s.2.2.2 + s.2.1.2) / 2)))

/-- `stabilization_calculate_data` (tracking.c:3604-3641): scale from the
scale influence, translation from the difference of the first and current
medians (times the location influence), and, when rotation stabilization is
active with a rotation track and non-zero influence, the rotation angle from
the rotation track's displacement with the translation corrected to rotate
around the image center.  Returns `(translation, scale, angle)`. -/
def stabilization_calculate_data (trig : TrigOps) (tracking : MovieTracking)
    (framenr : Int) (width height : ℚ) (firstmedian median : Vec2) :
    Option (Vec2 × ℚ × ℚ) :=
  let stab := tracking.stabilization
  let scale := (stab.scale - 1) * stab.scaleinf + 1
  let translation0 : Vec2 :=
    ((firstmedian.1 - median.1) * width * scale * stab.locinf,
     (firstmedian.2 - median.2) * height * scale * stab.locinf)
  if stab.use_stabilize_rotation then
    match stab.rot_track with
    | some rt =>
      if stab.rotinf ≠ 0 then
        match marker_get_marker rt 1, marker_get_marker rt framenr with
        | some m1, some mf =>
          let a : Vec2 := ((m1.pos.1 - firstmedian.1) * width,
            (m1.pos.2 - firstmedian.2) * height)
          let b : Vec2 := ((mf.pos.1 - median.1) * width,
            (mf.pos.2 - median.2) * height)
          let angle := -(trig.atan2 (a.1 * b.2 - a.2 * b.1)
            (a.1 * b.1 + a.2 * b.2)) * stab.rotinf
          let x0 := width / 2
          let y0 := height / 2
          let x := median.1 * width
          let y := median.2 * height
          some ((translation0.1 -
              (x0 + (x - x0) * trig.cos angle - (y - y0) * trig.sin angle - x) * scale,
            translation0.2 -
              (y0 + (x - x0) * trig.sin angle + (y - y0) * trig.cos angle - y) * scale),
            scale, angle)
        | _, _ => none
      else some (translation0, scale, 0)
    | none => some (translation0, scale, 0)
  else some (translation0, scale, 0)

/-- Modelled from the spec: a translation matrix. -/
def m4_translation (tx ty : ℚ) : Matrix (Fin 4) (Fin 4) ℚ :=
  !![1, 0, 0, tx; 0, 1, 0, ty; 0, 0, 1, 0; 0, 0, 0, 1]

/-- Modelled from the spec: `size_to_mat4` and the aspect matrix, a diagonal
scale. -/
def m4_diag (a b c : ℚ) : Matrix (Fin 4) (Fin 4) ℚ :=
  !![a, 0, 0, 0; 0, b, 0, 0; 0, 0, c, 0; 0, 0, 0, 1]

/-- Modelled from the spec: `rotate_m4(mat, 'Z', angle)`, the rotation about
the Z axis with the given cosine and sine. -/
def m4_rotZ (co si : ℚ) : Matrix (Fin 4) (Fin 4) ℚ :=
  !![co, -si, 0, 0; si, co, 0, 0; 0, 0, 1, 0; 0, 0, 0, 1]

/-- `BKE_tracking_stabilization_data_to_mat4` (tracking.c:3926-3963): the
composition `translation * center * aspect * rotation * aspect⁻¹ * scale *
center⁻¹` (`mul_serie_m4` modelled as the left-to-right product). -/
def BKE_tracking_stabilization_data_to_mat4 (trig : TrigOps)
    (width height aspect : ℚ) (translation : Vec2) (scale angle : ℚ) :
    Matrix (Fin 4) (Fin 4) ℚ :=
  m4_translation translation.1 translation.2 *
    m4_translation (width / 2) (height / 2) *
    m4_diag (1 / aspect) 1 1 *
    m4_rotZ (trig.cos angle) (trig.sin angle) *
    m4_invert (m4_diag (1 / aspect) 1 1) *
    m4_diag scale scale scale *
    m4_invert (m4_translation (width / 2) (height / 2))

/-- The frame corners scanned by the autoscale loop (tracking.c:3685). -/
def autoscale_points (width height : ℚ) : Nat → Vec2
  | 0 => (0, 0)
  | 1 => (0, height)
  | 2 => (width, height)
  | _ => (width, 0)

/-- The `rotDx` table (tracking.c:3715). -/
def rotDx : Nat → Vec2
  | 0 => (1, 0)
  | 1 => (0, -1)
  | 2 => (-1, 0)
  | _ => (0, 1)

/-- The `rotDy` table (tracking.c:3716). -/
def rotDy : Nat → Vec2
  | 0 => (0, 1)
  | 1 => (1, 0)
  | 2 => (0, -1)
  | _ => (-1, 0)

/-- One `(i, j)` step of the autoscale corner scan (tracking.c:3697-3752):
when corner `j` lies left of the transformed edge `i`, grow the scale by the
factor `S` that pushes the edge through the corner.  The division is exact
rational division (0 where the C float division would overflow or divide by
zero; no claim concerns the autoscale value). -/
def autoscale_corner_step (width height co si : ℚ) (translation : Vec2)
    (mat : Matrix (Fin 4) (Fin 4) ℚ) (i j : Nat) (scale : ℚ) : ℚ :=
  let pa := autoscale_points width height i
  let pb := autoscale_points width height ((i + 1) % 4)
  let a := mul_v3_m4v3 mat (pa.1, pa.2, 0)
  let b := mul_v3_m4v3 mat (pb.1, pb.2, 0)
  let point := autoscale_points width height j
  let v1 : Vec2 := (b.1 - a.1, b.2.1 - a.2.1)
  let v2 : Vec2 := (point.1 - a.1, point.2 - a.2.1)
  if 0 ≤ v1.1 * v2.2 - v1.2 * v2.1 then
    let dx := translation.1 * (rotDx j).1 + translation.2 * (rotDx j).2
    let dy := translation.1 * (rotDy j).1 + translation.2 * (rotDy j).2
    let w2 := if j % 2 = 1 then height / 2 else width / 2
    let h2 := if j % 2 = 1 then width / 2 else height / 2
    let E := -w2 * co + h2 * si
    let F := -h2 * co - w2 * si
    let G := if i % 2 = j % 2 then -w2 * co - h2 * si else w2 * co + h2 * si
    let H := if i % 2 = j % 2 then h2 * co - w2 * si else -h2 * co + w2 * si
    let I := F - H
    let J := G - E
    let K := G * F - E * H
    let S := (-w2 * I - h2 * J) / (dx * I + dy * J + K)
    max scale S
  else scale

/-- The stabilization frame bounds of the autoscale pass
(tracking.c:3664-3675): minimum first and maximum last marker frame over the
tracks used for stabilization (inner `none` when no track qualifies, the C
loop then never runs); a qualifying track without markers dereferences
`markers[0]`: outer `none`. -/
def autoscale_bounds_step (tracking : MovieTracking)
    (acc : Option (Option (Int × Int))) (track : MovieTrackingTrack) :
    Option (Option (Int × Int)) :=
  match acc with
  | none => none
  | some cur =>
    if track.use_2d_stab ||
        (tracking.stabilization.use_stabilize_rotation &&
          decide (tracking.stabilization.rot_track = some track)) then
      match track.markers.head?, track.markers.getLast? with
      | some h, some l =>
        match cur with
        | none => some (some (h.framenr, l.framenr))
        | some se => some (some (min se.1 h.framenr, max se.2 l.framenr))
      | _, _ => none
    else some cur

def autoscale_bounds (tracking : MovieTracking) : Option (Option (Int × Int)) :=
  tracking.tracks.foldl (autoscale_bounds_step tracking) (some none)

/-- The per-frame autoscale loop (tracking.c:3680-3754): for each frame,
compute the stabilization data, build the matrix at scale 1 and scan the
four transformed edges against the four corners, keeping the largest scale
factor. -/
def autoscale_loop (trig : TrigOps) (tracking : MovieTracking)
    (width height aspect : ℚ) (firstmedian : Vec2) :
    List Int → ℚ → Option ℚ
  | [], scale => some scale
  | cfra :: rest, scale =>
    match stabilization_median_point_get tracking cfra with
    | none => none
    | some md =>
      match stabilization_calculate_data trig tracking cfra width height
          firstmedian md.2 with
      | none => none
      | some tsa =>
        let mat := BKE_tracking_stabilization_data_to_mat4 trig width height
          aspect tsa.1 1 tsa.2.2
        let co := trig.cos tsa.2.2
        let si := trig.sin tsa.2.2
        let scale2 := [0, 1, 2, 3].foldl (fun sc i => [0, 1, 2, 3].foldl
          (fun sc2 j => autoscale_corner_step width height co si tsa.1 mat
            i j sc2) sc) scale
        autoscale_loop trig tracking width height aspect firstmedian rest
          scale2

/-- `stabilization_calculate_autoscale_factor` (tracking.c:3646-3768): early
out when the cached data is valid; otherwise reset the cached scale to 1, run
the per-frame scan over the stabilized frame range, clamp by `maxscale` and
mark the cache valid.  Returns the updated stabilization settings. -/
def stabilization_calculate_autoscale_factor (trig : TrigOps)
    (tracking : MovieTracking) (width height : ℚ) :
    Option MovieTrackingStabilization :=
  let stab := tracking.stabilization
  if stab.ok then some stab
  else
    match stabilization_median_point_get tracking 1 with
    | none => none
    | some fm =>
      if fm.1 then
        let tracking1 := { tracking with
          stabilization := { stab with scale := 1 } }
        match autoscale_bounds tracking1 with
        | none => none
        | some bounds =>
          let frames := match bounds with
            | some se => frameRange se.1 se.2
            | none => []
          match autoscale_loop trig tracking1 width height
              tracking.pixel_aspect fm.2 frames 1 with
          | none => none
          | some scale =>
            let scale2 := if 0 < stab.maxscale then min scale stab.maxscale
              else scale
            some { stab with scale := scale2, ok := true }
      else some { stab with scale := 1, ok := true }

/-- `BKE_tracking_stabilization_data_get` (tracking.c:3774-3821): zero data
when the 2D stabilization flag is off or no stabilization track exists;
otherwise reset the cached scale when autoscale is off, run the autoscale
pass when the cache is invalid and autoscale is on, and compute the data from
the first-frame and current medians.  Returns the data together with the
updated stabilization settings. -/
def BKE_tracking_stabilization_data_get (trig : TrigOps)
    (tracking : MovieTracking) (framenr : Int) (width height : ℚ) :
    Option (Vec2 × ℚ × ℚ × MovieTrackingStabilization) :=
  let stab := tracking.stabilization
  if stab.use_2d_stabilization = false then
    some ((0, 0), 1, 0, stab)
  else
    match stabilization_median_point_get tracking 1 with
    | none => none
    | some fm =>
      if fm.1 then
        match stabilization_median_point_get tracking framenr with
        | none => none
        | some md =>
          let stab1 := if stab.use_autoscale = false then
            { stab with scale := 1 } else stab
          if stab1.ok = false then
            match (if stab1.use_autoscale then
                stabilization_calculate_autoscale_factor trig
                  { tracking with stabilization := stab1 } width height
              else some stab1) with
            | none => none
            | some stab2 =>
              match stabilization_calculate_data trig
                  { tracking with stabilization := stab2 } framenr width
                  height fm.2 md.2 with
              | none => none
              | some tsa =>
                some (tsa.1, tsa.2.1, tsa.2.2, { stab2 with ok := true })
          else
            match stabilization_calculate_data trig
                { tracking with stabilization := stab1 } framenr width height
                fm.2 md.2 with
            | none => none
            | some tsa => some (tsa.1, tsa.2.1, tsa.2.2, stab1)
      else some ((0, 0), 1, 0, stab)

/-- The image buffer as far as the stabilization warp reads it: dimensions
and a pixel function. -/
structure ImBuf where
  x : Nat
  y : Nat
  px : Int → Int → ℚ × ℚ × ℚ × ℚ

/-- `BKE_tracking_stabilize_frame` (tracking.c:3828-3917): return the input
image with zero data when the 2D stabilization flag is off; otherwise warp a
new buffer of the same size through the inverse stabilization matrix, with
the interpolation function (nearest, bilinear or bicubic, all outside this
repository) abstracted as a parameter. -/
def BKE_tracking_stabilize_frame (trig : TrigOps)
    (interpolation : (Int → Int → ℚ × ℚ × ℚ × ℚ) → ℚ → ℚ → ℚ × ℚ × ℚ × ℚ)
    (tracking : MovieTracking) (framenr : Int) (ibuf : ImBuf) :
    Option (ImBuf × Vec2 × ℚ × ℚ) :=
  let stab := tracking.stabilization
  if stab.use_2d_stabilization = false then
    some (ibuf, (0, 0), 1, 0)
  else
    match BKE_tracking_stabilization_data_get trig tracking framenr ibuf.x
        ibuf.y with
    | none => none
    | some dat =>
      let mat := m4_invert (BKE_tracking_stabilization_data_to_mat4 trig
        ibuf.x ibuf.y tracking.pixel_aspect dat.1 dat.2.1 dat.2.2.1)
      let px2 : Int → Int → ℚ × ℚ × ℚ × ℚ := fun i j =>
        let v := mul_v3_m4v3 mat ((i : ℚ), (j : ℚ), 0)
        interpolation ibuf.px v.1 v.2.1
      some ({ x := ibuf.x, y := ibuf.y, px := px2 }, dat.1, dat.2.1, dat.2.2.1)

/-! Facts about the median and the autoscale pass for a single stabilization
track whose position never moves. -/

theorem marker_get_marker_some {track : MovieTrackingTrack} {f : Int}
    (hs : MarkersSorted track.markers) (hne : track.markers ≠ []) :
    ∃ m, marker_get_marker track f = some m ∧ m ∈ track.markers := by
  rw [marker_get_marker_eq hs hne]
  obtain ⟨m, hm⟩ := specNearestMarker_isSome (f := f) hne
  exact ⟨m, hm, specNearestMarker_mem hm⟩

theorem median_step_not_stab {track : MovieTrackingTrack}
    (h : track.use_2d_stab = false) (f : Int)
    (acc : Option (Bool × Vec2 × Vec2)) :
    median_point_step f acc track = acc := by
  cases acc with
  | none => rfl
  | some s =>
    unfold median_point_step
    dsimp only
    rw [if_neg (by simp [h])]

theorem median_fold_no_stab {ts : List MovieTrackingTrack}
    (h : ∀ t ∈ ts, t.use_2d_stab = false) (f : Int)
    (acc : Option (Bool × Vec2 × Vec2)) :
    ts.foldl (median_point_step f) acc = acc := by
  induction ts generalizing acc with
  | nil => rfl
  | cons t ts2 ih =>
    rw [List.foldl_cons, median_step_not_stab (h t (by simp)) f acc]
    exact ih (fun t2 ht2 => h t2 (by simp [ht2])) acc

/-- With exactly one stabilization track whose markers are sorted and all sit
at position `p` (within the minmax sentinels), the median at every frame is
`p`. -/
theorem median_const {tracking : MovieTracking} {tr : MovieTrackingTrack}
    {p : Vec2}
    (htr : tracking.tracks.filter (fun t => t.use_2d_stab) = [tr])
    (hs : MarkersSorted tr.markers) (hne : tr.markers ≠ [])
    (hp : ∀ m ∈ tr.markers, m.pos = p)
    (hb1 : -initMinmaxSentinel ≤ p.1) (hb2 : p.1 ≤ initMinmaxSentinel)
    (hb3 : -initMinmaxSentinel ≤ p.2) (hb4 : p.2 ≤ initMinmaxSentinel)
    (f : Int) :
    stabilization_median_point_get tracking f = some (true, p) := by
  unfold stabilization_median_point_get
  have hfold : ∀ ts : List MovieTrackingTrack,
      ts.filter (fun t => t.use_2d_stab) = [tr] →
      ts.foldl (median_point_step f)
        (some (false, (initMinmaxSentinel, initMinmaxSentinel),
          (-initMinmaxSentinel, -initMinmaxSentinel))) =
        some (true, p, p) := by
    intro ts
    induction ts with
    | nil => intro h; simp at h
    | cons t ts2 ih =>
      intro h
      by_cases ht : t.use_2d_stab = true
      · rw [List.filter_cons_of_pos ht] at h
        have hpair := List.cons_eq_cons.1 h
        have heq : t = tr := hpair.1
        have hrest : ts2.filter (fun t => t.use_2d_stab) = [] := hpair.2
        obtain ⟨m, hm, hmem⟩ := marker_get_marker_some (f := f)
          (heq ▸ hs) (heq ▸ hne)
        rw [List.foldl_cons]
        rw [show median_point_step f
            (some (false, (initMinmaxSentinel, initMinmaxSentinel),
              (-initMinmaxSentinel, -initMinmaxSentinel))) t =
            some (true, p, p) from ?_]
        · exact median_fold_no_stab
            (fun t2 ht2 => by
              rcases List.filter_eq_nil_iff.1 hrest t2 ht2 with h2
              simpa using h2) f _
        · unfold median_point_step
          dsimp only
          rw [if_pos ht, hm]
          have hpos : m.pos = p := hp m (heq ▸ hmem)
          dsimp only
          rw [hpos]
          unfold minmax_v2v2_v2
          rw [min_eq_right hb2, min_eq_right hb4, max_eq_right hb1,
            max_eq_right hb3]
      · have ht2 : t.use_2d_stab = false := by simpa using ht
        rw [List.filter_cons_of_neg (by simp [ht2])] at h
        rw [List.foldl_cons, median_step_not_stab ht2 f _]
        exact ih h
  rw [hfold tracking.tracks htr]
  have h1 : (p.1 + p.1) / 2 = p.1 := by ring
  have h2 : (p.2 + p.2) / 2 = p.2 := by ring
  simp only [Option.map_some']
  rw [h1, h2]

/-- With rotation stabilization inactive (flag off or no rotation track) the
data is the pure translation formula with angle zero. -/
theorem calculate_data_no_rotation (trig : TrigOps)
    (tracking : MovieTracking) (framenr : Int) (width height : ℚ)
    (firstmedian median : Vec2)
    (hrot : tracking.stabilization.use_stabilize_rotation = false ∨
      tracking.stabilization.rot_track = none) :
    stabilization_calculate_data trig tracking framenr width height
        firstmedian median =
      some (((firstmedian.1 - median.1) * width *
          ((tracking.stabilization.scale - 1) *
            tracking.stabilization.scaleinf + 1) *
          tracking.stabilization.locinf,
        (firstmedian.2 - median.2) * height *
          ((tracking.stabilization.scale - 1) *
            tracking.stabilization.scaleinf + 1) *
          tracking.stabilization.locinf),
        (tracking.stabilization.scale - 1) *
          tracking.stabilization.scaleinf + 1, 0) := by
  unfold stabilization_calculate_data
  rcases hrot with hflag | hnone
  · rw [if_neg (by simp [hflag])]
  · cases hflag : tracking.stabilization.use_stabilize_rotation with
    | false => rw [if_neg (by simp [hflag])]
    | true =>
      rw [if_pos (by simp [hflag]), hnone]

theorem autoscale_bounds_some (tracking : MovieTracking)
    (hq : ∀ t ∈ tracking.tracks, (t.use_2d_stab ||
        (tracking.stabilization.use_stabilize_rotation &&
          decide (tracking.stabilization.rot_track = some t))) = true →
      t.markers ≠ []) :
    ∃ b, autoscale_bounds tracking = some b := by
  unfold autoscale_bounds
  have haux : ∀ ts : List MovieTrackingTrack,
      (∀ t ∈ ts, (t.use_2d_stab ||
        (tracking.stabilization.use_stabilize_rotation &&
          decide (tracking.stabilization.rot_track = some t))) = true →
        t.markers ≠ []) →
      ∀ acc, ∃ b, ts.foldl (autoscale_bounds_step tracking) (some acc) =
        some b := by
    intro ts
    induction ts with
    | nil =>
      intro _ acc
      exact ⟨acc, rfl⟩
    | cons t ts2 ih =>
      intro h acc
      rw [List.foldl_cons]
      by_cases hc : (t.use_2d_stab ||
          (tracking.stabilization.use_stabilize_rotation &&
            decide (tracking.stabilization.rot_track = some t))) = true
      · have hne := h t (by simp) hc
        have hh : ∃ hd, t.markers.head? = some hd := by
          cases hm : t.markers.head? with
          | some hd => exact ⟨hd, rfl⟩
          | none => exact absurd (List.head?_eq_none_iff.1 hm) hne
        have hl : ∃ lst, t.markers.getLast? = some lst := by
          cases hm : t.markers.getLast? with
          | some lst => exact ⟨lst, rfl⟩
          | none => exact absurd (List.getLast?_eq_none_iff.1 hm) hne
        obtain ⟨hd, hhd⟩ := hh
        obtain ⟨lst, hlst⟩ := hl
        have hstep : autoscale_bounds_step tracking (some acc) t =
            some (match acc with
              | none => some (hd.framenr, lst.framenr)
              | some se => some (min se.1 hd.framenr, max se.2 lst.framenr)) := by
          unfold autoscale_bounds_step
          dsimp only
          rw [if_pos hc, hhd, hlst]
          cases acc <;> rfl
        rw [hstep]
        exact ih (fun t2 ht2 => h t2 (by simp [ht2])) _
      · have hstep : autoscale_bounds_step tracking (some acc) t = some acc := by
          unfold autoscale_bounds_step
          dsimp only
          rw [if_neg hc]
        rw [hstep]
        exact ih (fun t2 ht2 => h t2 (by simp [ht2])) acc
  exact haux tracking.tracks hq none

theorem autoscale_loop_some (trig : TrigOps) (tracking : MovieTracking)
    (w h aspect : ℚ) (fm : Vec2)
    (hmed : ∀ f, ∃ md, stabilization_median_point_get tracking f = some md)
    (hrot : tracking.stabilization.use_stabilize_rotation = false ∨
      tracking.stabilization.rot_track = none) :
    ∀ (frames : List Int) (sc : ℚ), ∃ s,
      autoscale_loop trig tracking w h aspect fm frames sc = some s := by
  intro frames
  induction frames with
  | nil =>
    intro sc
    exact ⟨sc, rfl⟩
  | cons cfra rest ih =>
    intro sc
    rw [autoscale_loop]
    obtain ⟨md, hmd⟩ := hmed cfra
    rw [hmd]
    dsimp only
    rw [calculate_data_no_rotation trig tracking cfra w h fm md.2 hrot]
    exact ih _

theorem autoscale_factor_some (trig : TrigOps) (tracking : MovieTracking)
    (w h : ℚ) {p : Vec2}
    (hok : tracking.stabilization.ok = false)
    (hmed : ∀ f, stabilization_median_point_get tracking f = some (true, p))
    (hq : ∀ t ∈ tracking.tracks, (t.use_2d_stab ||
        (tracking.stabilization.use_stabilize_rotation &&
          decide (tracking.stabilization.rot_track = some t))) = true →
      t.markers ≠ [])
    (hrot : tracking.stabilization.use_stabilize_rotation = false ∨
      tracking.stabilization.rot_track = none) :
    ∃ sc2, stabilization_calculate_autoscale_factor trig tracking w h =
      some { tracking.stabilization with scale := sc2, ok := true } := by
  unfold stabilization_calculate_autoscale_factor
  rw [if_neg (by simp [hok]), hmed 1]
  dsimp only
  rw [if_pos rfl]
  obtain ⟨b, hb⟩ := autoscale_bounds_some
    { tracking with stabilization := { tracking.stabilization with scale := 1 } }
    (by intro t ht hc; exact hq t ht hc)
  rw [hb]
  cases b with
  | none =>
    dsimp only
    obtain ⟨s, hsl⟩ := autoscale_loop_some trig
      { tracking with stabilization := { tracking.stabilization with scale := 1 } }
      w h tracking.pixel_aspect p (fun f => ⟨(true, p), hmed f⟩) hrot [] 1
    rw [hsl]
    exact ⟨_, rfl⟩
  | some se =>
    dsimp only
    obtain ⟨s, hsl⟩ := autoscale_loop_some trig
      { tracking with stabilization := { tracking.stabilization with scale := 1 } }
      w h tracking.pixel_aspect p (fun f => ⟨(true, p), hmed f⟩) hrot
      (frameRange se.1 se.2) 1
    rw [hsl]
    exact ⟨_, rfl⟩

/-- C7, amended: with the `TRACKING_2D_STABILIZATION` flag off,
`BKE_tracking_stabilize_frame` returns the input image unchanged and reports
zero translation, scale 1 and angle 0, and the data query reports the same
zero data; with stabilization enabled, exactly one track flagged for 2D
stabilization whose (sorted, within the minmax sentinels) marker positions
never move, and rotation stabilization inactive (flag off or no rotation
track), the computed translation is zero and the angle zero at every frame. -/
theorem C7_stabilization_flag_and_constant :
    (∀ (trig : TrigOps)
      (interpolation : (Int → Int → ℚ × ℚ × ℚ × ℚ) → ℚ → ℚ → ℚ × ℚ × ℚ × ℚ)
      (tracking : MovieTracking) (framenr : Int) (ibuf : ImBuf) (w h : ℚ),
      tracking.stabilization.use_2d_stabilization = false →
      BKE_tracking_stabilize_frame trig interpolation tracking framenr ibuf =
        some (ibuf, (0, 0), 1, 0) ∧
      BKE_tracking_stabilization_data_get trig tracking framenr w h =
        some ((0, 0), 1, 0, tracking.stabilization)) ∧
    (∀ (trig : TrigOps) (tracking : MovieTracking)
      (tr : MovieTrackingTrack) (p : Vec2) (framenr : Int) (w h : ℚ),
      tracking.tracks.filter (fun t => t.use_2d_stab) = [tr] →
      MarkersSorted tr.markers → tr.markers ≠ [] →
      (∀ m ∈ tr.markers, m.pos = p) →
      -initMinmaxSentinel ≤ p.1 → p.1 ≤ initMinmaxSentinel →
      -initMinmaxSentinel ≤ p.2 → p.2 ≤ initMinmaxSentinel →
      tracking.stabilization.use_2d_stabilization = true →
      (tracking.stabilization.use_stabilize_rotation = false ∨
        tracking.stabilization.rot_track = none) →
      ∃ sc st, BKE_tracking_stabilization_data_get trig tracking framenr w h =
        some ((0, 0), sc, 0, st)) := by
  constructor
  · intro trig interpolation tracking framenr ibuf w h hflag
    constructor
    · unfold BKE_tracking_stabilize_frame
      rw [if_pos hflag]
    · unfold BKE_tracking_stabilization_data_get
      rw [if_pos hflag]
  · intro trig tracking tr p framenr w h htr hs hne hp hb1 hb2 hb3 hb4 hflag
      hrot
    have hmed := median_const htr hs hne hp hb1 hb2 hb3 hb4
    have hcd : ∀ st2 : MovieTrackingStabilization,
        st2.use_stabilize_rotation =
          tracking.stabilization.use_stabilize_rotation →
        st2.rot_track = tracking.stabilization.rot_track →
        stabilization_calculate_data trig
          { tracking with stabilization := st2 } framenr w h p p =
          some ((0, 0), (st2.scale - 1) * st2.scaleinf + 1, 0) := by
      intro st2 h1 h2
      rw [calculate_data_no_rotation trig
        { tracking with stabilization := st2 } framenr w h p p
        (by rcases hrot with hf | hn
            · exact Or.inl (by rw [show ({ tracking with stabilization := st2 } :
                MovieTracking).stabilization.use_stabilize_rotation =
                st2.use_stabilize_rotation from rfl, h1, hf])
            · exact Or.inr (by rw [show ({ tracking with stabilization := st2 } :
                MovieTracking).stabilization.rot_track = st2.rot_track from rfl,
                h2, hn]))]
      norm_num
    unfold BKE_tracking_stabilization_data_get
    rw [if_neg (by simp [hflag])]
    rw [hmed 1]
    dsimp only
    rw [if_pos rfl, hmed framenr]
    dsimp only
    generalize hst1 : (if tracking.stabilization.use_autoscale = false then
      { tracking.stabilization with scale := 1 }
      else tracking.stabilization) = st1
    have hrot1 : st1.use_stabilize_rotation =
        tracking.stabilization.use_stabilize_rotation := by
      rw [← hst1]
      split <;> rfl
    have hrt1 : st1.rot_track = tracking.stabilization.rot_track := by
      rw [← hst1]
      split <;> rfl
    have hq : ∀ t ∈ tracking.tracks, (t.use_2d_stab ||
        (st1.use_stabilize_rotation && decide (st1.rot_track = some t))) =
          true → t.markers ≠ [] := by
      intro t ht hcond
      have h2d : t.use_2d_stab = true := by
        rcases hrot with hf | hn
        · rw [hrot1, hf] at hcond
          simpa using hcond
        · rw [hrt1, hn] at hcond
          simpa using hcond
      have htf : t ∈ tracking.tracks.filter (fun t => t.use_2d_stab) :=
        List.mem_filter.2 ⟨ht, h2d⟩
      rw [htr] at htf
      rw [show t = tr by simpa using htf]
      exact hne
    by_cases hok : st1.ok = false
    · rw [if_pos hok]
      by_cases hau : st1.use_autoscale = true
      · rw [if_pos hau]
        obtain ⟨sc2, hAS⟩ := autoscale_factor_some trig
          { tracking with stabilization := st1 } w h hok
          (fun f => hmed f) hq
          (by rcases hrot with hf | hn
              · exact Or.inl (by rw [show ({ tracking with stabilization :=
                  st1 } : MovieTracking).stabilization.use_stabilize_rotation =
                  st1.use_stabilize_rotation from rfl, hrot1, hf])
              · exact Or.inr (by rw [show ({ tracking with stabilization :=
                  st1 } : MovieTracking).stabilization.rot_track =
                  st1.rot_track from rfl, hrt1, hn]))
        rw [hAS]
        dsimp only
        rw [hcd { st1 with scale := sc2, ok := true }
          (by rw [show ({ st1 with scale := sc2, ok := true } :
            MovieTrackingStabilization).use_stabilize_rotation =
            st1.use_stabilize_rotation from rfl, hrot1])
          (by rw [show ({ st1 with scale := sc2, ok := true } :
            MovieTrackingStabilization).rot_track = st1.rot_track from rfl,
            hrt1])]
        exact ⟨_, _, rfl⟩
      · rw [if_neg hau]
        dsimp only
        rw [hcd st1 hrot1 hrt1]
        exact ⟨_, _, rfl⟩
    · rw [if_neg hok]
      rw [hcd st1 hrot1 hrt1]
      exact ⟨_, _, rfl⟩

/-- The C7 counterexample trig backend.  Only three values are read, and they
agree with the real float functions at those points: `atan2(10000, 0) = π/2`
(encoded as the token 1000), `cos(-π/2) = 0` and `sin(-π/2) = -1`.  Any
backend with `cos(-atan2(10000, 0) * 1) ≠ 1` produces a non-zero
translation here. -/
def trigC7 : TrigOps :=
  { atan2 := fun y x => if y = 10000 ∧ x = 0 then 1000 else 0
    cos := fun t => if t = -1000 then 0 else 1
    sin := fun t => if t = -1000 then -1 else 0 }

/-- The stabilization track of the C7 counterexample: constant position
`(6, 5)` at frames 1 and 2. -/
def stabTrackC7 : MovieTrackingTrack :=
  { markers := [testMarker 1 6 5, testMarker 2 6 5]
    last_marker := 0
    use_2d_stab := true }

/-- The rotation track of the C7 counterexample: it moves from `(7, 5)` at
frame 1 to `(6, 6)` at frame 2. -/
def rotTrackC7 : MovieTrackingTrack :=
  { markers := [testMarker 1 7 5, testMarker 2 6 6]
    last_marker := 0 }

/-- The C7 counterexample settings: 2D stabilization with rotation
stabilization on the rotation track, all influences 1, cached data valid. -/
def stabC7 : MovieTrackingStabilization :=
  { use_2d_stabilization := true
    use_autoscale := false
    use_stabilize_rotation := true
    rot_track := some rotTrackC7
    locinf := 1
    scaleinf := 1
    rotinf := 1
    scale := 1
    maxscale := 0
    ok := true }

/-- The C7 counterexample tracking data. -/
def trackingC7 : MovieTracking :=
  { tracks := [stabTrackC7, rotTrackC7]
    stabilization := stabC7
    pixel_aspect := 1 }

/-- C7 counterexample: on a 100x100 frame with the single stabilization
track pinned at `(6, 5)` but rotation stabilization following a moving
rotation track, the reported translation at frame 2 is `(100, 1000)`, not
zero: the rotation-around-center correction (tracking.c:3638-3639) shifts
the translation even though the stabilization track never moves. -/
theorem C7_stabilization_counterexample :
    BKE_tracking_stabilization_data_get trigC7 trackingC7 2 100 100 =
      some ((100, 1000), 1, -1000, { stabC7 with scale := 1 }) ∧
    ((100, 1000) : Vec2) ≠ ((0, 0) : Vec2) := by
  constructor
  · have hmed : ∀ f, stabilization_median_point_get trackingC7 f =
        some (true, (6, 5)) := by
      intro f
      exact @median_const trackingC7 stabTrackC7 (6, 5) (by decide) (by decide)
        (by decide) (by decide)
        (by norm_num [initMinmaxSentinel])
        (by norm_num [initMinmaxSentinel])
        (by norm_num [initMinmaxSentinel])
        (by norm_num [initMinmaxSentinel]) f
    have hm1 : marker_get_marker rotTrackC7 1 = some (testMarker 1 7 5) := by
      rw [marker_get_marker_eq (by decide) (by decide)]
      decide
    have hm2 : marker_get_marker rotTrackC7 2 = some (testMarker 2 6 6) := by
      rw [marker_get_marker_eq (by decide) (by decide)]
      decide
    have hcalc : stabilization_calculate_data trigC7
        { trackingC7 with stabilization := { stabC7 with scale := 1 } } 2
        100 100 (6, 5) (6, 5) =
        some ((100, 1000), 1, -1000) := by
      unfold stabilization_calculate_data
      rw [if_pos (by decide)]
      rw [show ({ trackingC7 with stabilization := { stabC7 with scale := 1 } } :
        MovieTracking).stabilization.rot_track = some rotTrackC7 from rfl]
      dsimp only
      rw [if_pos (by decide), hm1, hm2]
      dsimp only
      norm_num [trigC7, testMarker, stabC7]
    unfold BKE_tracking_stabilization_data_get
    rw [if_neg (by decide)]
    rw [hmed 1]
    dsimp only
    rw [if_pos rfl, hmed 2]
    dsimp only
    rw [if_pos (show trackingC7.stabilization.use_autoscale = false by decide)]
    rw [if_neg (show ¬ ({ trackingC7.stabilization with scale := 1 } :
      MovieTrackingStabilization).ok = false by decide)]
    rw [show ({ trackingC7.stabilization with scale := 1 } :
      MovieTrackingStabilization) = { stabC7 with scale := 1 } from rfl]
    rw [hcalc]
  · decide

/-- A rotation-free stabilization setup over the constant track, with
autoscale requested and the cache invalid (so the witness walks the autoscale
path as well). -/
def trackingC7w : MovieTracking :=
  { tracks := [stabTrackC7]
    stabilization := { stabC7 with
      use_stabilize_rotation := false
      rot_track := none
      use_autoscale := true
      ok := false }
    pixel_aspect := 1 }

/-- The counterexample tracking with the 2D stabilization flag cleared. -/
def trackingOffC7 : MovieTracking :=
  { trackingC7 with
    stabilization := { stabC7 with use_2d_stabilization := false } }

/-- A tiny concrete image buffer. -/
def ibufC7 : ImBuf :=
  { x := 2
    y := 2
    px := fun i j => (0, 0, 0, 0) }

/-- Witness for the amended C7: with stabilization off the frame warp returns
the input buffer with zero data, and with the single constant track (rotation
stabilization inactive, autoscale requested with an invalid cache) the
reported translation and angle at frame 5 are zero. -/
theorem C7_stabilization_flag_and_constant_witness :
    BKE_tracking_stabilize_frame trigC7 (fun px a b => px 0 0) trackingOffC7
      3 ibufC7 = some (ibufC7, (0, 0), 1, 0) ∧
    (∃ sc st, BKE_tracking_stabilization_data_get trigC7 trackingC7w 5
      100 100 = some ((0, 0), sc, 0, st)) := by
  constructor
  · exact (C7_stabilization_flag_and_constant.1 trigC7 (fun px a b => px 0 0)
      trackingOffC7 3 ibufC7 100 100 (by decide)).1
  · exact C7_stabilization_flag_and_constant.2 trigC7 trackingC7w stabTrackC7
      (6, 5) 5 100 100 (by decide) (by decide) (by decide) (by decide)
      (by norm_num [initMinmaxSentinel]) (by norm_num [initMinmaxSentinel])
      (by norm_num [initMinmaxSentinel]) (by norm_num [initMinmaxSentinel])
      (by decide) (Or.inl (by decide))

end Tracking
